import Mathlib

/-!
# Ulysses kernel: task scheduler (`src/task.cpp`)

A shallow embedding of the scheduler of `src/task.cpp` together with the
collaborators it calls (`src/timer.c`, the interrupt guard of `src/common.c`).

The kernel heap is a map from task addresses to task records.  The three
queues of the scheduler are intrusive doubly linked lists: a queue is a pair
of head and tail pointers and the links live inside the task records, one
link node per task shared by all three queues.  A null pointer is `none`.

Operations that dereference a null pointer, overflow a signed integer or
iterate over a list that never ends stop with a `Fault`.
-/

namespace Ulysses

/-! ## Data model -/

/-- A non-null address of the kernel heap. -/
abbrev Ptr := Nat

/-- Ways in which an operation fails to produce a next state. -/
inductive Fault where
  | null_deref
  | int_overflow
  | out_of_fuel
  deriving DecidableEq, Repr

/-- Reduction of a natural number to an unsigned 32-bit machine word. -/
def u32 (n : Nat) : Nat := n % 4294967296

/-- Largest value of the C++ type int on the 32-bit target. -/
def INT_MAX : Int := 2147483647

/-- Modelled from the spec: the enum Task::State of task.hpp, which is not among
the sources. The spec lists the lifecycle states Ready, Running, Waiting and
Dead; task.cpp names eWaiting and eDead. -/
inductive Task.State where
  | eReady
  | eRunning
  | eWaiting
  | eDead
  deriving DecidableEq, Repr

/-- Modelled from the spec: the record Task of task.hpp, which is not among the
sources. The fields are those task.cpp reads and writes: id, alarm_at and
exit_code (set by the constructor), state, regs, directory, kernel_stack, and
the link node (next, prev) of the intrusive run list. The register snapshot
is an uninterpreted number. -/
structure Task where
  id : Int
  state : Task.State
  alarm_at : Nat
  exit_code : Int
  regs : Nat
  directory : Nat
  kernel_stack : Nat
  next : Option Ptr
  prev : Option Ptr
  deriving DecidableEq, Repr

/-- The kernel heap, read as task records. -/
abbrev Heap := Ptr → Task

/-- Constructor Task::Task(int pid) run on the block `raw` returned by the
allocator: its initialiser list sets id, alarm_at and exit_code, its body is
empty, and every other field keeps the content the block already had. -/
def Task.ctor (pid : Int) (raw : Task) : Task :=
  { raw with id := pid, alarm_at := 0, exit_code := 0 }

/-- Modelled from the spec: Task::next_runnable of task.hpp, the task that
follows this one in rotation order, read from the link node (null at the
tail). -/
def Task.next_runnable (t : Task) : Option Ptr := t.next

/-- Task::alarm_expired, with timer.ticks passed as `ticks`. -/
def Task.alarm_expired (t : Task) (ticks : Nat) : Bool :=
  decide (t.state = Task.State.eWaiting) && decide (t.alarm_at ≠ 0) &&
    decide (t.alarm_at ≤ ticks)

/-- Modelled from the spec: the list header sys::List of list.hpp (Task::RunList),
which is not among the sources: an intrusive doubly linked list with head and
tail pointers, the links being stored in the tasks. -/
structure RunList where
  head_ : Option Ptr
  tail_ : Option Ptr
  deriving DecidableEq, Repr

/-- Modelled from the spec: RunList::init, the empty list. -/
def RunList.init : RunList := ⟨none, none⟩

/-- Modelled from the spec: RunList::head. -/
def RunList.head (q : RunList) : Option Ptr := q.head_

/-- Modelled from the spec: RunList::begin, an iterator standing at the head.
An iterator is the pointer to the element it will return next: more_p tests it
against null and advance returns it and moves to its next link. -/
def RunList.begin (q : RunList) : Option Ptr := q.head_

/-- Store `n` in the next link of the task at `p`. -/
def setNext (mem : Heap) (p : Ptr) (n : Option Ptr) : Heap :=
  Function.update mem p { mem p with next := n }

/-- Store `n` in the prev link of the task at `p`. -/
def setPrev (mem : Heap) (p : Ptr) (n : Option Ptr) : Heap :=
  Function.update mem p { mem p with prev := n }

/-- Modelled from the spec: RunList::append, insertion at the tail. -/
def RunList.append (q : RunList) (mem : Heap) (elem : Ptr) : RunList × Heap :=
  let mem1 := Function.update mem elem { mem elem with next := none, prev := q.tail_ }
  match q.tail_ with
  | some t => (⟨q.head_, some elem⟩, setNext mem1 t (some elem))
  | none => (⟨some elem, some elem⟩, mem1)

/-- Modelled from the spec: RunList::prepend, insertion at the head. -/
def RunList.prepend (q : RunList) (mem : Heap) (elem : Ptr) : RunList × Heap :=
  let mem1 := Function.update mem elem { mem elem with next := q.head_, prev := none }
  match q.head_ with
  | some h => (⟨some elem, q.tail_⟩, setPrev mem1 h (some elem))
  | none => (⟨some elem, some elem⟩, mem1)

/-- Modelled from the spec: RunList::unlink, removal of `elem` through its own
links; the links of `elem` are cleared. -/
def RunList.unlink (q : RunList) (mem : Heap) (elem : Ptr) : RunList × Heap :=
  let n := (mem elem).next
  let p := (mem elem).prev
  let mem1 := match p with
    | some pp => setNext mem pp n
    | none => mem
  let hd := match p with
    | some _ => q.head_
    | none => n
  let mem2 := match n with
    | some nn => setPrev mem1 nn p
    | none => mem1
  let tl := match n with
    | some _ => q.tail_
    | none => p
  (⟨hd, tl⟩, Function.update mem2 elem { mem2 elem with next := none, prev := none })

/-- Calls to the collaborators that leave the scheduler: the context-switch
primitives, the trap stack setter and the two deallocators. -/
inductive Event where
  | save_registers (task : Ptr)
  | restore_registers (task : Ptr) (regs : Nat) (directory : Nat)
  | set_kernel_stack (addr : Nat)
  | free_directory (directory : Nat)
  | kfree (addr : Nat)
  deriving DecidableEq, Repr

/-- What the call site of save_registers evaluates to: a first capture, or the
address of second_return when the site is reached by a resume. -/
inductive Marker where
  | fresh
  | second_return
  deriving DecidableEq, Repr

/-- Build constants and timer conversion that the scheduler takes from headers
not among the sources: KERNEL_STACK_SIZE and Timer::secs_to_ticks. -/
structure Platform where
  KERNEL_STACK_SIZE : Nat
  secs_to_ticks : Int → Nat

/-- The scheduler object with the global state of its collaborators:
timer.ticks, the interrupt flag of common.c, vmem.current_directory, the kernel
stack pointer of the trap entry path, the register file of the processor and
the log of collaborator calls. -/
structure Kernel where
  mem : Heap
  ready_queue : RunList
  waiting_queue : RunList
  cleanup_queue : RunList
  current : Option Ptr
  next_pid : Int
  ticks : Nat
  interrupts_on : Bool
  current_directory : Nat
  kernel_stack : Nat
  cpu_regs : Nat
  trace : List Event

/-! ## Interrupt guard (`src/common.c`) -/

/-- Function disable_interrupts of common.c: returns 1 iff interrupts were on. -/
def disable_interrupts (σ : Kernel) : Int × Kernel :=
  if σ.interrupts_on = false then (0, σ)
  else (1, { σ with interrupts_on := false })

/-- Function restore_interrupts of common.c. -/
def restore_interrupts (val : Int) (σ : Kernel) : Kernel :=
  if val ≠ 0 then { σ with interrupts_on := true } else σ

/-- Modelled from the spec: cpu::enable_interrupts, which re-enables
interrupts unconditionally. -/
def enable_interrupts (σ : Kernel) : Kernel :=
  { σ with interrupts_on := true }

/-! ## Scheduler (`src/task.cpp`) -/

/-- Statement ready_queue.unlink(task). -/
def ready_unlink (task : Ptr) (σ : Kernel) : Kernel :=
  let r := σ.ready_queue.unlink σ.mem task
  { σ with ready_queue := r.1, mem := r.2 }

/-- Statement ready_queue.append(task). -/
def ready_append (task : Ptr) (σ : Kernel) : Kernel :=
  let r := σ.ready_queue.append σ.mem task
  { σ with ready_queue := r.1, mem := r.2 }

/-- Statement waiting_queue.unlink(task). -/
def waiting_unlink (task : Ptr) (σ : Kernel) : Kernel :=
  let r := σ.waiting_queue.unlink σ.mem task
  { σ with waiting_queue := r.1, mem := r.2 }

/-- Statement waiting_queue.append(task). -/
def waiting_append (task : Ptr) (σ : Kernel) : Kernel :=
  let r := σ.waiting_queue.append σ.mem task
  { σ with waiting_queue := r.1, mem := r.2 }

/-- Statement cleanup_queue.unlink(task). -/
def cleanup_unlink (task : Ptr) (σ : Kernel) : Kernel :=
  let r := σ.cleanup_queue.unlink σ.mem task
  { σ with cleanup_queue := r.1, mem := r.2 }

/-- Statement cleanup_queue.prepend(task). -/
def cleanup_prepend (task : Ptr) (σ : Kernel) : Kernel :=
  let r := σ.cleanup_queue.prepend σ.mem task
  { σ with cleanup_queue := r.1, mem := r.2 }

/-- Assignment task->state = s. -/
def set_state (task : Ptr) (s : Task.State) (σ : Kernel) : Kernel :=
  { σ with mem := Function.update σ.mem task { σ.mem task with state := s } }

/-- Modelled from the spec: Scheduler::make_ready of task.hpp, which sets the
state of the task to Ready and admits it to the tail of the ready queue. -/
def make_ready (task : Ptr) (σ : Kernel) : Kernel :=
  ready_append task (set_state task Task.State.eReady σ)

/-- Modelled from the spec: Scheduler::make_wait of task.hpp, which sets the
state of the task to Waiting and admits it to the waiting queue. -/
def make_wait (task : Ptr) (σ : Kernel) : Kernel :=
  waiting_append task (set_state task Task.State.eWaiting σ)

/-- Method Task::sleep_til applied to the task at `task`. The tick counter and
the result of secs_to_ticks are unsigned 32-bit words (the spec gives
seconds_to_ticks the type u32 -> u32), so the sum is taken modulo 2^32. -/
def sleep_til (pf : Platform) (task : Ptr) (secs : Int) (σ : Kernel) : Kernel :=
  { σ with
    mem := Function.update σ.mem task
      { σ.mem task with alarm_at := u32 (σ.ticks + pf.secs_to_ticks secs) } }

/-- First return of save_registers(&task->regs): the register file is stored
in the task. -/
def save_registers (task : Ptr) (σ : Kernel) : Kernel :=
  { σ with
    mem := Function.update σ.mem task { σ.mem task with regs := σ.cpu_regs }
    trace := σ.trace ++ [Event.save_registers task] }

/-- Method Scheduler::init; `task0` and `stack` are the addresses returned by
the two allocations. -/
def init (task0 : Ptr) (stack : Nat) (σ : Kernel) : Kernel :=
  let σ1 := (disable_interrupts σ).2
  let σ2 := { σ1 with
    next_pid := 0, current := none, ready_queue := RunList.init,
    cleanup_queue := RunList.init, waiting_queue := RunList.init }
  let σ3 := { σ2 with
    mem := Function.update σ2.mem task0 (Task.ctor σ2.next_pid (σ2.mem task0))
    next_pid := σ2.next_pid + 1
    current := some task0 }
  let σ4 := { σ3 with
    mem := Function.update σ3.mem task0
      { σ3.mem task0 with directory := σ3.current_directory, kernel_stack := stack } }
  enable_interrupts (make_ready task0 σ4)

/-- The candidate of Scheduler::switch_task: the successor of the task at `cur`
or, when that is null, the head of the ready queue. -/
def pick_next (σ : Kernel) (cur : Ptr) : Option Ptr :=
  match (σ.mem cur).next_runnable with
  | some n => some n
  | none => σ.ready_queue.head

/-- Method Scheduler::switch_task; `val` is what the save_registers call site
evaluates to. When the ready queue offers no successor, current becomes null
and the next statement dereferences it. -/
def switch_task (pf : Platform) (val : Marker) (σ : Kernel) : Except Fault Kernel :=
  match σ.current with
  | none => .ok σ
  | some cur =>
    match val with
    | .second_return => .ok σ
    | .fresh =>
      let σ1 := save_registers cur σ
      let next := pick_next σ1 cur
      if next = some cur then .ok σ1
      else match next with
        | none => .error .null_deref
        | some n =>
          let dir := (σ1.mem n).directory
          let top := u32 ((σ1.mem n).kernel_stack + pf.KERNEL_STACK_SIZE)
          .ok { σ1 with
            current := some n
            current_directory := dir
            kernel_stack := top
            cpu_regs := (σ1.mem n).regs
            trace := σ1.trace ++
              [Event.set_kernel_stack top, Event.restore_registers n (σ1.mem n).regs dir] }

/-- Loop of Scheduler::cleanup; `i` is the iterator. -/
def cleanup_loop : Nat → Option Ptr → Kernel → Except Fault Kernel
  | _, none, σ => .ok σ
  | 0, some _, _ => .error .out_of_fuel
  | fuel + 1, some task, σ =>
    let i := (σ.mem task).next
    let σ1 := cleanup_unlink task σ
    let σ2 := { σ1 with trace := σ1.trace ++
      [Event.free_directory (σ1.mem task).directory,
       Event.kfree (σ1.mem task).kernel_stack, Event.kfree task] }
    cleanup_loop fuel i σ2

/-- Method Scheduler::cleanup, with a bound on the number of iterations. -/
def cleanup (fuel : Nat) (σ : Kernel) : Except Fault Kernel :=
  cleanup_loop fuel σ.cleanup_queue.begin σ

/-- Loop of Scheduler::on_tick; `i` is the iterator and the boolean is the
local variable schedule. -/
def on_tick_loop : Nat → Option Ptr → Kernel → Bool → Except Fault (Kernel × Bool)
  | _, none, σ, schedule => .ok (σ, schedule)
  | 0, some _, _, _ => .error .out_of_fuel
  | fuel + 1, some task, σ, schedule =>
    let i := (σ.mem task).next
    if (σ.mem task).alarm_expired σ.ticks then
      on_tick_loop fuel i (make_ready task (waiting_unlink task σ)) true
    else
      on_tick_loop fuel i σ schedule

/-- Method Scheduler::on_tick, with a bound on the number of iterations. -/
def on_tick (pf : Platform) (fuel : Nat) (σ : Kernel) : Except Fault Kernel :=
  match on_tick_loop fuel σ.waiting_queue.begin σ false with
  | .error e => .error e
  | .ok (σ1, schedule) =>
    if schedule then switch_task pf .fresh σ1 else .ok σ1

/-- Function timer_callback of timer.c, without the wall clock update. -/
def timer_callback (pf : Platform) (fuel : Nat) (σ : Kernel) : Except Fault Kernel :=
  on_tick pf fuel { σ with ticks := u32 (σ.ticks + 1) }

/-- Method Scheduler::exit up to and including restore_interrupts, that is
before the call of switch_task. -/
def exit_locked (code : Int) (σ : Kernel) : Except Fault Kernel :=
  let r := disable_interrupts σ
  match r.2.current with
  | none => .error .null_deref
  | some cur =>
    let σ1 := ready_unlink cur r.2
    let σ2 := { σ1 with
      mem := Function.update σ1.mem cur
        { σ1.mem cur with exit_code := code, state := Task.State.eDead } }
    let σ3 := cleanup_prepend cur σ2
    .ok (restore_interrupts r.1 σ3)

/-- Method Scheduler::exit. -/
def exit (pf : Platform) (code : Int) (σ : Kernel) : Except Fault Kernel :=
  match exit_locked code σ with
  | .error e => .error e
  | .ok σ1 => switch_task pf .fresh σ1

/-- Method Scheduler::wait_any; `status` is the pointer argument, which no
statement of the method uses. -/
def wait_any (status : Nat) (σ : Kernel) : Int × Kernel :=
  let _unused := status
  let r := disable_interrupts σ
  (-1, restore_interrupts r.1 r.2)

/-- Method Scheduler::sleep up to and including restore_interrupts, that is
before the call of switch_task. -/
def sleep_locked (pf : Platform) (secs : Int) (σ : Kernel) : Except Fault Kernel :=
  let r := disable_interrupts σ
  match r.2.current with
  | none => .error .null_deref
  | some cur =>
    let σ1 := sleep_til pf cur secs r.2
    let σ2 := ready_unlink cur σ1
    let σ3 := make_wait cur σ2
    .ok (restore_interrupts r.1 σ3)

/-- Method Scheduler::sleep. -/
def sleep (pf : Platform) (secs : Int) (σ : Kernel) : Except Fault Kernel :=
  match sleep_locked pf secs σ with
  | .error e => .error e
  | .ok σ1 => switch_task pf .fresh σ1

/-- Method Scheduler::fork up to the save_registers call: `directory`,
`new_task` and `stack` are what clone_current and the two allocations return.
The result carries the local variable st. The increment of next_pid at INT_MAX
overflows a signed int, which C++ leaves undefined: the model faults there. -/
def fork_create (directory : Nat) (new_task : Ptr) (stack : Nat) (σ : Kernel) :
    Except Fault (Int × Kernel) :=
  let r := disable_interrupts σ
  if INT_MAX ≤ r.2.next_pid then .error .int_overflow
  else
    let σ1 := { r.2 with
      mem := Function.update r.2.mem new_task (Task.ctor r.2.next_pid (r.2.mem new_task))
      next_pid := r.2.next_pid + 1 }
    let σ2 := { σ1 with
      mem := Function.update σ1.mem new_task
        { σ1.mem new_task with directory := directory, kernel_stack := stack } }
    .ok (r.1, ready_append new_task σ2)

/-- Method Scheduler::fork from the save_registers call site on, reached with
the value `val` and the locals st and new_task. -/
def fork_return (val : Marker) (st : Int) (new_task : Ptr) (σ : Kernel) : Int × Kernel :=
  match val with
  | .fresh => ((σ.mem new_task).id, restore_interrupts st σ)
  | .second_return => (0, σ)

/-- Method Scheduler::fork as the calling task runs it: the capture is a first
capture. The child arrives later at the same call site, which is
`fork_return Marker.second_return`. -/
def fork (directory : Nat) (new_task : Ptr) (stack : Nat) (σ : Kernel) :
    Except Fault (Int × Kernel) :=
  match fork_create directory new_task stack σ with
  | .error e => .error e
  | .ok (st, σ1) => .ok (fork_return .fresh st new_task (save_registers new_task σ1))

/-- Method Scheduler::getpid. -/
def getpid (σ : Kernel) : Except Fault Int :=
  match σ.current with
  | none => .error .null_deref
  | some cur => .ok (σ.mem cur).id

/-! ## Abstraction of the queues -/

/-- The non-link content of a task record. -/
def Task.data (t : Task) : Task := { t with next := none, prev := none }

/-- The tasks of `L` form a doubly linked segment of the heap: `p` points to the
first of them, whose prev link is `pv`; each next link points to the following
task and each prev link to the preceding one; `last` is the last task (`pv` when
the segment is empty) and `nx` is its next link (`p` when the segment is
empty). -/
def Seg (mem : Heap) : Option Ptr → Option Ptr → List Ptr → Option Ptr → Option Ptr → Prop
  | pv, p, [], last, nx => p = nx ∧ last = pv
  | pv, p, x :: xs, last, nx =>
    p = some x ∧ (mem x).prev = pv ∧ Seg mem (some x) (mem x).next xs last nx

/-- The queue `q` holds exactly the tasks of `L`, in this order. -/
def IsList (mem : Heap) (q : RunList) (L : List Ptr) : Prop :=
  Seg mem none q.head_ L q.tail_ none

/-- Well-formed scheduler state: the ready, waiting and cleanup queues hold the
tasks of `R`, `W` and `C`, and no task occurs twice in them. -/
structure WF (σ : Kernel) (R W C : List Ptr) : Prop where
  ready : IsList σ.mem σ.ready_queue R
  waiting : IsList σ.mem σ.waiting_queue W
  cleanup : IsList σ.mem σ.cleanup_queue C
  nodup : (R ++ (W ++ C)).Nodup

/-- Alarm test of the task at `x` against the tick counter of the state. -/
def expired (σ : Kernel) (x : Ptr) : Bool := (σ.mem x).alarm_expired σ.ticks

/-- Run `n` consecutive switch_task calls, each a first capture, and collect the
value of current after each call. -/
def switch_run (pf : Platform) : Nat → Kernel → Except Fault (List (Option Ptr) × Kernel)
  | 0, σ => .ok ([], σ)
  | n + 1, σ =>
    match switch_task pf .fresh σ with
    | .error e => .error e
    | .ok σ1 =>
      match switch_run pf n σ1 with
      | .error e => .error e
      | .ok (vs, σ2) => .ok (σ1.current :: vs, σ2)


/-- Deallocation events: free_directory and kfree. -/
def Event.is_release : Event → Bool
  | .free_directory _ => true
  | .kfree _ => true
  | _ => false

/-! ## Concrete scenarios -/

/-- A platform with 50 ticks per second and kernel stacks of 2048 bytes. -/
def demo_platform : Platform := ⟨2048, fun secs => (secs * 50).toNat⟩

/-- A zeroed task record. -/
def blank_task : Task := ⟨0, Task.State.eReady, 0, 0, 0, 0, 0, none, none⟩

/-- The machine before Scheduler::init: a zeroed heap, interrupts on, the tick
counter at 0 and the boot page directory 7 in use. -/
def boot : Kernel :=
  { mem := fun _ => blank_task
    ready_queue := ⟨none, none⟩
    waiting_queue := ⟨none, none⟩
    cleanup_queue := ⟨none, none⟩
    current := none
    next_pid := 0
    ticks := 0
    interrupts_on := true
    current_directory := 7
    kernel_stack := 0
    cpu_regs := 0
    trace := [] }

/-- The final state of a run, the boot state when the run faulted. -/
def state_of : Except Fault Kernel → Kernel
  | .ok σ => σ
  | .error _ => boot

/-- After init: task 0 lives at address 1. -/
def after_init : Kernel := init 1 4096 boot

/-- The run init, fork: task 0 forks task 1, which lives at address 2. -/
def run_two_tasks : Except Fault Kernel := do
  let r ← fork 8 2 8192 after_init
  pure r.2

/-- Task 0 has forked task 1 and is current. -/
def two_tasks : Kernel := state_of run_two_tasks

/-- The run init, fork, fork: task 0 forks again and task 2 lives at address 3. -/
def run_three_tasks : Except Fault Kernel := do
  let σ ← run_two_tasks
  let r ← fork 9 3 12288 σ
  pure r.2

/-- Task 0 has forked tasks 1 and 2 and is current. -/
def three_tasks : Kernel := state_of run_three_tasks

/-- Task 1 is running and the tick counter stands at 100. -/
def task1_running : Kernel :=
  { state_of (switch_task demo_platform .fresh two_tasks) with ticks := 100 }

/-- Task 1 has called sleep(2) at tick 100 and task 0 runs. -/
def task1_asleep : Kernel := state_of (sleep demo_platform 2 task1_running)

/-- Task 1 is asleep with alarm 200 and the tick counter has reached 200. -/
def task1_due : Kernel := { task1_asleep with ticks := 200 }

/-- The run init, fork, fork, switch_task, exit(7) by task 1, switch_task. -/
def run_before_second_exit : Except Fault Kernel := do
  let σ0 ← run_three_tasks
  let σ1 ← switch_task demo_platform .fresh σ0
  let σ2 ← exit demo_platform 7 σ1
  switch_task demo_platform .fresh σ2

/-- Of three tasks, task 1 has exited and has not been reaped; task 2 runs. -/
def before_second_exit : Kernel := state_of run_before_second_exit

/-- The run init, fork, switch_task, exit(7) by task 1, cleanup. -/
def run_after_reap : Except Fault Kernel := do
  let σ0 ← run_two_tasks
  let σ1 ← switch_task demo_platform .fresh σ0
  let σ2 ← exit demo_platform 7 σ1
  cleanup 4 σ2

/-- Task 1 has exited and has been reaped; task 0 runs. -/
def after_reap : Kernel := state_of run_after_reap

/-- The deallocations of cleanup for the tasks of a list, in order: for each
task its page directory, its kernel stack and its record. -/
def release_events (mem : Heap) : List Ptr → List Event
  | [] => []
  | t :: ts =>
    Event.free_directory (mem t).directory :: Event.kfree (mem t).kernel_stack ::
      Event.kfree t :: release_events mem ts

/-! ## Sequences of scheduler operations -/

/-- One scheduler operation with the values it receives from outside: the
results of the allocators for fork, the marker of the capture site for
switch_task, the argument of sleep and exit, and the iteration bound of the
two loops. -/
inductive Op where
  | fork (directory : Nat) (new_task : Ptr) (stack : Nat)
  | sleep (secs : Int)
  | on_tick (fuel : Nat)
  | timer_callback (fuel : Nat)
  | switch_task (val : Marker)
  | exit (code : Int)
  | cleanup (fuel : Nat)

/-- Run one operation; the list holds the task ids handed out by it, which is
the return value of fork in the calling task. -/
def step (pf : Platform) : Op → Kernel → Except Fault (Kernel × List Int)
  | .fork d p k, σ =>
    match fork d p k σ with
    | .error e => .error e
    | .ok (r, σ1) => .ok (σ1, [r])
  | .sleep secs, σ =>
    match sleep pf secs σ with
    | .error e => .error e
    | .ok σ1 => .ok (σ1, [])
  | .on_tick fuel, σ =>
    match on_tick pf fuel σ with
    | .error e => .error e
    | .ok σ1 => .ok (σ1, [])
  | .timer_callback fuel, σ =>
    match timer_callback pf fuel σ with
    | .error e => .error e
    | .ok σ1 => .ok (σ1, [])
  | .switch_task val, σ =>
    match switch_task pf val σ with
    | .error e => .error e
    | .ok σ1 => .ok (σ1, [])
  | .exit code, σ =>
    match exit pf code σ with
    | .error e => .error e
    | .ok σ1 => .ok (σ1, [])
  | .cleanup fuel, σ =>
    match cleanup fuel σ with
    | .error e => .error e
    | .ok σ1 => .ok (σ1, [])

/-- Run a sequence of operations and collect the ids handed out, in order. -/
def run_ops (pf : Platform) : List Op → Kernel → Except Fault (Kernel × List Int)
  | [], σ => .ok (σ, [])
  | op :: ops, σ =>
    match step pf op σ with
    | .error e => .error e
    | .ok (σ1, ids1) =>
      match run_ops pf ops σ1 with
      | .error e => .error e
      | .ok (σ2, ids2) => .ok (σ2, ids1 ++ ids2)

/-! ## Nested interrupt guards -/

/-- The two calls of the interrupt guard. -/
inductive GuardOp where
  | disable
  | restore
  deriving DecidableEq, Repr

/-- Run a sequence of guard calls in which each restore receives the value
returned by its matching disable: the values of the open disables are kept on
a stack. A restore without an open disable has no meaning. -/
def run_guard : List GuardOp → List Int → Kernel → Option (List Int × Kernel)
  | [], st, σ => some (st, σ)
  | .disable :: ops, st, σ =>
    run_guard ops ((disable_interrupts σ).1 :: st) (disable_interrupts σ).2
  | .restore :: _, [], _ => none
  | .restore :: ops, v :: st, σ => run_guard ops st (restore_interrupts v σ)

/-- Invariant of a run of nested guard calls started in the state `σ0` with no
open disable: with no open disable the state is the initial one; with open
disables the flag is off, the value of the outermost one records the flag of `σ0`, the
values of the inner ones are 0, and nothing but the flag differs from the
initial state. -/
def GuardInv (σ0 : Kernel) (st : List Int) (σ : Kernel) : Prop :=
  (st = [] ∧ σ = σ0) ∨
  (∃ inner, st = inner ++ [if σ0.interrupts_on = true then 1 else 0] ∧
    (∀ v ∈ inner, v = 0) ∧ σ = { σ0 with interrupts_on := false })

/-! ## Strings (`src/common.c`) -/

/-- A C string is given by the bytes before its terminator. Reading position
`i` yields the byte, the terminating NUL at the end, and is out of bounds
beyond that. -/
def cstr_at (s : List Nat) (i : Nat) : Option Nat :=
  if i < s.length then s[i]? else if i = s.length then some 0 else none

/-- Loop of strcmp from index `i`; the result is the final index and the
variable failed. -/
def strcmp_loop : Nat → List Nat → List Nat → Nat → Except Fault (Nat × Int)
  | 0, _, _, _ => .error .out_of_fuel
  | fuel + 1, str1, str2, i =>
    match cstr_at str1 i, cstr_at str2 i with
    | some a, some b =>
      if a ≠ 0 ∧ b ≠ 0 then
        if a ≠ b then .ok (i, 1) else strcmp_loop fuel str1 str2 (i + 1)
      else .ok (i, 0)
    | _, _ => .error .null_deref

/-- The statements of strcmp after its loop, with the exit index and the
variable failed in `r`: the test of why the loop ended, and the return. -/
def strcmp_result (str1 str2 : List Nat) (r : Nat × Int) : Except Fault Int :=
  match cstr_at str1 r.1, cstr_at str2 r.1 with
  | some a, some b =>
    if (a = 0 ∧ b ≠ 0) ∨ (a ≠ 0 ∧ b = 0) then .ok 1 else .ok r.2
  | _, _ => .error .null_deref

/-- Function strcmp of common.c, with a bound on the number of iterations. A
read beyond the terminator of a string is a fault. -/
def strcmp (fuel : Nat) (str1 str2 : List Nat) : Except Fault Int :=
  match strcmp_loop fuel str1 str2 0 with
  | .error e => .error e
  | .ok r => strcmp_result str1 str2 r

/-! ## More scenarios -/

/-- The run init, fork, switch_task, exit(7) by task 1, cleanup, fork into the
freed block at address 2. -/
def run_after_refork : Except Fault Kernel := do
  let σ0 ← run_after_reap
  let r ← fork 9 2 8192 σ0
  pure r.2

/-- Task 0 has forked a second time after task 1 was reaped. -/
def after_refork : Kernel := state_of run_after_refork

/-- Task 1 (address 2) is running, last in the ready queue, and forks task 2
into the block at address 3. -/
def task1_forked : Kernel :=
  state_of (do
    let r ← fork 9 3 12288 task1_running
    pure r.2)

/-- The operations fork, switch_task, fork, exit(3) by task 1, cleanup and a
fork into the freed block at address 2, run after init. -/
def run_with_ids : Except Fault (Kernel × List Int) :=
  run_ops demo_platform
    [Op.fork 8 2 8192, Op.switch_task Marker.fresh, Op.fork 9 3 12288, Op.exit 3,
     Op.cleanup 4, Op.fork 10 2 16384] (init 1 4096 boot)

/-- The final state of run_with_ids, the boot state when the run faulted. -/
def after_ids : Kernel :=
  match run_with_ids with
  | .ok r => r.1
  | .error _ => boot

/-! ## Strings, continued (`src/common.c`) -/

/-- Loop of strcpy with the two pointers at index `i`: the body of the do-while
copies the byte at `i`, and the loop test reads the byte at `i + 1`. The
destination maps offsets from the pointer dest to bytes. A read beyond the
terminator of `src` is a fault. -/
def strcpy_loop : Nat → List Nat → (Nat → Nat) → Nat → Except Fault (Nat → Nat)
  | 0, _, _, _ => .error .out_of_fuel
  | fuel + 1, src, dest, i =>
    match cstr_at src i with
    | none => .error .null_deref
    | some b =>
      let dest1 := Function.update dest i b
      match cstr_at src (i + 1) with
      | none => .error .null_deref
      | some nb => if nb ≠ 0 then strcpy_loop fuel src dest1 (i + 1) else .ok dest1

/-- Function strcpy of common.c, with a bound on the number of iterations;
`dest_ptr` is the pointer argument and `dest` the memory behind it. The body
ends after the loop without a return statement: the first component of the
result is the value returned, of which there is none. -/
def strcpy (fuel : Nat) (dest_ptr : Nat) (src : List Nat) (dest : Nat → Nat) :
    Except Fault (Option Nat × (Nat → Nat)) :=
  let _unused := dest_ptr
  match strcpy_loop fuel src dest 0 with
  | .error e => .error e
  | .ok d => .ok (none, d)

/-! ## Decimal output (`src/monitor.c`) -/

/-- Conversion of an unsigned 32-bit word to the signed type s32int, as the
two's complement target does it. -/
def s32 (n : Nat) : Int :=
  if u32 n < 2147483648 then (u32 n : Int) else (u32 n : Int) - 4294967296

/-- First loop of monitor_write_dec: while acc > 0, the character of the last
digit of acc goes to c[i]. The result is the buffer and the index reached. -/
def dec_digits_loop : Nat → Int → (Nat → Nat) → Nat → Except Fault ((Nat → Nat) × Nat)
  | 0, _, _, _ => .error .out_of_fuel
  | fuel + 1, acc, c, i =>
    if acc > 0 then
      dec_digits_loop fuel (acc / 10) (Function.update c i (48 + (acc % 10).toNat)) (i + 1)
    else .ok (c, i)

/-- Second loop of monitor_write_dec: while i >= 0, c2[i--] = c[j++]. -/
def dec_reverse_loop : Nat → (Nat → Nat) → (Nat → Nat) → Int → Nat → Except Fault (Nat → Nat)
  | 0, _, _, _, _ => .error .out_of_fuel
  | fuel + 1, c, c2, i, j =>
    if i ≥ 0 then dec_reverse_loop fuel c (Function.update c2 i.toNat (c j)) (i - 1) (j + 1)
    else .ok c2

/-- Function monitor_write of monitor.c from index `i`: the characters of the
string up to its terminator are put on the console, whose output so far is
`out`. -/
def monitor_write : Nat → (Nat → Nat) → Nat → List Nat → Except Fault (List Nat)
  | 0, _, _, _ => .error .out_of_fuel
  | fuel + 1, c, i, out =>
    if c i ≠ 0 then monitor_write fuel c (i + 1) (out ++ [c i]) else .ok out

/-- Function monitor_write_dec of monitor.c (Console::write_dec has the same
body), with a bound on the iterations of each loop. `raw` and `raw2` are the
contents of the uninitialised buffers c and c2, `n` is the argument, an
unsigned 32-bit word, and `out` is the console output so far. -/
def monitor_write_dec (fuel : Nat) (raw raw2 : Nat → Nat) (n : Nat) (out : List Nat) :
    Except Fault (List Nat) :=
  if n = 0 then .ok (out ++ [48])
  else
    let r : List Nat × Nat :=
      if (n : Int) < 0 then (out ++ [45], u32 (4294967296 - n)) else (out, n)
    let acc := s32 r.2
    match dec_digits_loop fuel acc raw 0 with
    | .error e => .error e
    | .ok (c, i) =>
      let c1 := Function.update c i 0
      let c2 := Function.update raw2 i 0
      match dec_reverse_loop fuel c1 c2 ((i : Int) - 1) 0 with
      | .error e => .error e
      | .ok c3 => monitor_write fuel c3 0 r.1

/-- The characters of the decimal numeral of `n`, most significant digit
first, without leading zeros; the numeral of 0 is the single character 0. -/
def decimal_chars (n : Nat) : List Nat :=
  if n = 0 then [48] else ((Nat.digits 10 n).reverse).map (fun d => 48 + d)

/-! ## File nodes of tmpfs (`src/fs/tmpfs.cpp`) -/

/-- Function memcpy of common.c on a byte memory: `len` bytes go from `sp` to
`dp`. The second component logs, for each byte copied, the address written and
the address read. -/
def memcpy : Nat → Nat → Nat → (Nat → Nat) → List (Nat × Nat) →
    (Nat → Nat) × List (Nat × Nat)
  | _, _, 0, mem, log => (mem, log)
  | dp, sp, len + 1, mem, log =>
    memcpy (dp + 1) (sp + 1) len (Function.update mem dp (mem sp)) (log ++ [(dp, sp)])

/-- The fields of tmpfs::FileNode that read and write use: the size of the
chunk and its address. -/
structure FileNode where
  size_ : Nat
  chunk_ : Nat
  deriving DecidableEq, Repr

/-- Method FileNode::read. The assertion compares the 32-bit sum of offset and
size with size_; when it fails the kernel halts in panic_assert and the method
does not return. The result is the return value, the memory and the log of the
bytes copied. -/
def FileNode.read (f : FileNode) (offset size buffer : Nat) (mem : Nat → Nat) :
    Option (Nat × (Nat → Nat) × List (Nat × Nat)) :=
  if u32 (offset + size) < f.size_ then
    let r := memcpy buffer (f.chunk_ + offset) size mem []
    some (size, r.1, r.2)
  else none

/-- Method FileNode::write, the copy going from the buffer to the chunk. -/
def FileNode.write (f : FileNode) (offset size buffer : Nat) (mem : Nat → Nat) :
    Option (Nat × (Nat → Nat) × List (Nat × Nat)) :=
  if u32 (offset + size) < f.size_ then
    let r := memcpy (f.chunk_ + offset) buffer size mem []
    some (size, r.1, r.2)
  else none

/-! ## ELF symbols (`src/elf.hpp`) -/

/-- The record elf::Symbol. -/
structure Symbol where
  name : Nat
  value : Nat
  size : Nat
  info : Nat
  other : Nat
  shndx : Nat
  deriving DecidableEq, Repr

/-- Method Symbol::contains_p; `offset` is the content of the cell the pointer
argument points to, and the second component of the result is its content
afterwards. The sum and the difference are those of unsigned 32-bit words. -/
def Symbol.contains_p (s : Symbol) (addr : Nat) (offset : Nat) : Bool × Nat :=
  if addr ≥ s.value ∧ addr < u32 (s.value + s.size) then
    (true, (((s.value : Int) - (addr : Int)) % 4294967296).toNat)
  else (false, offset)

/-! ## Scenarios for the interrupt guard and the alarms -/

/-- What an operation needs from the state it is called in, for a caller that
is alive: sleep and exit are called by a task of the ready queue; the block
that fork constructs the new task in is in no queue; the loops of on_tick and
cleanup are allowed one iteration for each task of their queue. -/
def live_call (op : Op) (σ : Kernel) : Prop :=
  match op with
  | .fork _ p _ => ∃ R W C, WF σ R W C ∧ p ∉ R ++ (W ++ C)
  | .sleep _ => ∃ R W C c, WF σ R W C ∧ σ.current = some c ∧ c ∈ R
  | .exit _ => ∃ R W C c, WF σ R W C ∧ σ.current = some c ∧ c ∈ R
  | .on_tick fuel => ∃ R W C, WF σ R W C ∧ W.length ≤ fuel
  | .timer_callback fuel => ∃ R W C, WF σ R W C ∧ W.length ≤ fuel
  | .switch_task _ => True
  | .cleanup fuel => ∃ R W C, WF σ R W C ∧ C.length ≤ fuel

/-- Every operation of the run is called as live_call says, in the state the
operations before it have led to. -/
def Live (pf : Platform) : List Op → Kernel → Prop
  | [], _ => True
  | op :: ops, σ =>
    live_call op σ ∧
      match step pf op σ with
      | .error _ => True
      | .ok (σ1, _) => Live pf ops σ1

/-- The tasks that have called exit and are not reaped, after an operation
called in the state `σ` with the tasks `P` pending: an exit adds its caller, a
cleanup leaves none, and no other operation changes them. -/
def pending_after (op : Op) (σ : Kernel) (P : List Ptr) : List Ptr :=
  match op with
  | .exit _ => σ.current.toList ++ P
  | .cleanup _ => []
  | _ => P

/-- The batch of tasks an operation reaps: the pending tasks for a cleanup,
none for any other operation. -/
def reaped_by (op : Op) (P : List Ptr) : List (List Ptr) :=
  match op with
  | .cleanup _ => [P]
  | _ => []

/-- The deallocations an operation is to log when called in the state `σ`
with the tasks `P` pending: those of the pending tasks for a cleanup, none for
any other operation. -/
def released_by (op : Op) (σ : Kernel) (P : List Ptr) : List Event :=
  match op with
  | .cleanup _ => release_events σ.mem P
  | _ => []

/-- The history of exits and reaps of a run, from the calls alone: the
deallocations the run is to log, the batches of tasks its cleanup calls reap,
and the tasks that have called exit and are not reaped when it ends. `P` holds
the tasks that have called exit and are not reaped when the run starts. -/
def reap_history (pf : Platform) :
    List Op → Kernel → List Ptr → List Event × List (List Ptr) × List Ptr
  | [], _, P => ([], [], P)
  | op :: ops, σ, P =>
    match step pf op σ with
    | .error _ => ([], [], P)
    | .ok (σ1, _) =>
      let r := reap_history pf ops σ1 (pending_after op σ P)
      (released_by op σ P ++ r.1, reaped_by op P ++ r.2.1, r.2.2)

/-- The operations fork, switch_task, exit(7) by task 1, cleanup, cleanup. -/
def reap_ops : List Op :=
  [Op.fork 8 2 8192, Op.switch_task Marker.fresh, Op.exit 7, Op.cleanup 4, Op.cleanup 4]

/-- The run of reap_ops after init. -/
def run_reap_twice : Except Fault (Kernel × List Int) :=
  run_ops demo_platform reap_ops (init 1 4096 boot)

/-- The final state of run_reap_twice, the boot state when the run faulted. -/
def after_reap_twice : Kernel :=
  match run_reap_twice with
  | .ok r => r.1
  | .error _ => boot

/-- The operations fork, fork, switch_task, exit(7) by task 1, switch_task,
exit(5) by task 2, exit(9) by the task that exit has left current, fork into
the block at address 4, cleanup. -/
def dead_caller_ops : List Op :=
  [Op.fork 8 2 8192, Op.fork 9 3 12288, Op.switch_task Marker.fresh, Op.exit 7,
   Op.switch_task Marker.fresh, Op.exit 5, Op.exit 9, Op.fork 10 4 16384, Op.cleanup 5]

/-- The run of dead_caller_ops after init. -/
def run_dead_caller : Except Fault (Kernel × List Int) :=
  run_ops demo_platform dead_caller_ops (init 1 4096 boot)

/-- The final state of run_dead_caller, the boot state when the run faulted. -/
def after_dead_caller : Kernel :=
  match run_dead_caller with
  | .ok r => r.1
  | .error _ => boot

/-- The state of run_dead_caller after its first seven operations, before the
last fork. -/
def dead_caller_before_fork : Kernel :=
  match run_ops demo_platform (dead_caller_ops.take 7) (init 1 4096 boot) with
  | .ok r => r.1
  | .error _ => boot

/-! ## Linked segments -/

/-- A segment depends only on the links of its own tasks. -/
theorem Seg_congr {mem mem' : Heap} :
    ∀ (L : List Ptr) (pv p last nx : Option Ptr),
      (∀ x ∈ L, (mem' x).next = (mem x).next ∧ (mem' x).prev = (mem x).prev) →
      Seg mem pv p L last nx → Seg mem' pv p L last nx
  | [], _, _, _, _, _, h => h
  | x :: xs, pv, p, last, nx, hl, h => by
    obtain ⟨h1, h2, h3⟩ := h
    have hx := hl x (List.mem_cons_self _ _)
    refine ⟨h1, by rw [hx.2]; exact h2, ?_⟩
    rw [hx.1]
    exact Seg_congr xs _ _ _ _ (fun y hy => hl y (List.mem_cons_of_mem _ hy)) h3

/-- A segment over a concatenation splits into two segments that meet. -/
theorem Seg_append {mem : Heap} :
    ∀ (A B : List Ptr) (pv p last nx : Option Ptr),
      Seg mem pv p (A ++ B) last nx ↔
        ∃ m q, Seg mem pv p A m q ∧ Seg mem m q B last nx
  | [], B, pv, p, last, nx => by
    constructor
    · intro h
      exact ⟨pv, p, ⟨rfl, rfl⟩, h⟩
    · rintro ⟨m, q, ⟨h1, h2⟩, h3⟩
      subst h1; subst h2
      exact h3
  | x :: xs, B, pv, p, last, nx => by
    constructor
    · rintro ⟨h1, h2, h3⟩
      obtain ⟨m, q, h4, h5⟩ := (Seg_append xs B _ _ _ _).1 h3
      exact ⟨m, q, ⟨h1, h2, h4⟩, h5⟩
    · rintro ⟨m, q, ⟨h1, h2, h4⟩, h5⟩
      exact ⟨h1, h2, (Seg_append xs B _ _ _ _).2 ⟨m, q, h4, h5⟩⟩

/-- A segment of one task. -/
theorem Seg_singleton {mem : Heap} (pv p last nx : Option Ptr) (x : Ptr) :
    Seg mem pv p [x] last nx ↔
      p = some x ∧ (mem x).prev = pv ∧ (mem x).next = nx ∧ last = some x := by
  simp [Seg]

/-- The last task of a non-empty segment and its next link. -/
theorem Seg_last {mem : Heap} {A : List Ptr} {a : Ptr} {pv p last nx : Option Ptr}
    (h : Seg mem pv p (A ++ [a]) last nx) : last = some a ∧ (mem a).next = nx := by
  obtain ⟨m, q, _, h2⟩ := (Seg_append A [a] _ _ _ _).1 h
  obtain ⟨_, _, h5, h6⟩ := (Seg_singleton _ _ _ _ _).1 h2
  exact ⟨h6, h5⟩

/-- Overwriting the next link of the last task of a segment. -/
theorem Seg_setNext_last {mem : Heap} {A : List Ptr} {a : Ptr} {pv p last nx : Option Ptr}
    (n : Option Ptr) (ha : a ∉ A) (h : Seg mem pv p (A ++ [a]) last nx) :
    Seg (setNext mem a n) pv p (A ++ [a]) last n := by
  obtain ⟨m, q, h1, h2⟩ := (Seg_append A [a] _ _ _ _).1 h
  obtain ⟨h3, h4, _, h6⟩ := (Seg_singleton _ _ _ _ _).1 h2
  refine (Seg_append A [a] _ _ _ _).2 ⟨m, q, ?_, ?_⟩
  · refine Seg_congr A _ _ _ _ (fun x hx => ?_) h1
    have : x ≠ a := fun e => ha (e ▸ hx)
    simp [setNext, Function.update_noteq this]
  · refine (Seg_singleton _ _ _ _ _).2 ⟨h3, ?_, ?_, h6⟩
    · simpa [setNext] using h4
    · simp [setNext]

/-- Overwriting the prev link of the first task of a segment. -/
theorem Seg_setPrev_head {mem : Heap} {B : List Ptr} {b : Ptr} {pv p last nx : Option Ptr}
    (pv' : Option Ptr) (hb : b ∉ B) (h : Seg mem pv p (b :: B) last nx) :
    Seg (setPrev mem b pv') pv' p (b :: B) last nx := by
  obtain ⟨h1, _, h3⟩ := h
  refine ⟨h1, by simp [setPrev], ?_⟩
  have e : ((setPrev mem b pv') b).next = (mem b).next := by simp [setPrev]
  rw [e]
  refine Seg_congr B _ _ _ _ (fun x hx => ?_) h3
  have : x ≠ b := fun e => hb (e ▸ hx)
  simp [setPrev, Function.update_noteq this]


/-! ## Queue operations on well-formed queues -/

/-- No list operation touches the non-link content of a task. -/
theorem unlink_data (q : RunList) (mem : Heap) (e x : Ptr) :
    ((q.unlink mem e).2 x).data = (mem x).data := by
  unfold RunList.unlink
  rcases hp : (mem e).prev with _ | pp <;> rcases hn : (mem e).next with _ | nn <;>
    simp only [setNext, setPrev, Function.update_apply] <;>
    (repeat' split) <;> simp_all [Task.data]

/-- Appending touches no non-link content. -/
theorem append_data (q : RunList) (mem : Heap) (e x : Ptr) :
    ((q.append mem e).2 x).data = (mem x).data := by
  unfold RunList.append
  rcases ht : q.tail_ with _ | t <;>
    simp only [setNext, setPrev, Function.update_apply] <;>
    (repeat' split) <;> simp_all [Task.data]

/-- Prepending touches no non-link content. -/
theorem prepend_data (q : RunList) (mem : Heap) (e x : Ptr) :
    ((q.prepend mem e).2 x).data = (mem x).data := by
  unfold RunList.prepend
  rcases ht : q.head_ with _ | t <;>
    simp only [setNext, setPrev, Function.update_apply] <;>
    (repeat' split) <;> simp_all [Task.data]

/-- Splitting a duplicate-free list at one of its members. -/
theorem split_at_mem {L : List Ptr} {e : Ptr} (hnd : L.Nodup) (he : e ∈ L) :
    ∃ A B, L = A ++ e :: B ∧ e ∉ A ∧ e ∉ B ∧ L.erase e = A ++ B ∧
      (∀ x ∈ A, x ∉ B) ∧ A.Nodup ∧ B.Nodup := by
  obtain ⟨A, B, rfl⟩ := List.append_of_mem he
  have h1 := List.nodup_append.1 hnd
  have h2 := List.nodup_cons.1 h1.2.1
  have heA : e ∉ A := fun h => h1.2.2 h (List.mem_cons_self _ _)
  refine ⟨A, B, rfl, heA, h2.1, ?_, ?_, h1.1, h2.2⟩
  · rw [List.erase_append_right _ heA, List.erase_cons_head]
  · intro x hx hxB
    exact h1.2.2 hx (List.mem_cons_of_mem _ hxB)

/-- A non-empty list ends in a last element. -/
theorem snoc_of_ne_nil {L : List Ptr} (h : L ≠ []) : ∃ A a, L = A ++ [a] :=
  ⟨L.dropLast, L.getLast h, (List.dropLast_append_getLast h).symm⟩

/-- Unlinking a member of a well-formed queue erases it from the queue. -/
theorem unlink_spec {mem : Heap} {q : RunList} {L : List Ptr} {e : Ptr}
    (hl : IsList mem q L) (hnd : L.Nodup) (he : e ∈ L) :
    IsList (q.unlink mem e).2 (q.unlink mem e).1 (L.erase e) := by
  obtain ⟨A, B, rfl, heA, heB, her, hAB, hA, hB⟩ := split_at_mem hnd he
  rw [her]
  obtain ⟨m, qq, h1, h2, hp, h4⟩ := (Seg_append A (e :: B) _ _ _ _).1 hl
  subst h2
  by_cases hAnil : A = []
  · subst hAnil
    obtain ⟨h5, h6⟩ := h1
    subst h6
    rcases B with _ | ⟨b, B'⟩
    · obtain ⟨hn, h8⟩ := h4
      simp only [RunList.unlink, IsList, hp, hn, List.append_nil, Seg, and_self]
    · have hn := h4.1
      have hb : b ∉ B' := (List.nodup_cons.1 hB).1
      have h9 := Seg_setPrev_head none hb h4
      simp only [RunList.unlink, IsList, hp, hn, List.nil_append]
      rw [hn] at h9
      refine Seg_congr (b :: B') _ _ _ _ (fun x hx => ?_) h9
      have : x ≠ e := fun h => heB (h ▸ hx)
      simp [Function.update_noteq this]
  · obtain ⟨A', a, rfl⟩ := snoc_of_ne_nil hAnil
    have ha : a ∉ A' := by
      have := List.nodup_append.1 hA
      intro h
      exact this.2.2 h (List.mem_singleton_self a)
    obtain ⟨hm, _⟩ := Seg_last h1
    subst hm
    have h5 := Seg_setNext_last (mem e).next ha h1
    rcases B with _ | ⟨b, B'⟩
    · obtain ⟨hn, h8⟩ := h4
      simp only [RunList.unlink, IsList, hp, hn, List.append_nil]
      rw [hn] at h5
      refine Seg_congr _ _ _ _ _ (fun x hx => ?_) h5
      have : x ≠ e := fun h => heA (h ▸ hx)
      simp [Function.update_noteq this]
    · have hn := h4.1
      have hb : b ∉ B' := (List.nodup_cons.1 hB).1
      have hbA : b ∉ A' ++ [a] := fun h => hAB b h (List.mem_cons_self _ _)
      have h4' : Seg (setNext mem a (some b)) (some e) (mem e).next (b :: B') q.tail_ none :=
        Seg_congr _ _ _ _ _ (fun x hx => by
          have h11 : x ≠ a := fun h => hAB a (by simp) (h ▸ hx)
          simp [setNext, Function.update_noteq h11]) h4
      have h9 := Seg_setPrev_head (some a) hb h4'
      simp only [RunList.unlink, IsList, hp, hn]
      rw [hn] at h5 h9
      refine (Seg_append _ _ _ _ _ _).2 ⟨some a, some b, ?_, ?_⟩
      · refine Seg_congr _ _ _ _ _ (fun x hx => ?_) h5
        have h10 : x ≠ e := fun h => heA (h ▸ hx)
        have h11 : x ≠ b := fun h => hbA (h ▸ hx)
        simp [Function.update_noteq h10, setPrev, Function.update_noteq h11]
      · refine Seg_congr _ _ _ _ _ (fun x hx => ?_) h9
        have h10 : x ≠ e := fun h => heB (h ▸ hx)
        simp [Function.update_noteq h10]


/-- The links of a member of a well-formed queue are null or point to members
of the same queue. -/
theorem links_mem {mem : Heap} {q : RunList} {L : List Ptr} {e : Ptr}
    (hl : IsList mem q L) (he : e ∈ L) :
    (∀ n, (mem e).next = some n → n ∈ L) ∧ (∀ p, (mem e).prev = some p → p ∈ L) := by
  obtain ⟨A, B, rfl⟩ := List.append_of_mem he
  obtain ⟨m, qq, h1, _, hp, h4⟩ := (Seg_append A (e :: B) _ _ _ _).1 hl
  constructor
  · intro n hn
    rcases B with _ | ⟨b, B'⟩
    · have := h4.1
      rw [hn] at this
      exact absurd this (by simp)
    · have := h4.1
      rw [hn] at this
      have hb : n = b := Option.some.inj this
      simp [hb]
  · intro p hpp
    by_cases hA : A = []
    · subst hA
      have := h1.2
      rw [← hp, hpp] at this
      exact absurd this (by simp)
    · obtain ⟨A', a, rfl⟩ := snoc_of_ne_nil hA
      have := (Seg_last h1).1
      rw [← hp, hpp] at this
      have hb : p = a := Option.some.inj this
      simp [hb]

/-- Unlinking a member of a well-formed queue changes no task outside it. -/
theorem unlink_frame {mem : Heap} {q : RunList} {L : List Ptr} {e : Ptr}
    (hl : IsList mem q L) (he : e ∈ L) (x : Ptr) (hx : x ∉ L) :
    (q.unlink mem e).2 x = mem x := by
  obtain ⟨hn, hp⟩ := links_mem hl he
  have hxe : x ≠ e := fun h => hx (h ▸ he)
  unfold RunList.unlink
  simp only [Function.update_noteq hxe]
  rcases hpe : (mem e).prev with _ | pp <;> rcases hne : (mem e).next with _ | nn
  · rfl
  · have : x ≠ nn := fun h => hx (h ▸ hn nn hne)
    simp [setPrev, Function.update_noteq this]
  · have : x ≠ pp := fun h => hx (h ▸ hp pp hpe)
    simp [setNext, Function.update_noteq this]
  · have h1 : x ≠ nn := fun h => hx (h ▸ hn nn hne)
    have h2 : x ≠ pp := fun h => hx (h ▸ hp pp hpe)
    simp [setNext, setPrev, Function.update_noteq h1, Function.update_noteq h2]

/-- The tail pointer of a well-formed queue is null or a member of it. -/
theorem tail_mem {mem : Heap} {q : RunList} {L : List Ptr} (hl : IsList mem q L) :
    ∀ t, q.tail_ = some t → t ∈ L := by
  intro t ht
  by_cases hA : L = []
  · subst hA
    have := hl.2
    rw [ht] at this
    exact absurd this (by simp)
  · obtain ⟨A', a, rfl⟩ := snoc_of_ne_nil hA
    have := (Seg_last hl).1
    rw [ht] at this
    have hb : t = a := Option.some.inj this
    simp [hb]

/-- The head pointer of a well-formed queue is the first task of the queue. -/
theorem head_eq {mem : Heap} {q : RunList} {L : List Ptr} (hl : IsList mem q L) :
    q.head_ = L.head? := by
  rcases L with _ | ⟨x, xs⟩
  · exact hl.1
  · exact hl.1

/-- Appending a new task to a well-formed queue puts it last. -/
theorem append_spec {mem : Heap} {q : RunList} {L : List Ptr} {e : Ptr}
    (hl : IsList mem q L) (hnd : L.Nodup) (he : e ∉ L) :
    IsList (q.append mem e).2 (q.append mem e).1 (L ++ [e]) := by
  by_cases hA : L = []
  · subst hA
    obtain ⟨h1, h2⟩ := hl
    simp [RunList.append, IsList, h2, Seg]
  · obtain ⟨A, a, rfl⟩ := snoc_of_ne_nil hA
    have ht := (Seg_last hl).1
    have ha : a ∉ A := by
      have := List.nodup_append.1 hnd
      intro h
      exact this.2.2 h (List.mem_singleton_self a)
    have hae : a ≠ e := fun h => he (h ▸ by simp)
    have h1 : Seg (Function.update mem e { mem e with next := none, prev := some a }) none
        q.head_ (A ++ [a]) q.tail_ none :=
      Seg_congr _ _ _ _ _ (fun x hx => by
        have : x ≠ e := fun h => he (h ▸ hx)
        simp [Function.update_noteq this]) hl
    have h2 := Seg_setNext_last (some e) ha h1
    simp only [RunList.append, IsList, ht]
    refine (Seg_append _ _ _ _ _ _).2 ⟨some a, some e, ?_, ?_⟩
    · rw [ht] at h2
      exact h2
    · simp [Seg, setNext, Function.update_noteq hae.symm]

/-- Appending to a well-formed queue changes no task outside it other than the
new one. -/
theorem append_frame {mem : Heap} {q : RunList} {L : List Ptr} {e : Ptr}
    (hl : IsList mem q L) (x : Ptr) (hx : x ∉ L) (hxe : x ≠ e) :
    (q.append mem e).2 x = mem x := by
  unfold RunList.append
  rcases ht : q.tail_ with _ | t
  · simp [Function.update_noteq hxe]
  · have : x ≠ t := fun h => hx (h ▸ tail_mem hl t ht)
    simp [setNext, Function.update_noteq hxe, Function.update_noteq this]

/-- Prepending a new task to a well-formed queue puts it first. -/
theorem prepend_spec {mem : Heap} {q : RunList} {L : List Ptr} {e : Ptr}
    (hl : IsList mem q L) (hnd : L.Nodup) (he : e ∉ L) :
    IsList (q.prepend mem e).2 (q.prepend mem e).1 (e :: L) := by
  rcases L with _ | ⟨b, B⟩
  · obtain ⟨h1, h2⟩ := hl
    simp [RunList.prepend, IsList, h1, h2, Seg]
  · have hh := hl.1
    have hb : b ∉ B := (List.nodup_cons.1 hnd).1
    have hbe : b ≠ e := fun h => he (h ▸ by simp)
    have h1 : Seg (Function.update mem e { mem e with next := some b, prev := none }) none
        q.head_ (b :: B) q.tail_ none :=
      Seg_congr _ _ _ _ _ (fun x hx => by
        have : x ≠ e := fun h => he (h ▸ hx)
        simp [Function.update_noteq this]) hl
    have h2 := Seg_setPrev_head (some e) hb h1
    simp only [RunList.prepend, IsList, hh]
    rw [hh] at h2
    refine ⟨rfl, ?_, ?_⟩
    · simp [setPrev, Function.update_noteq hbe.symm]
    · simpa [setPrev, Function.update_noteq hbe.symm] using h2

/-- The head pointer of a well-formed queue is null or a member of it. -/
theorem head_mem {mem : Heap} {q : RunList} {L : List Ptr} (hl : IsList mem q L) :
    ∀ t, q.head_ = some t → t ∈ L := by
  intro t ht
  have := head_eq hl
  rw [ht] at this
  exact List.mem_of_mem_head? this.symm

/-- Prepending to a well-formed queue changes no task outside it other than
the new one. -/
theorem prepend_frame {mem : Heap} {q : RunList} {L : List Ptr} {e : Ptr}
    (hl : IsList mem q L) (x : Ptr) (hx : x ∉ L) (hxe : x ≠ e) :
    (q.prepend mem e).2 x = mem x := by
  unfold RunList.prepend
  rcases ht : q.head_ with _ | t
  · simp [Function.update_noteq hxe]
  · have : x ≠ t := fun h => hx (h ▸ head_mem hl t ht)
    simp [setPrev, Function.update_noteq hxe, Function.update_noteq this]

/-- A queue stays well formed under heap changes outside it. -/
theorem IsList_frame {mem mem' : Heap} {q : RunList} {L : List Ptr}
    (h : ∀ x ∈ L, mem' x = mem x) (hl : IsList mem q L) : IsList mem' q L :=
  Seg_congr _ _ _ _ _ (fun x hx => by rw [h x hx]; exact ⟨rfl, rfl⟩) hl

/-- A queue stays well formed under heap changes that keep the links. -/
theorem IsList_links {mem mem' : Heap} {q : RunList} {L : List Ptr}
    (h : ∀ x ∈ L, (mem' x).next = (mem x).next ∧ (mem' x).prev = (mem x).prev)
    (hl : IsList mem q L) : IsList mem' q L :=
  Seg_congr _ _ _ _ _ h hl


/-! ## Duplicate-freedom of the three queues -/

/-- Duplicate-freedom does not depend on the order of the first two queues. -/
theorem nodup_swap12 {A B C : List Ptr} (h : (A ++ (B ++ C)).Nodup) :
    (B ++ (A ++ C)).Nodup := by
  rw [List.nodup_iff_count_le_one] at *
  intro a
  have := h a
  simp only [List.count_append] at *
  omega

/-- Duplicate-freedom does not depend on the order of the first and third queue. -/
theorem nodup_swap13 {A B C : List Ptr} (h : (A ++ (B ++ C)).Nodup) :
    (C ++ (B ++ A)).Nodup := by
  rw [List.nodup_iff_count_le_one] at *
  intro a
  have := h a
  simp only [List.count_append] at *
  omega

/-- Erasing a task of the first queue keeps duplicate-freedom and removes the task from all three. -/
theorem nodup_erase3 {A B C : List Ptr} {e : Ptr} (h : (A ++ (B ++ C)).Nodup) (he : e ∈ A) :
    (A.erase e ++ (B ++ C)).Nodup ∧ e ∉ A.erase e ++ (B ++ C) := by
  have hc := List.count_pos_iff.2 he
  rw [← List.count_eq_zero, List.nodup_iff_count_le_one] at *
  have he := h e
  simp only [List.count_append, List.count_erase_self] at *
  refine ⟨fun a => ?_, by omega⟩
  have := h a
  by_cases hae : a = e
  · subst hae
    simp only [List.count_append, List.count_erase_self] at *
    omega
  · simp only [List.count_append, List.count_erase_of_ne hae] at *
    omega

/-- Adding a task that is in none of the queues at the end of the first keeps duplicate-freedom. -/
theorem nodup_snoc3 {A B C : List Ptr} {e : Ptr} (h : (A ++ (B ++ C)).Nodup)
    (he : e ∉ A ++ (B ++ C)) : ((A ++ [e]) ++ (B ++ C)).Nodup := by
  rw [← List.count_eq_zero, List.nodup_iff_count_le_one] at *
  intro a
  have := h a
  by_cases hae : a = e
  · subst hae
    simp only [List.count_append, List.count_cons_self, List.count_nil] at *
    omega
  · simp only [List.count_append, List.count_cons_of_ne hae, List.count_nil] at *
    omega

/-- Adding a task that is in none of the queues at the front of the first keeps duplicate-freedom. -/
theorem nodup_cons3 {A B C : List Ptr} {e : Ptr} (h : (A ++ (B ++ C)).Nodup)
    (he : e ∉ A ++ (B ++ C)) : ((e :: A) ++ (B ++ C)).Nodup := by
  rw [List.cons_append]
  exact List.nodup_cons.2 ⟨he, h⟩

/-- Absence from the three queues does not depend on the order of the first two. -/
theorem not_mem_swap12 {A B C : List Ptr} {e : Ptr} (h : e ∉ A ++ (B ++ C)) :
    e ∉ B ++ (A ++ C) := by
  simp only [List.mem_append, not_or] at *
  tauto

/-- Absence from the three queues does not depend on the order of the first and third. -/
theorem not_mem_swap13 {A B C : List Ptr} {e : Ptr} (h : e ∉ A ++ (B ++ C)) :
    e ∉ C ++ (B ++ A) := by
  simp only [List.mem_append, not_or] at *
  tauto

/-- In a duplicate-free concatenation the parts share no task. -/
theorem nodup_disjoint {A B C : List Ptr} (h : (A ++ (B ++ C)).Nodup) :
    A.Nodup ∧ B.Nodup ∧ C.Nodup ∧ (∀ x ∈ A, x ∉ B) ∧ (∀ x ∈ A, x ∉ C) ∧ (∀ x ∈ B, x ∉ C) := by
  have h1 := List.nodup_append.1 h
  have h2 := List.nodup_append.1 h1.2.1
  refine ⟨h1.1, h2.1, h2.2.1, ?_, ?_, ?_⟩
  · intro x hx hb
    exact h1.2.2 hx (List.mem_append_left _ hb)
  · intro x hx hb
    exact h1.2.2 hx (List.mem_append_right _ hb)
  · intro x hx hb
    exact h2.2.2 hx hb

/-! ## One queue operation among three queues -/

/-- Unlinking a member of one queue erases it there and leaves two disjoint queues as they are. -/
theorem unlink_three {mem : Heap} {q q2 q3 : RunList} {L L2 L3 : List Ptr} {e : Ptr}
    (h1 : IsList mem q L) (h2 : IsList mem q2 L2) (h3 : IsList mem q3 L3)
    (hnd : (L ++ (L2 ++ L3)).Nodup) (he : e ∈ L) :
    IsList (q.unlink mem e).2 (q.unlink mem e).1 (L.erase e) ∧
      IsList (q.unlink mem e).2 q2 L2 ∧ IsList (q.unlink mem e).2 q3 L3 ∧
      (L.erase e ++ (L2 ++ L3)).Nodup ∧ e ∉ L.erase e ++ (L2 ++ L3) := by
  obtain ⟨d1, _, _, d4, d5, _⟩ := nodup_disjoint hnd
  have hn := nodup_erase3 hnd he
  refine ⟨unlink_spec h1 d1 he, ?_, ?_, hn.1, hn.2⟩
  · exact IsList_frame (fun x hx => unlink_frame h1 he x (fun h => d4 x h hx)) h2
  · exact IsList_frame (fun x hx => unlink_frame h1 he x (fun h => d5 x h hx)) h3

/-- Appending a task that is in none of three disjoint queues to one of them leaves the other two as they are. -/
theorem append_three {mem : Heap} {q q2 q3 : RunList} {L L2 L3 : List Ptr} {e : Ptr}
    (h1 : IsList mem q L) (h2 : IsList mem q2 L2) (h3 : IsList mem q3 L3)
    (hnd : (L ++ (L2 ++ L3)).Nodup) (he : e ∉ L ++ (L2 ++ L3)) :
    IsList (q.append mem e).2 (q.append mem e).1 (L ++ [e]) ∧
      IsList (q.append mem e).2 q2 L2 ∧ IsList (q.append mem e).2 q3 L3 ∧
      ((L ++ [e]) ++ (L2 ++ L3)).Nodup := by
  obtain ⟨d1, _, _, d4, d5, _⟩ := nodup_disjoint hnd
  simp only [List.mem_append, not_or] at he
  refine ⟨append_spec h1 d1 he.1, ?_, ?_, nodup_snoc3 hnd (by simp [he])⟩
  · exact IsList_frame (fun x hx => append_frame h1 x (fun h => d4 x h hx)
      (fun h => he.2.1 (h ▸ hx))) h2
  · exact IsList_frame (fun x hx => append_frame h1 x (fun h => d5 x h hx)
      (fun h => he.2.2 (h ▸ hx))) h3

/-- Prepending a task that is in none of three disjoint queues to one of them leaves the other two as they are. -/
theorem prepend_three {mem : Heap} {q q2 q3 : RunList} {L L2 L3 : List Ptr} {e : Ptr}
    (h1 : IsList mem q L) (h2 : IsList mem q2 L2) (h3 : IsList mem q3 L3)
    (hnd : (L ++ (L2 ++ L3)).Nodup) (he : e ∉ L ++ (L2 ++ L3)) :
    IsList (q.prepend mem e).2 (q.prepend mem e).1 (e :: L) ∧
      IsList (q.prepend mem e).2 q2 L2 ∧ IsList (q.prepend mem e).2 q3 L3 ∧
      ((e :: L) ++ (L2 ++ L3)).Nodup := by
  obtain ⟨d1, _, _, d4, d5, _⟩ := nodup_disjoint hnd
  have hn := nodup_cons3 hnd he
  simp only [List.mem_append, not_or] at he
  refine ⟨prepend_spec h1 d1 he.1, ?_, ?_, hn⟩
  · exact IsList_frame (fun x hx => prepend_frame h1 x (fun h => d4 x h hx)
      (fun h => he.2.1 (h ▸ hx))) h2
  · exact IsList_frame (fun x hx => prepend_frame h1 x (fun h => d5 x h hx)
      (fun h => he.2.2 (h ▸ hx))) h3

/-! ## Queue statements of the scheduler on well-formed states -/

/-- Statement ready_queue.unlink on a member of the ready queue. -/
theorem ready_unlink_WF {σ : Kernel} {R W C : List Ptr} {c : Ptr}
    (h : WF σ R W C) (hc : c ∈ R) :
    WF (ready_unlink c σ) (R.erase c) W C ∧ c ∉ R.erase c ++ (W ++ C) := by
  obtain ⟨a, b, d, n, m⟩ := unlink_three h.ready h.waiting h.cleanup h.nodup hc
  exact ⟨⟨a, b, d, n⟩, m⟩

/-- Statement waiting_queue.unlink on a member of the waiting queue. -/
theorem waiting_unlink_WF {σ : Kernel} {R W C : List Ptr} {c : Ptr}
    (h : WF σ R W C) (hc : c ∈ W) :
    WF (waiting_unlink c σ) R (W.erase c) C ∧ c ∉ R ++ (W.erase c ++ C) := by
  obtain ⟨a, b, d, n, m⟩ :=
    unlink_three h.waiting h.ready h.cleanup (nodup_swap12 h.nodup) hc
  exact ⟨⟨b, a, d, nodup_swap12 n⟩, not_mem_swap12 m⟩

/-- Statement cleanup_queue.unlink on a member of the cleanup queue. -/
theorem cleanup_unlink_WF {σ : Kernel} {R W C : List Ptr} {c : Ptr}
    (h : WF σ R W C) (hc : c ∈ C) :
    WF (cleanup_unlink c σ) R W (C.erase c) ∧ c ∉ R ++ (W ++ C.erase c) := by
  obtain ⟨a, b, d, n, m⟩ :=
    unlink_three h.cleanup h.waiting h.ready (nodup_swap13 h.nodup) hc
  exact ⟨⟨d, b, a, nodup_swap13 n⟩, not_mem_swap13 m⟩

/-- Statement ready_queue.append on a task that is in no queue. -/
theorem ready_append_WF {σ : Kernel} {R W C : List Ptr} {c : Ptr}
    (h : WF σ R W C) (hc : c ∉ R ++ (W ++ C)) :
    WF (ready_append c σ) (R ++ [c]) W C := by
  obtain ⟨a, b, d, n⟩ := append_three h.ready h.waiting h.cleanup h.nodup hc
  exact ⟨a, b, d, n⟩

/-- Statement waiting_queue.append on a task that is in no queue. -/
theorem waiting_append_WF {σ : Kernel} {R W C : List Ptr} {c : Ptr}
    (h : WF σ R W C) (hc : c ∉ R ++ (W ++ C)) :
    WF (waiting_append c σ) R (W ++ [c]) C := by
  obtain ⟨a, b, d, n⟩ :=
    append_three h.waiting h.ready h.cleanup (nodup_swap12 h.nodup) (not_mem_swap12 hc)
  exact ⟨b, a, d, nodup_swap12 n⟩

/-- Statement cleanup_queue.prepend on a task that is in no queue. -/
theorem cleanup_prepend_WF {σ : Kernel} {R W C : List Ptr} {c : Ptr}
    (h : WF σ R W C) (hc : c ∉ R ++ (W ++ C)) :
    WF (cleanup_prepend c σ) R W (c :: C) := by
  obtain ⟨a, b, d, n⟩ :=
    prepend_three h.cleanup h.waiting h.ready (nodup_swap13 h.nodup) (not_mem_swap13 hc)
  exact ⟨d, b, a, nodup_swap13 n⟩

/-- Heap changes that keep all links keep the state well formed. -/
theorem WF_links {σ σ' : Kernel} {R W C : List Ptr} (h : WF σ R W C)
    (hr : σ'.ready_queue = σ.ready_queue) (hw : σ'.waiting_queue = σ.waiting_queue)
    (hc : σ'.cleanup_queue = σ.cleanup_queue)
    (hm : ∀ x, (σ'.mem x).next = (σ.mem x).next ∧ (σ'.mem x).prev = (σ.mem x).prev) :
    WF σ' R W C :=
  ⟨hr ▸ IsList_links (fun x _ => hm x) h.ready, hw ▸ IsList_links (fun x _ => hm x) h.waiting,
    hc ▸ IsList_links (fun x _ => hm x) h.cleanup, h.nodup⟩


/-! ## The scan of the waiting queue -/

/-- The scan stops when the iterator is null. -/
theorem on_tick_loop_none (fuel : Nat) (σ : Kernel) (s : Bool) :
    on_tick_loop fuel none σ s = .ok (σ, s) := by
  cases fuel <;> rfl

/-- Assigning a state keeps the queues. -/
theorem set_state_WF {σ : Kernel} {R W C : List Ptr} (h : WF σ R W C) (t : Ptr)
    (s : Task.State) : WF (set_state t s σ) R W C := by
  refine WF_links h rfl rfl rfl (fun x => ?_)
  by_cases hx : x = t
  · subst hx; simp [set_state]
  · simp [set_state, Function.update_noteq hx]

/-- Helper make_ready on a task that is in no queue. -/
theorem make_ready_WF {σ : Kernel} {R W C : List Ptr} {c : Ptr}
    (h : WF σ R W C) (hc : c ∉ R ++ (W ++ C)) :
    WF (make_ready c σ) (R ++ [c]) W C :=
  ready_append_WF (set_state_WF h c _) hc

/-- Helper make_wait on a task that is in no queue. -/
theorem make_wait_WF {σ : Kernel} {R W C : List Ptr} {c : Ptr}
    (h : WF σ R W C) (hc : c ∉ R ++ (W ++ C)) :
    WF (make_wait c σ) R (W ++ [c]) C :=
  waiting_append_WF (set_state_WF h c _) hc

/-- Helper make_ready changes the state of its task and no other content. -/
theorem make_ready_data (c : Ptr) (σ : Kernel) (x : Ptr) :
    ((make_ready c σ).mem x).data =
      if x = c then { (σ.mem x).data with state := Task.State.eReady } else (σ.mem x).data := by
  simp only [make_ready, ready_append, append_data, set_state]
  by_cases hx : x = c
  · subst hx; simp [Task.data]
  · simp [Function.update_noteq hx, hx]

/-- Helper make_wait changes the state of its task and no other content. -/
theorem make_wait_data (c : Ptr) (σ : Kernel) (x : Ptr) :
    ((make_wait c σ).mem x).data =
      if x = c then { (σ.mem x).data with state := Task.State.eWaiting } else (σ.mem x).data := by
  simp only [make_wait, waiting_append, append_data, set_state]
  by_cases hx : x = c
  · subst hx; simp [Task.data]
  · simp [Function.update_noteq hx, hx]

/-- The alarm test reads only the non-link content of the task. -/
theorem alarm_expired_data {t u : Task} (h : t.data = u.data) (ticks : Nat) :
    t.alarm_expired ticks = u.alarm_expired ticks := by
  have h1 : t.data.state = u.data.state := congrArg Task.state h
  have h2 : t.data.alarm_at = u.data.alarm_at := congrArg Task.alarm_at h
  simp only [Task.data] at h1 h2
  simp [Task.alarm_expired, h1, h2]

/-- Invariant of the scan of on_tick: with the tasks of `keep` already passed and
those of `S` still to come, the scan returns, moves the tasks of `S` whose alarm
test succeeds to the tail of the ready queue in order, gives them state Ready,
and changes nothing else but links. -/
theorem on_tick_loop_spec (C : List Ptr) :
    ∀ (S keep R : List Ptr) (σ : Kernel) (sched : Bool) (fuel : Nat),
      WF σ R (keep ++ S) C → S.length ≤ fuel →
      ∃ σ', on_tick_loop fuel S.head? σ sched = .ok (σ', sched || S.any (expired σ)) ∧
        WF σ' (R ++ S.filter (expired σ)) (keep ++ S.filter (fun x => !expired σ x)) C ∧
        (∀ x, (σ'.mem x).data =
          if x ∈ S ∧ expired σ x = true then { (σ.mem x).data with state := Task.State.eReady }
          else (σ.mem x).data) ∧
        σ' = { σ with mem := σ'.mem, ready_queue := σ'.ready_queue,
                      waiting_queue := σ'.waiting_queue }
  | [], keep, R, σ, sched, fuel, h, _ => by
    refine ⟨σ, ?_, ?_, ?_, rfl⟩
    · simp [on_tick_loop_none]
    · simpa using h
    · intro x; simp
  | s :: S', keep, R, σ, sched, fuel, h, hf => by
    obtain ⟨f, rfl⟩ : ∃ f, fuel = f + 1 := ⟨fuel - 1, by simp at hf; omega⟩
    have hf' : S'.length ≤ f := by simpa using hf
    -- the iterator moves to the task after `s`
    obtain ⟨m, q, _, hs⟩ := (Seg_append keep (s :: S') _ _ _ _).1 h.waiting
    have hnext : (σ.mem s).next = S'.head? := by
      have h3 := hs.2.2
      rcases S' with _ | ⟨y, ys⟩
      · exact h3.1
      · exact h3.1
    have hnd := nodup_disjoint h.nodup
    have hkS := List.nodup_append.1 hnd.2.1
    have hsk : s ∉ keep := fun hh => hkS.2.2 hh (List.mem_cons_self _ _)
    have hsS : s ∉ S' := (List.nodup_cons.1 hkS.2.1).1
    by_cases he : expired σ s = true
    · -- the task is moved to the ready queue
      have hu := waiting_unlink_WF h (c := s) (by simp)
      have her : (keep ++ s :: S').erase s = keep ++ S' := by
        rw [List.erase_append_right _ hsk, List.erase_cons_head]
      rw [her] at hu
      have h1 := make_ready_WF hu.1 hu.2
      obtain ⟨σ', e1, e2, e3, e4⟩ :=
        on_tick_loop_spec C S' keep (R ++ [s]) _ true f h1 hf'
      have hd : ∀ x, ((make_ready s (waiting_unlink s σ)).mem x).data =
          if x = s then { (σ.mem x).data with state := Task.State.eReady }
          else (σ.mem x).data := by
        intro x
        rw [make_ready_data]
        simp [waiting_unlink, unlink_data]
      have hexp : ∀ x ∈ S', expired (make_ready s (waiting_unlink s σ)) x = expired σ x := by
        intro x hx
        have hxs : x ≠ s := fun hh => hsS (hh ▸ hx)
        have := hd x
        simp only [hxs, if_false] at this
        exact alarm_expired_data this _
      have hfil : S'.filter (expired (make_ready s (waiting_unlink s σ))) =
          S'.filter (expired σ) := List.filter_congr hexp
      have hfil2 : S'.filter (fun x => !expired (make_ready s (waiting_unlink s σ)) x) =
          S'.filter (fun x => !expired σ x) :=
        List.filter_congr (fun x hx => by rw [hexp x hx])
      refine ⟨σ', ?_, ?_, ?_, ?_⟩
      · have : on_tick_loop (f + 1) (some s) σ sched =
            on_tick_loop f (σ.mem s).next (make_ready s (waiting_unlink s σ)) true := by
          have he' : (σ.mem s).alarm_expired σ.ticks = true := he
          simp [on_tick_loop, he']
        simp only [List.head?_cons, this, hnext, e1]
        simp [he]
      · rw [hfil, hfil2] at e2
        simpa [List.filter_cons, he] using e2
      · intro x
        rw [e3 x, hd x]
        by_cases hxs : x = s
        · subst hxs
          simp [hsS, he]
        · have hex : expired (make_ready s (waiting_unlink s σ)) x = expired σ x := by
            have := hd x
            simp only [hxs, if_false] at this
            exact alarm_expired_data this _
          simp [hxs, hex]
      · exact e4
    · -- the task stays in the waiting queue
      have he' : expired σ s = false := by simpa using he
      have h1 : WF σ R ((keep ++ [s]) ++ S') C := by
        simpa [List.append_assoc] using h
      obtain ⟨σ', e1, e2, e3, e4⟩ :=
        on_tick_loop_spec C S' (keep ++ [s]) R σ sched f h1 hf'
      refine ⟨σ', ?_, ?_, ?_, e4⟩
      · have : on_tick_loop (f + 1) (some s) σ sched =
            on_tick_loop f (σ.mem s).next σ sched := by
          have he'' : (σ.mem s).alarm_expired σ.ticks = false := he'
          simp [on_tick_loop, he'']
        simp only [List.head?_cons, this, hnext, e1]
        simp [he']
      · simpa [List.filter_cons, he', List.append_assoc] using e2
      · intro x
        rw [e3 x]
        by_cases hxs : x = s
        · subst hxs
          simp [hsS, he']
        · simp [hxs]


/-! ## The round-robin picker -/

/-- The next link of the task at position `i` of a queue is the task at
position `i + 1`, null at the tail. -/
theorem Seg_next_getElem {mem : Heap} :
    ∀ (L : List Ptr) (pv p last : Option Ptr), Seg mem pv p L last none →
      ∀ (i : Nat) (x : Ptr), L[i]? = some x → (mem x).next = L[i + 1]?
  | [], _, _, _, _, i, x, hx => by simp at hx
  | y :: ys, pv, p, last, h, i, x, hx => by
    obtain ⟨_, _, h3⟩ := h
    cases i with
    | zero =>
      have hxy : y = x := by simpa using hx
      subst hxy
      rcases ys with _ | ⟨z, zs⟩
      · simpa using h3.1
      · simpa using h3.1
    | succ j =>
      have hx' : ys[j]? = some x := by simpa using hx
      simpa using Seg_next_getElem ys _ _ _ h3 j x hx'

/-- What switch_task leaves untouched: the queues, the counters, the interrupt
flag, and every field of every task other than the register snapshot. -/
theorem switch_task_frame {pf : Platform} {val : Marker} {σ σ' : Kernel}
    (h : switch_task pf val σ = .ok σ') :
    σ'.ready_queue = σ.ready_queue ∧ σ'.waiting_queue = σ.waiting_queue ∧
      σ'.cleanup_queue = σ.cleanup_queue ∧ σ'.next_pid = σ.next_pid ∧
      σ'.ticks = σ.ticks ∧ σ'.interrupts_on = σ.interrupts_on ∧
      ∀ x, σ'.mem x = { σ.mem x with regs := (σ'.mem x).regs } := by
  unfold switch_task at h
  split at h
  · injection h with h; subst h; simp
  · split at h
    · injection h with h; subst h; simp
    · simp only [save_registers] at h
      split at h
      · injection h with h; subst h
        refine ⟨rfl, rfl, rfl, rfl, rfl, rfl, fun x => ?_⟩
        simp only [Function.update_apply]
        split <;> simp_all
      · split at h
        · exact absurd h (by simp)
        · injection h with h; subst h
          refine ⟨rfl, rfl, rfl, rfl, rfl, rfl, fun x => ?_⟩
          simp only [Function.update_apply]
          split <;> simp_all

/-- The queues are the same after switch_task. -/
theorem switch_task_WF {pf : Platform} {val : Marker} {σ σ' : Kernel} {R W C : List Ptr}
    (h : switch_task pf val σ = .ok σ') (hw : WF σ R W C) : WF σ' R W C := by
  obtain ⟨h1, h2, h3, _, _, _, h7⟩ := switch_task_frame h
  refine WF_links hw h1 h2 h3 (fun x => ?_)
  rw [h7 x]
  exact ⟨rfl, rfl⟩

/-- The fields of a task other than its register snapshot are the same after
switch_task. -/
theorem switch_task_data_state {pf : Platform} {val : Marker} {σ σ' : Kernel}
    (h : switch_task pf val σ = .ok σ') (x : Ptr) :
    (σ'.mem x).state = (σ.mem x).state ∧ (σ'.mem x).alarm_at = (σ.mem x).alarm_at ∧
      (σ'.mem x).id = (σ.mem x).id ∧ (σ'.mem x).exit_code = (σ.mem x).exit_code ∧
      (σ'.mem x).directory = (σ.mem x).directory ∧
      (σ'.mem x).kernel_stack = (σ.mem x).kernel_stack := by
  have h7 := (switch_task_frame h).2.2.2.2.2.2 x
  rw [h7]
  exact ⟨rfl, rfl, rfl, rfl, rfl, rfl⟩

/-- With a task at the head of the ready queue, switch_task finds a successor. -/
theorem switch_task_ok_of_head (pf : Platform) (val : Marker) {σ : Kernel}
    (hh : σ.ready_queue.head_ ≠ none) : ∃ σ', switch_task pf val σ = .ok σ' := by
  unfold switch_task
  split
  · exact ⟨_, rfl⟩
  · split
    · exact ⟨_, rfl⟩
    · simp only []
      split
      · exact ⟨_, rfl⟩
      · split
        · rename_i hn
          exfalso
          simp only [pick_next, save_registers, RunList.head] at hn
          split at hn
          · simp at hn
          · exact hh hn
        · exact ⟨_, rfl⟩

/-- One fresh switch_task call moves current to the following task of the
ready queue, from the tail to the head. -/
theorem switch_task_next (pf : Platform) {σ : Kernel} {R : List Ptr} {c : Ptr} {i : Nat}
    (hl : IsList σ.mem σ.ready_queue R) (hcur : σ.current = some c) (hi : R[i]? = some c) :
    ∃ σ', switch_task pf .fresh σ = .ok σ' ∧ σ'.current = R[(i + 1) % R.length]? ∧
      IsList σ'.mem σ'.ready_queue R := by
  have hiN : i < R.length := by
    by_contra hc
    rw [List.getElem?_eq_none (by omega)] at hi
    exact absurd hi (by simp)
  have hnx : (σ.mem c).next = R[i + 1]? := Seg_next_getElem R _ _ _ hl i c hi
  have hhd : σ.ready_queue.head_ = R[0]? := by
    rw [head_eq hl]
    cases R <;> simp
  have hnext : pick_next (save_registers c σ) c = R[(i + 1) % R.length]? := by
    unfold pick_next
    have e1 : ((save_registers c σ).mem c).next_runnable = R[i + 1]? := by
      simp [save_registers, Task.next_runnable, hnx]
    have e2 : (save_registers c σ).ready_queue.head = R[0]? := by
      simp [save_registers, RunList.head, hhd]
    rw [e1, e2]
    by_cases hlt : i + 1 < R.length
    · rw [Nat.mod_eq_of_lt hlt, List.getElem?_eq_getElem hlt]
    · have : i + 1 = R.length := by omega
      rw [this, Nat.mod_self, List.getElem?_eq_none (le_refl _)]
  have hsome : ∃ n, R[(i + 1) % R.length]? = some n := by
    have : (i + 1) % R.length < R.length := Nat.mod_lt _ (by omega)
    exact ⟨_, List.getElem?_eq_getElem this⟩
  obtain ⟨n, hn⟩ := hsome
  have hl1 : IsList (save_registers c σ).mem (save_registers c σ).ready_queue R := by
    refine IsList_links (fun x _ => ?_) hl
    simp only [save_registers, Function.update_apply]
    split <;> simp_all
  unfold switch_task
  simp only [hcur]
  rw [hnext, hn]
  by_cases hnc : n = c
  · subst hnc
    exact ⟨_, by simp, by simp [save_registers, hcur], hl1⟩
  · have : ¬ (some n = some c) := fun h => hnc (Option.some.inj h)
    simp only [this, if_false]
    exact ⟨_, rfl, rfl, hl1⟩

/-- Consecutive fresh switch_task calls from the task at position `i` of the ready
queue visit the positions that follow, modulo the length of the queue. -/
theorem switch_run_spec (pf : Platform) (R : List Ptr) :
    ∀ (k : Nat) (σ : Kernel) (i : Nat) (c : Ptr), IsList σ.mem σ.ready_queue R →
      σ.current = some c → R[i]? = some c →
      ∃ σ', switch_run pf k σ =
          .ok ((List.range k).map (fun j => R[(i + 1 + j) % R.length]?), σ') ∧
        σ'.current = R[(i + k) % R.length]? ∧ IsList σ'.mem σ'.ready_queue R
  | 0, σ, i, c, hl, hcur, hi => by
    have hiN : i < R.length := by
      by_contra hc
      rw [List.getElem?_eq_none (by omega)] at hi
      exact absurd hi (by simp)
    refine ⟨σ, rfl, ?_, hl⟩
    rw [hcur, Nat.add_zero, Nat.mod_eq_of_lt hiN, hi]
  | k + 1, σ, i, c, hl, hcur, hi => by
    have hiN : i < R.length := by
      by_contra hc
      rw [List.getElem?_eq_none (by omega)] at hi
      exact absurd hi (by simp)
    obtain ⟨σ1, e1, e2, e3⟩ := switch_task_next pf hl hcur hi
    have hlt : (i + 1) % R.length < R.length := Nat.mod_lt _ (by omega)
    have e2' : σ1.current = some (R[(i + 1) % R.length]) := by
      rw [e2, List.getElem?_eq_getElem hlt]
    obtain ⟨σ2, f1, f2, f3⟩ :=
      switch_run_spec pf R k σ1 ((i + 1) % R.length) _ e3 e2' (List.getElem?_eq_getElem hlt)
    refine ⟨σ2, ?_, ?_, f3⟩
    · simp only [switch_run, e1, f1, List.range_succ_eq_map, List.map_cons, List.map_map]
      rw [e2]
      have hm : List.map (fun j => R[((i + 1) % R.length + 1 + j) % R.length]?) (List.range k) =
          List.map ((fun j => R[(i + 1 + j) % R.length]?) ∘ Nat.succ) (List.range k) := by
        apply List.map_congr_left
        intro j _
        simp only [Function.comp]
        rw [Nat.add_assoc ((i + 1) % R.length), Nat.mod_add_mod]
        congr 2
        omega
      rw [hm]
    · rw [f2, Nat.mod_add_mod]
      congr 2
      omega

/-- A rotation of a list, position by position. -/
theorem rotate_eq_map_range (R : List Ptr) (n : Nat) :
    (R.rotate n).map some = (List.range R.length).map (fun j => R[(n + j) % R.length]?) := by
  apply List.ext_getElem
  · simp
  · intro k h1 h2
    simp only [List.length_map, List.length_rotate] at h1
    simp only [List.getElem_map, List.getElem_range, List.getElem_rotate]
    have : (n + k) % R.length < R.length := Nat.mod_lt _ (by omega)
    rw [List.getElem?_eq_getElem this]
    simp only [Nat.add_comm k n]


/-- C1. Round robin: in a state whose ready queue holds the distinct tasks `R`
with current among them, as many consecutive fresh switch_task calls as the
queue has tasks all succeed, and the tasks they make current are, in order,
those of the ready queue from the successor of current on, wrapping from the
tail to the head; the last call makes the starting task current again. -/
theorem round_robin_visits_each_ready_task_once (pf : Platform) (σ : Kernel) (R : List Ptr)
    (c : Ptr) (hl : IsList σ.mem σ.ready_queue R) (hnd : R.Nodup)
    (hcur : σ.current = some c) (hc : c ∈ R) :
    ∃ σ', switch_run pf R.length σ = .ok ((R.rotate (R.indexOf c + 1)).map some, σ') ∧
      σ'.current = some c ∧ (R.rotate (R.indexOf c + 1)).Perm R ∧
      (R.rotate (R.indexOf c + 1)).Nodup := by
  have hi : R[R.indexOf c]? = some c := by
    rw [List.getElem?_eq_getElem (List.indexOf_lt_length.2 hc)]
    simp
  obtain ⟨σ', h1, h2, _⟩ := switch_run_spec pf R R.length σ (R.indexOf c) c hl hcur hi
  refine ⟨σ', ?_, ?_, List.rotate_perm _ _, List.nodup_rotate.2 hnd⟩
  · rw [h1, rotate_eq_map_range]
  · rw [h2, Nat.add_mod_right, Nat.mod_eq_of_lt (List.indexOf_lt_length.2 hc), hi]


/-! ## The tick handler -/

/-- The scan of on_tick followed by its conditional switch, on a well-formed
state: the result exists, its queues are the partition of the waiting queue by
the alarm test, and the non-link content of a task changes only by the state
Ready given to the moved tasks and by register snapshots. -/
theorem on_tick_spec (pf : Platform) (σ : Kernel) (R W C : List Ptr) (fuel : Nat)
    (h : WF σ R W C) (hf : W.length ≤ fuel) :
    ∃ σ', on_tick pf fuel σ = .ok σ' ∧
      WF σ' (R ++ W.filter (expired σ)) (W.filter (fun x => !expired σ x)) C ∧
      σ'.ticks = σ.ticks ∧
      (∀ x, (σ'.mem x).state =
        if x ∈ W ∧ expired σ x = true then Task.State.eReady else (σ.mem x).state) ∧
      (∀ x, (σ'.mem x).alarm_at = (σ.mem x).alarm_at) := by
  have h0 : WF σ R ([] ++ W) C := by simpa using h
  obtain ⟨σ1, e1, e2, e3, e4⟩ := on_tick_loop_spec C W [] R σ false fuel h0 hf
  have hb : σ.waiting_queue.begin = W.head? := head_eq h.waiting
  have e2' : WF σ1 (R ++ W.filter (expired σ)) (W.filter (fun x => !expired σ x)) C := by
    simpa using e2
  have hticks : σ1.ticks = σ.ticks := by rw [e4]
  have hst : ∀ x, (σ1.mem x).state =
      if x ∈ W ∧ expired σ x = true then Task.State.eReady else (σ.mem x).state := by
    intro x
    have := congrArg Task.state (e3 x)
    simp only [Task.data] at this
    rw [this]
    split <;> rfl
  have hal : ∀ x, (σ1.mem x).alarm_at = (σ.mem x).alarm_at := by
    intro x
    have := congrArg Task.alarm_at (e3 x)
    simp only [Task.data] at this
    rw [this]
    split <;> rfl
  unfold on_tick
  rw [hb, e1]
  simp only [Bool.false_or]
  by_cases hany : W.any (expired σ) = true
  · simp only [hany, if_true]
    have hhead : σ1.ready_queue.head_ ≠ none := by
      rw [head_eq e2'.ready]
      obtain ⟨x, hx, hex⟩ := List.any_eq_true.1 hany
      have hxm : x ∈ R ++ W.filter (expired σ) :=
        List.mem_append_right _ (List.mem_filter.2 ⟨hx, hex⟩)
      intro hn
      rw [List.head?_eq_none_iff] at hn
      rw [hn] at hxm
      exact absurd hxm (List.not_mem_nil _)
    obtain ⟨σ2, hs⟩ := switch_task_ok_of_head pf Marker.fresh hhead
    have hfr := switch_task_frame hs
    refine ⟨σ2, hs, switch_task_WF hs e2', by rw [hfr.2.2.2.2.1, hticks], fun x => ?_, fun x => ?_⟩
    · rw [(switch_task_data_state hs x).1, hst x]
    · rw [(switch_task_data_state hs x).2.1, hal x]
  · simp only [hany]
    exact ⟨σ1, rfl, e2', hticks, hst, hal⟩

/-- The alarm test is decided by the state, the alarm and the tick counter. -/
theorem expired_congr {σ σ' : Kernel} {x : Ptr} (h1 : (σ'.mem x).state = (σ.mem x).state)
    (h2 : (σ'.mem x).alarm_at = (σ.mem x).alarm_at) (h3 : σ'.ticks = σ.ticks) :
    expired σ' x = expired σ x := by
  simp [expired, Task.alarm_expired, h1, h2, h3]

/-- C6. The scan of on_tick partitions the waiting queue by the alarm test: the
call returns; every task that was waiting with an expired alarm is in the ready
queue with state Ready and not in the waiting queue; every task that was
waiting without an expired alarm is still in the waiting queue, in the same
relative order; no task left in the waiting queue has an expired alarm. -/
theorem on_tick_partitions_waiting_queue (pf : Platform) (σ : Kernel) (R W C : List Ptr)
    (fuel : Nat) (h : WF σ R W C) (hf : W.length ≤ fuel) :
    ∃ σ' R' W', on_tick pf fuel σ = .ok σ' ∧ WF σ' R' W' C ∧
      R' = R ++ W.filter (expired σ) ∧
      W' = W.filter (fun x => !expired σ x) ∧
      (∀ x ∈ W, expired σ x = true →
        x ∈ R' ∧ x ∉ W' ∧ (σ'.mem x).state = Task.State.eReady) ∧
      (∀ x ∈ W, expired σ x = false → x ∈ W' ∧ x ∉ R') ∧
      W'.Sublist W ∧
      (∀ x ∈ W', expired σ' x = false) := by
  obtain ⟨σ', e1, e2, e3, e4, e5⟩ := on_tick_spec pf σ R W C fuel h hf
  have hd := nodup_disjoint h.nodup
  refine ⟨σ', _, _, e1, e2, rfl, rfl, ?_, ?_, List.filter_sublist _, ?_⟩
  · intro x hx hex
    refine ⟨List.mem_append_right _ (List.mem_filter.2 ⟨hx, hex⟩), ?_, ?_⟩
    · simp [List.mem_filter, hex]
    · rw [e4 x]
      simp [hx, hex]
  · intro x hx hex
    refine ⟨List.mem_filter.2 ⟨hx, by simp [hex]⟩, ?_⟩
    intro hm
    rcases List.mem_append.1 hm with hr | hw
    · exact hd.2.2.2.1 x hr hx
    · have := (List.mem_filter.1 hw).2
      rw [hex] at this
      exact absurd this (by simp)
  · intro x hx
    obtain ⟨hxW, hne⟩ := List.mem_filter.1 hx
    have hex : expired σ x = false := by simpa using hne
    have hs : (σ'.mem x).state = (σ.mem x).state := by
      rw [e4 x]
      simp [hex]
    rw [expired_congr hs (e5 x) e3, hex]


/-- Two task records with the same non-link content agree field by field. -/
theorem data_fields {t u : Task} (h : t.data = u.data) :
    t.id = u.id ∧ t.state = u.state ∧ t.alarm_at = u.alarm_at ∧ t.exit_code = u.exit_code ∧
      t.regs = u.regs ∧ t.directory = u.directory ∧ t.kernel_stack = u.kernel_stack := by
  have h1 : t.data.id = u.data.id := congrArg Task.id h
  have h2 : t.data.state = u.data.state := congrArg Task.state h
  have h3 : t.data.alarm_at = u.data.alarm_at := congrArg Task.alarm_at h
  have h4 : t.data.exit_code = u.data.exit_code := congrArg Task.exit_code h
  have h5 : t.data.regs = u.data.regs := congrArg Task.regs h
  have h6 : t.data.directory = u.data.directory := congrArg Task.directory h
  have h7 : t.data.kernel_stack = u.data.kernel_stack := congrArg Task.kernel_stack h
  exact ⟨h1, h2, h3, h4, h5, h6, h7⟩

/-- A task record agrees field by field with its non-link content. -/
theorem fields_of_data {t v : Task} (h : t.data = v) :
    t.id = v.id ∧ t.state = v.state ∧ t.alarm_at = v.alarm_at ∧ t.exit_code = v.exit_code ∧
      t.regs = v.regs ∧ t.directory = v.directory ∧ t.kernel_stack = v.kernel_stack := by
  subst h
  exact ⟨rfl, rfl, rfl, rfl, rfl, rfl, rfl⟩


/-! ## The interrupt guard -/

/-- After disable_interrupts the flag is off and nothing else has changed. -/
theorem disable_interrupts_snd (σ : Kernel) :
    (disable_interrupts σ).2 = { σ with interrupts_on := false } := by
  unfold disable_interrupts
  split
  · rename_i h
    cases σ
    simp_all
  · rfl

/-- The value of disable_interrupts is 1 when the flag was on and 0 otherwise. -/
theorem disable_interrupts_fst (σ : Kernel) :
    (disable_interrupts σ).1 = if σ.interrupts_on = true then 1 else 0 := by
  unfold disable_interrupts
  split <;> simp_all

/-- A restore given the value of the matching disable brings the flag back to
its value before the disable and changes nothing else. -/
theorem restore_after_disable (σ τ : Kernel) (hτ : τ.interrupts_on = false) :
    restore_interrupts (disable_interrupts σ).1 τ = { τ with interrupts_on := σ.interrupts_on } := by
  rw [disable_interrupts_fst]
  unfold restore_interrupts
  cases hσ : σ.interrupts_on
  · cases τ
    simp_all
  · simp

/-! ## The critical sections of sleep and exit -/

/-- Setting an alarm keeps the queues. -/
theorem sleep_til_WF (pf : Platform) {σ : Kernel} {R W C : List Ptr} (h : WF σ R W C)
    (t : Ptr) (secs : Int) : WF (sleep_til pf t secs σ) R W C := by
  refine WF_links h rfl rfl rfl (fun x => ?_)
  by_cases hx : x = t
  · subst hx; simp [sleep_til]
  · simp [sleep_til, Function.update_noteq hx]

/-- The statements of sleep between the two interrupt calls, on a well-formed
state whose current task `c` is in the ready queue. -/
theorem sleep_body_spec (pf : Platform) (σ : Kernel) (R W C : List Ptr) (c : Ptr) (secs : Int)
    (h : WF σ R W C) (hc : c ∈ R) :
    WF (make_wait c (ready_unlink c (sleep_til pf c secs σ))) (R.erase c) (W ++ [c]) C ∧
      ∀ x, ((make_wait c (ready_unlink c (sleep_til pf c secs σ))).mem x).data =
        if x = c then
          { (σ.mem x).data with
            alarm_at := u32 (σ.ticks + pf.secs_to_ticks secs), state := Task.State.eWaiting }
        else (σ.mem x).data := by
  have h1 := sleep_til_WF pf h c secs
  have h2 := ready_unlink_WF h1 hc
  have h3 := make_wait_WF h2.1 h2.2
  refine ⟨h3, fun x => ?_⟩
  rw [make_wait_data]
  simp only [ready_unlink, unlink_data, sleep_til]
  by_cases hx : x = c
  · subst hx; simp [Task.data]
  · simp [hx, Function.update_noteq hx]

/-- The critical section of sleep on a well-formed state whose current task
`c` is in the ready queue. -/
theorem sleep_locked_spec (pf : Platform) (σ : Kernel) (R W C : List Ptr) (c : Ptr) (secs : Int)
    (h : WF σ R W C) (hcur : σ.current = some c) (hc : c ∈ R) :
    ∃ σ', sleep_locked pf secs σ = .ok σ' ∧
      WF σ' (R.erase c) (W ++ [c]) C ∧
      (∀ x, (σ'.mem x).data =
        if x = c then
          { (σ.mem x).data with
            alarm_at := u32 (σ.ticks + pf.secs_to_ticks secs), state := Task.State.eWaiting }
        else (σ.mem x).data) ∧
      σ' = { σ with mem := σ'.mem, ready_queue := σ'.ready_queue,
                    waiting_queue := σ'.waiting_queue } := by
  have h0 : WF { σ with interrupts_on := false } R W C := WF_links h rfl rfl rfl (fun _ => ⟨rfl, rfl⟩)
  obtain ⟨b1, b2⟩ := sleep_body_spec pf { σ with interrupts_on := false } R W C c secs h0 hc
  unfold sleep_locked
  simp only [disable_interrupts_snd, hcur]
  rw [restore_after_disable _ _ rfl]
  exact ⟨_, rfl, WF_links b1 rfl rfl rfl (fun _ => ⟨rfl, rfl⟩), b2, rfl⟩

/-- The statements of exit between the two interrupt calls, on a well-formed
state whose current task `c` is in the ready queue. -/
theorem exit_body_spec (σ : Kernel) (R W C : List Ptr) (c : Ptr) (code : Int)
    (h : WF σ R W C) (hc : c ∈ R) :
    WF (cleanup_prepend c
        { ready_unlink c σ with
          mem := Function.update (ready_unlink c σ).mem c
            { (ready_unlink c σ).mem c with exit_code := code, state := Task.State.eDead } })
      (R.erase c) W (c :: C) ∧
      ∀ x, ((cleanup_prepend c
        { ready_unlink c σ with
          mem := Function.update (ready_unlink c σ).mem c
            { (ready_unlink c σ).mem c with exit_code := code, state := Task.State.eDead } }).mem
          x).data =
        if x = c then { (σ.mem x).data with exit_code := code, state := Task.State.eDead }
        else (σ.mem x).data := by
  have h2 := ready_unlink_WF h hc
  have h3 : WF { ready_unlink c σ with
      mem := Function.update (ready_unlink c σ).mem c
        { (ready_unlink c σ).mem c with exit_code := code, state := Task.State.eDead } }
      (R.erase c) W C := by
    refine WF_links h2.1 rfl rfl rfl (fun x => ?_)
    by_cases hx : x = c
    · subst hx; simp
    · simp [Function.update_noteq hx]
  refine ⟨cleanup_prepend_WF h3 h2.2, fun x => ?_⟩
  simp only [cleanup_prepend, prepend_data]
  by_cases hx : x = c
  · subst hx
    have := unlink_data σ.ready_queue σ.mem x x
    simp only [Task.data] at this
    simp [Task.data, ready_unlink]
    simp_all
  · simp [hx, Function.update_noteq hx, ready_unlink, unlink_data]

/-- The critical section of exit on a well-formed state whose current task `c`
is in the ready queue. -/
theorem exit_locked_spec (σ : Kernel) (R W C : List Ptr) (c : Ptr) (code : Int)
    (h : WF σ R W C) (hcur : σ.current = some c) (hc : c ∈ R) :
    ∃ σ', exit_locked code σ = .ok σ' ∧
      WF σ' (R.erase c) W (c :: C) ∧
      (∀ x, (σ'.mem x).data =
        if x = c then { (σ.mem x).data with exit_code := code, state := Task.State.eDead }
        else (σ.mem x).data) ∧
      σ' = { σ with mem := σ'.mem, ready_queue := σ'.ready_queue,
                    cleanup_queue := σ'.cleanup_queue } := by
  have h0 : WF { σ with interrupts_on := false } R W C := WF_links h rfl rfl rfl (fun _ => ⟨rfl, rfl⟩)
  obtain ⟨b1, b2⟩ := exit_body_spec { σ with interrupts_on := false } R W C c code h0 hc
  unfold exit_locked
  simp only [disable_interrupts_snd, hcur]
  rw [restore_after_disable _ _ rfl]
  exact ⟨_, rfl, WF_links b1 rfl rfl rfl (fun _ => ⟨rfl, rfl⟩), b2, rfl⟩


/-! ## Sleeping and waking -/

/-- A waiting task whose alarm test succeeds is moved to the ready queue by
on_tick. -/
theorem on_tick_moves_expired (pf : Platform) (σ : Kernel) (R W C : List Ptr) (c : Ptr)
    (fuel : Nat) (h : WF σ R W C) (hf : W.length ≤ fuel) (hc : c ∈ W)
    (he : expired σ c = true) :
    ∃ σ' R' W', on_tick pf fuel σ = .ok σ' ∧ WF σ' R' W' C ∧ c ∈ R' ∧ c ∉ W' ∧
      (σ'.mem c).state = Task.State.eReady := by
  obtain ⟨σ', g1, g2, _, g4, _⟩ := on_tick_spec pf σ R W C fuel h hf
  refine ⟨σ', _, _, g1, g2, List.mem_append_right _ (List.mem_filter.2 ⟨hc, he⟩), ?_, ?_⟩
  · simp [List.mem_filter, he]
  · rw [g4 c]
    simp [hc, he]

/-- The critical section of sleep leaves the calling task `c` in the waiting
queue with state Waiting and the 32-bit sum of the tick counter and the
converted duration as alarm, and the switch that follows keeps that. -/
theorem sleep_spec (pf : Platform) (σ σ1 : Kernel) (R W C : List Ptr) (c : Ptr) (secs : Int)
    (h : WF σ R W C) (hcur : σ.current = some c) (hc : c ∈ R)
    (hs : sleep pf secs σ = .ok σ1) :
    WF σ1 (R.erase c) (W ++ [c]) C ∧ (σ1.mem c).state = Task.State.eWaiting ∧
      (σ1.mem c).alarm_at = u32 (σ.ticks + pf.secs_to_ticks secs) := by
  obtain ⟨σl, e1, e2, e3, _⟩ := sleep_locked_spec pf σ R W C c secs h hcur hc
  simp only [sleep, e1] at hs
  have hd := switch_task_data_state hs c
  have hcd := fields_of_data (e3 c)
  simp only [if_true] at hcd
  refine ⟨switch_task_WF hs e2, ?_, ?_⟩
  · rw [hd.1, hcd.2.1]
  · rw [hd.2.1, hcd.2.2.1]

/-- In a well-formed state with a second ready task, sleep called by the
current task returns. -/
theorem sleep_returns (pf : Platform) (σ : Kernel) (R W C : List Ptr) (c : Ptr) (secs : Int)
    (h : WF σ R W C) (hcur : σ.current = some c) (hc : c ∈ R) (hR : 1 < R.length) :
    ∃ σ1, sleep pf secs σ = .ok σ1 := by
  obtain ⟨σl, e1, e2, _, _⟩ := sleep_locked_spec pf σ R W C c secs h hcur hc
  have hhead : σl.ready_queue.head_ ≠ none := by
    rw [head_eq e2.ready]
    intro hn
    rw [List.head?_eq_none_iff] at hn
    have := congrArg List.length hn
    rw [List.length_erase_of_mem hc] at this
    simp at this
    omega
  obtain ⟨σ1, hs⟩ := switch_task_ok_of_head pf Marker.fresh hhead
  exact ⟨σ1, by simp only [sleep, e1, hs]⟩

/-- Moving the tick counter keeps a state well formed. -/
theorem WF_ticks {σ : Kernel} {R W C : List Ptr} (h : WF σ R W C) (t : Nat) :
    WF { σ with ticks := t } R W C :=
  WF_links h rfl rfl rfl (fun _ => ⟨rfl, rfl⟩)

/-- C4, amended. Sleep wake-up: the current task `c` of a well-formed state
calls sleep(secs) when the tick counter is T and the call leaves the state
`σ1`. If the 32-bit sum of T and secs_to_ticks(secs), which is the alarm of
`c`, is not 0, an on_tick call at any tick value `t` at or above that sum
returns, removes `c` from the waiting queue and puts it in the ready queue with
state Ready. -/
theorem sleep_woken_at_alarm (pf : Platform) (σ σ1 : Kernel) (R W C : List Ptr)
    (c : Ptr) (secs : Int) (t fuel : Nat)
    (h : WF σ R W C) (hcur : σ.current = some c) (hc : c ∈ R)
    (hs : sleep pf secs σ = .ok σ1)
    (h0 : u32 (σ.ticks + pf.secs_to_ticks secs) ≠ 0)
    (ht : u32 (σ.ticks + pf.secs_to_ticks secs) ≤ t) (hf : W.length < fuel) :
    (σ1.mem c).alarm_at = u32 (σ.ticks + pf.secs_to_ticks secs) ∧
    ∃ σ2 R2 W2, on_tick pf fuel { σ1 with ticks := t } = .ok σ2 ∧ WF σ2 R2 W2 C ∧
      c ∈ R2 ∧ c ∉ W2 ∧ (σ2.mem c).state = Task.State.eReady := by
  obtain ⟨w1, w2, w3⟩ := sleep_spec pf σ σ1 R W C c secs h hcur hc hs
  have he : expired { σ1 with ticks := t } c = true := by
    simp only [expired, Task.alarm_expired, w2, w3]
    simp [h0, ht]
  exact ⟨w3, on_tick_moves_expired pf { σ1 with ticks := t } (R.erase c) (W ++ [c]) C c fuel
    (WF_ticks w1 t) (by simp; omega) (by simp) he⟩

/-! ## Fork -/

/-- The state fork has built when it reaches the register capture. -/
theorem fork_create_eq (d : Nat) (p : Ptr) (k : Nat) (σ : Kernel) (hn : σ.next_pid < INT_MAX) :
    fork_create d p k σ = .ok ((disable_interrupts σ).1,
      ready_append p { σ with
        interrupts_on := false
        mem := Function.update σ.mem p
          { Task.ctor σ.next_pid (σ.mem p) with directory := d, kernel_stack := k }
        next_pid := σ.next_pid + 1 }) := by
  have hn' : ¬ INT_MAX ≤ σ.next_pid := not_le.2 hn
  unfold fork_create
  simp only [disable_interrupts_snd, hn', if_false, Function.update_same, Function.update_idem]

/-- The caller's run of fork, as one state update. -/
theorem fork_eq (d : Nat) (p : Ptr) (k : Nat) (σ : Kernel) (hn : σ.next_pid < INT_MAX) :
    fork d p k σ = .ok
      (((save_registers p (ready_append p { σ with
          interrupts_on := false
          mem := Function.update σ.mem p
            { Task.ctor σ.next_pid (σ.mem p) with directory := d, kernel_stack := k }
          next_pid := σ.next_pid + 1 })).mem p).id,
        { save_registers p (ready_append p { σ with
            interrupts_on := false
            mem := Function.update σ.mem p
              { Task.ctor σ.next_pid (σ.mem p) with directory := d, kernel_stack := k }
            next_pid := σ.next_pid + 1 }) with interrupts_on := σ.interrupts_on }) := by
  unfold fork
  rw [fork_create_eq d p k σ hn]
  simp only [fork_return]
  rw [restore_after_disable _ _ rfl]

/-- The non-link content of the tasks after the caller's run of fork. -/
theorem fork_data (d : Nat) (p : Ptr) (k : Nat) (σ : Kernel) (x : Ptr) :
    (((save_registers p (ready_append p { σ with
        interrupts_on := false
        mem := Function.update σ.mem p
          { Task.ctor σ.next_pid (σ.mem p) with directory := d, kernel_stack := k }
        next_pid := σ.next_pid + 1 })).mem x).data) =
      if x = p then
        { (σ.mem x).data with
          id := σ.next_pid, alarm_at := 0, exit_code := 0, directory := d,
          kernel_stack := k, regs := σ.cpu_regs }
      else (σ.mem x).data := by
  simp only [save_registers, ready_append]
  by_cases hx : x = p
  · subst hx
    simp only [if_true, Function.update_same]
    have := data_fields (append_data σ.ready_queue (Function.update σ.mem x
      { Task.ctor σ.next_pid (σ.mem x) with directory := d, kernel_stack := k }) x x)
    simp only [Function.update_same, Task.ctor] at this
    obtain ⟨h1, h2, h3, h4, h5, h6, h7⟩ := this
    simp only [Task.data, Task.ctor, h1, h2, h3, h4, h6, h7]
  · simp only [hx, if_false, Function.update_noteq hx]
    rw [append_data]
    simp [Function.update_noteq hx]

/-- The caller's run of fork on a well-formed state, with a block `p` that is
in no queue: the new task is last in the ready queue; its id, alarm, exit code,
directory, kernel stack and register snapshot are set and nothing else of it,
in particular not its state. -/
theorem fork_spec (d : Nat) (p : Ptr) (k : Nat) (σ : Kernel) (R W C : List Ptr)
    (h : WF σ R W C) (hp : p ∉ R ++ (W ++ C)) (hn : σ.next_pid < INT_MAX) :
    ∃ σ', fork d p k σ = .ok (σ.next_pid, σ') ∧ WF σ' (R ++ [p]) W C ∧
      (∀ x, (σ'.mem x).data =
        if x = p then
          { (σ.mem x).data with
            id := σ.next_pid, alarm_at := 0, exit_code := 0, directory := d,
            kernel_stack := k, regs := σ.cpu_regs }
        else (σ.mem x).data) ∧
      σ' = { σ with mem := σ'.mem, ready_queue := σ'.ready_queue,
                    next_pid := σ.next_pid + 1,
                    trace := σ.trace ++ [Event.save_registers p] } := by
  have h2 : WF { σ with
      interrupts_on := false
      mem := Function.update σ.mem p
        { Task.ctor σ.next_pid (σ.mem p) with directory := d, kernel_stack := k }
      next_pid := σ.next_pid + 1 } R W C := by
    refine WF_links h rfl rfl rfl (fun x => ?_)
    by_cases hx : x = p
    · subst hx; simp [Task.ctor]
    · simp [Function.update_noteq hx]
  have h3 := ready_append_WF h2 hp
  have hid := (fields_of_data (fork_data d p k σ p)).1
  simp only [if_true] at hid
  rw [fork_eq d p k σ hn, hid]
  refine ⟨_, rfl, ?_, fork_data d p k σ, rfl⟩
  refine WF_links h3 rfl rfl rfl (fun x => ?_)
  simp only [save_registers, Function.update_apply]
  split <;> simp_all

/-- The return value of fork and the id counter need no well-formed queues. -/
theorem fork_returns_pid (d : Nat) (p : Ptr) (k : Nat) (σ : Kernel)
    (hn : σ.next_pid < INT_MAX) :
    ∃ σ', fork d p k σ = .ok (σ.next_pid, σ') ∧ (σ'.mem p).id = σ.next_pid ∧
      σ'.next_pid = σ.next_pid + 1 := by
  have hid := (fields_of_data (fork_data d p k σ p)).1
  simp only [if_true] at hid
  rw [fork_eq d p k σ hn, hid]
  exact ⟨_, rfl, hid, rfl⟩


/-! ## The claims -/

/-- Witness of C1: three tasks at addresses 1, 2, 3 with task 0 (address 1)
current; three switches visit 2, 3, 1. -/
theorem round_robin_witness :
    ∃ σ', switch_run demo_platform 3 three_tasks = .ok ([some 2, some 3, some 1], σ') ∧
      σ'.current = some 1 ∧ List.Perm [2, 3, 1] [1, 2, 3] ∧ List.Nodup [2, 3, 1] :=
  round_robin_visits_each_ready_task_once demo_platform three_tasks [1, 2, 3] 1
    ⟨rfl, rfl, rfl, rfl, rfl, rfl, rfl, rfl⟩ (by decide) rfl (by decide)

/-- C2, evaluation at the failing input. Three tasks; task 1 (address 2) has
exited and waits on the cleanup queue; task 2 (address 3) is current and calls
exit(5). The switch_task call at the end of exit follows the link that prepend
stored in the exiting task, which points into the cleanup queue, and makes
task 1 current: a task that has called exit, with state Dead, that is not in
the ready queue. -/
theorem exit_with_unreaped_task_selects_dead_task :
    run_before_second_exit = .ok before_second_exit ∧
      WF before_second_exit [1, 3] [] [2] ∧ before_second_exit.current = some 3 ∧
      (before_second_exit.mem 2).state = Task.State.eDead ∧
      (before_second_exit.mem 2).exit_code = 7 ∧
      ∃ σ', exit demo_platform 5 before_second_exit = .ok σ' ∧ WF σ' [1] [] [3, 2] ∧
        σ'.current = some 2 ∧ (σ'.mem 2).state = Task.State.eDead :=
  ⟨rfl, ⟨⟨rfl, rfl, rfl, rfl, rfl, rfl⟩, ⟨rfl, rfl⟩, ⟨rfl, rfl, rfl, rfl⟩, by decide⟩, rfl, rfl,
    rfl, _, rfl, ⟨⟨rfl, rfl, rfl, rfl⟩, ⟨rfl, rfl⟩, ⟨rfl, rfl, rfl, rfl, rfl, rfl⟩, by decide⟩,
    rfl, rfl⟩

/-- C4, counterexample. Task 0 calls sleep(0) while the tick counter is 0: the
alarm is 0, which the alarm test reads as no alarm, and the on_tick calls at
tick 0 and at tick 1000, both at or after the deadline, leave the task in the
waiting queue with state Waiting. -/
theorem sleep_zero_at_tick_zero_never_woken :
    two_tasks.ticks = 0 ∧ two_tasks.current = some 1 ∧
      ∃ σ1, sleep demo_platform 0 two_tasks = .ok σ1 ∧ (σ1.mem 1).alarm_at = 0 ∧
        (∃ σ2, on_tick demo_platform 3 { σ1 with ticks := 0 } = .ok σ2 ∧
          WF σ2 [2] [1] [] ∧ (σ2.mem 1).state = Task.State.eWaiting) ∧
        (∃ σ2, on_tick demo_platform 3 { σ1 with ticks := 1000 } = .ok σ2 ∧
          WF σ2 [2] [1] [] ∧ (σ2.mem 1).state = Task.State.eWaiting) :=
  ⟨rfl, rfl, _, rfl, rfl,
    ⟨_, rfl, ⟨⟨rfl, rfl, rfl, rfl⟩, ⟨rfl, rfl, rfl, rfl⟩, ⟨rfl, rfl⟩, by decide⟩, rfl⟩,
    ⟨_, rfl, ⟨⟨rfl, rfl, rfl, rfl⟩, ⟨rfl, rfl, rfl, rfl⟩, ⟨rfl, rfl⟩, by decide⟩, rfl⟩⟩

/-- Witness of C4, amended: task 1 sleeps 2 seconds at tick 100 with 50 ticks
per second, the alarm is 200, and the on_tick call at tick 200 moves the task
to the ready queue. -/
theorem sleep_woken_at_alarm_witness :
    (task1_asleep.mem 2).alarm_at = 200 ∧
    ∃ σ2 R2 W2, on_tick demo_platform 3 { task1_asleep with ticks := 200 } = .ok σ2 ∧
      WF σ2 R2 W2 [] ∧ 2 ∈ R2 ∧ 2 ∉ W2 ∧ (σ2.mem 2).state = Task.State.eReady :=
  sleep_woken_at_alarm demo_platform task1_running task1_asleep [1, 2] [] [] 2 2 200 3
    ⟨⟨rfl, rfl, rfl, rfl, rfl, rfl⟩, ⟨rfl, rfl⟩, ⟨rfl, rfl⟩, by decide⟩ rfl (by decide) rfl
    (by decide) (by decide) (by decide)

/-- C5. Task::alarm_expired is true exactly when the state is Waiting, alarm_at
is not 0 and alarm_at is at most the tick counter. It is a function of the task
record and the counter alone and returns nothing but the boolean. -/
theorem alarm_expired_iff (t : Task) (ticks : Nat) :
    t.alarm_expired ticks = true ↔
      t.state = Task.State.eWaiting ∧ t.alarm_at ≠ 0 ∧ t.alarm_at ≤ ticks := by
  simp [Task.alarm_expired, and_assoc]

/-- Witness of C6: task 1 waits with alarm 200 and on_tick runs at tick 200. -/
theorem on_tick_partitions_waiting_queue_witness :
    ∃ σ' R' W', on_tick demo_platform 3 task1_due = .ok σ' ∧ WF σ' R' W' [] ∧
      R' = [1] ++ List.filter (expired task1_due) [2] ∧
      W' = List.filter (fun x => !expired task1_due x) [2] ∧
      (∀ x ∈ [2], expired task1_due x = true →
        x ∈ R' ∧ x ∉ W' ∧ (σ'.mem x).state = Task.State.eReady) ∧
      (∀ x ∈ [2], expired task1_due x = false → x ∈ W' ∧ x ∉ R') ∧
      W'.Sublist [2] ∧
      (∀ x ∈ W', expired σ' x = false) :=
  on_tick_partitions_waiting_queue demo_platform task1_due [1] [2] [] 3
    ⟨⟨rfl, rfl, rfl, rfl⟩, ⟨rfl, rfl, rfl, rfl⟩, ⟨rfl, rfl⟩, by decide⟩ (by decide)

/-- C7. The critical section of sleep(secs), called by the current task `c` of
a well-formed state at tick T: it returns; the alarm of `c` is the 32-bit sum
of T and secs_to_ticks(secs), which is their sum when that fits in 32 bits; `c`
has left the ready queue, has state Waiting and is last in the waiting queue;
no other task changes queue, place, state or alarm; and switch_task is invoked
on this state. -/
theorem sleep_sets_alarm_and_waits (pf : Platform) (σ : Kernel) (R W C : List Ptr) (c : Ptr)
    (secs : Int) (h : WF σ R W C) (hcur : σ.current = some c) (hc : c ∈ R) :
    ∃ σ', sleep_locked pf secs σ = .ok σ' ∧
      sleep pf secs σ = switch_task pf .fresh σ' ∧
      (σ'.mem c).alarm_at = u32 (σ.ticks + pf.secs_to_ticks secs) ∧
      (σ.ticks + pf.secs_to_ticks secs < 4294967296 →
        (σ'.mem c).alarm_at = σ.ticks + pf.secs_to_ticks secs) ∧
      (σ'.mem c).state = Task.State.eWaiting ∧
      WF σ' (R.erase c) (W ++ [c]) C ∧ c ∉ R.erase c ∧
      (∀ x, x ≠ c → (σ'.mem x).state = (σ.mem x).state ∧
        (σ'.mem x).alarm_at = (σ.mem x).alarm_at ∧
        (x ∈ R.erase c ↔ x ∈ R) ∧ (x ∈ W ++ [c] ↔ x ∈ W)) := by
  obtain ⟨σ', e1, e2, e3, _⟩ := sleep_locked_spec pf σ R W C c secs h hcur hc
  have hcd := fields_of_data (e3 c)
  simp only [if_true] at hcd
  have hnd := (nodup_disjoint h.nodup).1
  refine ⟨σ', e1, by simp only [sleep, e1], hcd.2.2.1, ?_, hcd.2.1, e2,
    fun hm => (List.Nodup.mem_erase_iff hnd).1 hm |>.1 rfl, fun x hx => ?_⟩
  · intro hlt
    rw [hcd.2.2.1, u32, Nat.mod_eq_of_lt hlt]
  · have hxd := fields_of_data (e3 x)
    simp only [hx, if_false] at hxd
    refine ⟨hxd.2.1, hxd.2.2.1, ?_, ?_⟩
    · rw [List.Nodup.mem_erase_iff hnd]
      simp [hx]
    · simp [hx]

/-- Witness of C7: task 1 (address 2) calls sleep(2) at tick 100. -/
theorem sleep_sets_alarm_and_waits_witness :
    ∃ σ', sleep_locked demo_platform 2 task1_running = .ok σ' ∧
      sleep demo_platform 2 task1_running = switch_task demo_platform .fresh σ' ∧
      (σ'.mem 2).alarm_at = 200 ∧
      (100 + 100 < 4294967296 → (σ'.mem 2).alarm_at = 100 + 100) ∧
      (σ'.mem 2).state = Task.State.eWaiting ∧
      WF σ' [1] [2] [] ∧ 2 ∉ [1] ∧
      (∀ x, x ≠ 2 → (σ'.mem x).state = (task1_running.mem x).state ∧
        (σ'.mem x).alarm_at = (task1_running.mem x).alarm_at ∧
        (x ∈ [1] ↔ x ∈ [1, 2]) ∧ (x ∈ [2] ↔ x ∈ [])) :=
  sleep_sets_alarm_and_waits demo_platform task1_running [1, 2] [] [] 2 2
    ⟨⟨rfl, rfl, rfl, rfl, rfl, rfl⟩, ⟨rfl, rfl⟩, ⟨rfl, rfl⟩, by decide⟩ rfl (by decide)

/-- C8. Return values of fork. When fork is called with next_pid below INT_MAX,
the caller's run, in which save_registers makes a first capture, returns the id
of the task it created, which is the value next_pid had on entry, and leaves
next_pid one larger. The arrival at the capture site with the second_return
sentinel, the child path, returns 0 and changes nothing. -/
theorem fork_return_values (d : Nat) (p : Ptr) (k : Nat) (σ : Kernel)
    (hn : σ.next_pid < INT_MAX) :
    (∃ σ', fork d p k σ = .ok (σ.next_pid, σ') ∧ (σ'.mem p).id = σ.next_pid ∧
      σ'.next_pid = σ.next_pid + 1) ∧
    (∀ st τ, fork_return Marker.fresh st p τ = ((τ.mem p).id, restore_interrupts st τ)) ∧
    (∀ st τ, fork_return Marker.second_return st p τ = (0, τ)) :=
  ⟨fork_returns_pid d p k σ hn, fun _ _ => rfl, fun _ _ => rfl⟩

/-- Witness of C8: after init, fork by task 0 returns 1 to the caller. -/
theorem fork_return_values_witness :
    (∃ σ', fork 8 2 8192 after_init = .ok (1, σ') ∧ (σ'.mem 2).id = 1 ∧
      σ'.next_pid = 1 + 1) ∧
    (∀ st τ, fork_return Marker.fresh st 2 τ = ((τ.mem 2).id, restore_interrupts st τ)) ∧
    (∀ st τ, fork_return Marker.second_return st 2 τ = (0, τ)) :=
  fork_return_values 8 2 8192 after_init (by decide)

/-- C9, evaluation at the failing input. Task 1 (address 2) has exited and has
been reaped, and task 0 forks again; the allocator hands out the freed block at
address 2. fork puts the new task at the tail of the ready queue with alarm 0,
the cloned directory and the new stack, but never assigns its state: the new
task has the state left in the block, Dead, not Ready. -/
theorem fork_on_recycled_block_leaves_state_dead :
    run_after_reap = .ok after_reap ∧
      WF after_reap [1] [] [] ∧ (after_reap.mem 2).state = Task.State.eDead ∧
      ∃ σ', fork 9 2 8192 after_reap = .ok (2, σ') ∧ WF σ' [1, 2] [] [] ∧
        (σ'.mem 2).alarm_at = 0 ∧ (σ'.mem 2).directory = 9 ∧ (σ'.mem 2).kernel_stack = 8192 ∧
        (σ'.mem 2).state = Task.State.eDead ∧ (σ'.mem 2).state ≠ Task.State.eReady :=
  ⟨rfl, ⟨⟨rfl, rfl, rfl, rfl⟩, ⟨rfl, rfl⟩, ⟨rfl, rfl⟩, by decide⟩, rfl,
    _, rfl, ⟨⟨rfl, rfl, rfl, rfl, rfl, rfl⟩, ⟨rfl, rfl⟩, ⟨rfl, rfl⟩, by decide⟩,
    rfl, rfl, rfl, rfl, by decide⟩

/-- What fork does establish, on a well-formed state with a block that is in
no queue: the ready queue is extended by the new task at the tail, the other
queues and current are unchanged, the new task has alarm 0, the cloned
directory and the new kernel stack, and its state is the one the block had. -/
theorem fork_appends_to_ready_queue (d : Nat) (p : Ptr) (k : Nat) (σ : Kernel)
    (R W C : List Ptr) (h : WF σ R W C) (hp : p ∉ R ++ (W ++ C))
    (hn : σ.next_pid < INT_MAX) :
    ∃ σ', fork d p k σ = .ok (σ.next_pid, σ') ∧ WF σ' (R ++ [p]) W C ∧
      σ'.current = σ.current ∧ σ'.waiting_queue = σ.waiting_queue ∧
      σ'.cleanup_queue = σ.cleanup_queue ∧
      (σ'.mem p).alarm_at = 0 ∧ (σ'.mem p).directory = d ∧ (σ'.mem p).kernel_stack = k ∧
      (σ'.mem p).state = (σ.mem p).state := by
  obtain ⟨σ', e1, e2, e3, e4⟩ := fork_spec d p k σ R W C h hp hn
  have hd := fields_of_data (e3 p)
  simp only [if_true] at hd
  exact ⟨σ', e1, e2, by rw [e4], by rw [e4], by rw [e4], hd.2.2.1, hd.2.2.2.2.2.1,
    hd.2.2.2.2.2.2, hd.2.1⟩

/-- The deallocation events of the log are not changed by switch_task. -/
theorem switch_task_releases {pf : Platform} {val : Marker} {σ σ' : Kernel}
    (h : switch_task pf val σ = .ok σ') :
    σ'.trace.filter Event.is_release = σ.trace.filter Event.is_release := by
  unfold switch_task at h
  split at h
  · injection h with h; subst h; rfl
  · split at h
    · injection h with h; subst h; rfl
    · simp only [save_registers] at h
      split at h
      · injection h with h; subst h
        simp [List.filter_append, Event.is_release]
      · split at h
        · exact absurd h (by simp)
        · injection h with h; subst h
          simp [List.filter_append, Event.is_release]

/-- C10. The critical section of exit(code), called by the current task `c` of
a well-formed state: it returns; `c` has left the ready queue, has exit_code
`code` and state Dead and is first in the cleanup queue; no other task changes
queue, place or state; nothing is deallocated; switch_task is invoked on this
state, and it keeps the record of `c` with its exit_code and deallocates
nothing either. -/
theorem exit_moves_current_to_cleanup (pf : Platform) (σ : Kernel) (R W C : List Ptr) (c : Ptr)
    (code : Int) (h : WF σ R W C) (hcur : σ.current = some c) (hc : c ∈ R) :
    ∃ σ', exit_locked code σ = .ok σ' ∧
      exit pf code σ = switch_task pf .fresh σ' ∧
      WF σ' (R.erase c) W (c :: C) ∧ c ∉ R.erase c ∧
      (σ'.mem c).exit_code = code ∧ (σ'.mem c).state = Task.State.eDead ∧
      σ'.trace = σ.trace ∧
      (∀ x, x ≠ c → (σ'.mem x).state = (σ.mem x).state ∧
        (σ'.mem x).exit_code = (σ.mem x).exit_code ∧
        (x ∈ R.erase c ↔ x ∈ R) ∧ (x ∈ c :: C ↔ x ∈ C)) ∧
      (∀ σ'', exit pf code σ = .ok σ'' →
        (σ''.mem c).exit_code = code ∧ (σ''.mem c).state = Task.State.eDead ∧
        σ''.trace.filter Event.is_release = σ.trace.filter Event.is_release) := by
  obtain ⟨σ', e1, e2, e3, e4⟩ := exit_locked_spec σ R W C c code h hcur hc
  have hcd := fields_of_data (e3 c)
  simp only [if_true] at hcd
  have hnd := (nodup_disjoint h.nodup).1
  have hex : exit pf code σ = switch_task pf .fresh σ' := by simp only [exit, e1]
  have htr : σ'.trace = σ.trace := by rw [e4]
  refine ⟨σ', e1, hex, e2, fun hm => (List.Nodup.mem_erase_iff hnd).1 hm |>.1 rfl,
    hcd.2.2.2.1, hcd.2.1, htr, fun x hx => ?_, fun σ'' hs => ?_⟩
  · have hxd := fields_of_data (e3 x)
    simp only [hx, if_false] at hxd
    refine ⟨hxd.2.1, hxd.2.2.2.1, ?_, ?_⟩
    · rw [List.Nodup.mem_erase_iff hnd]
      simp [hx]
    · simp [hx]
  · rw [hex] at hs
    have hd := switch_task_data_state hs c
    refine ⟨by rw [hd.2.2.2.1, hcd.2.2.2.1], by rw [hd.1, hcd.2.1], ?_⟩
    rw [switch_task_releases hs, htr]

/-- Witness of C10: task 1 (address 2) calls exit(7) while task 0 is ready. -/
theorem exit_moves_current_to_cleanup_witness :
    ∃ σ', exit_locked 7 task1_running = .ok σ' ∧
      exit demo_platform 7 task1_running = switch_task demo_platform .fresh σ' ∧
      WF σ' [1] [] [2] ∧ 2 ∉ [1] ∧
      (σ'.mem 2).exit_code = 7 ∧ (σ'.mem 2).state = Task.State.eDead ∧
      σ'.trace = task1_running.trace ∧
      (∀ x, x ≠ 2 → (σ'.mem x).state = (task1_running.mem x).state ∧
        (σ'.mem x).exit_code = (task1_running.mem x).exit_code ∧
        (x ∈ [1] ↔ x ∈ [1, 2]) ∧ (x ∈ [2] ↔ x ∈ [])) ∧
      (∀ σ'', exit demo_platform 7 task1_running = .ok σ'' →
        (σ''.mem 2).exit_code = 7 ∧ (σ''.mem 2).state = Task.State.eDead ∧
        σ''.trace.filter Event.is_release = task1_running.trace.filter Event.is_release) :=
  exit_moves_current_to_cleanup demo_platform task1_running [1, 2] [] [] 2 7
    ⟨⟨rfl, rfl, rfl, rfl, rfl, rfl⟩, ⟨rfl, rfl⟩, ⟨rfl, rfl⟩, by decide⟩ rfl (by decide)

/-! ## The reaper -/

/-- The loop of cleanup stops when the iterator is null. -/
theorem cleanup_loop_none (fuel : Nat) (σ : Kernel) :
    cleanup_loop fuel none σ = .ok σ := by
  cases fuel <;> rfl

/-- The deallocations of a list of tasks depend on their non-link content
only. -/
theorem release_events_congr {mem mem' : Heap} :
    ∀ (L : List Ptr), (∀ x ∈ L, (mem' x).data = (mem x).data) →
      release_events mem' L = release_events mem L
  | [], _ => rfl
  | t :: ts, h => by
    have ht := fields_of_data (h t (List.mem_cons_self _ _))
    simp only [release_events]
    rw [release_events_congr ts (fun x hx => h x (List.mem_cons_of_mem _ hx))]
    have h6 : (mem' t).directory = (mem t).directory := ht.2.2.2.2.2.1
    have h7 : (mem' t).kernel_stack = (mem t).kernel_stack := ht.2.2.2.2.2.2
    rw [h6, h7]

/-- Invariant of the loop of cleanup on a well-formed state whose cleanup
queue holds `S`: the loop returns with an empty cleanup queue, has logged the
deallocations of the tasks of `S` in order, and has changed nothing else but
links. -/
theorem cleanup_loop_spec (R W : List Ptr) :
    ∀ (S : List Ptr) (σ : Kernel) (fuel : Nat), WF σ R W S → S.length ≤ fuel →
      ∃ σ', cleanup_loop fuel S.head? σ = .ok σ' ∧ WF σ' R W [] ∧
        (∀ x, (σ'.mem x).data = (σ.mem x).data) ∧
        σ' = { σ with mem := σ'.mem, cleanup_queue := σ'.cleanup_queue,
                      trace := σ.trace ++ release_events σ.mem S }
  | [], σ, fuel, h, _ => by
    refine ⟨σ, ?_, h, fun _ => rfl, ?_⟩
    · simp [cleanup_loop_none]
    · simp [release_events]
  | s :: S', σ, fuel, h, hf => by
    obtain ⟨f, rfl⟩ : ∃ f, fuel = f + 1 := ⟨fuel - 1, by simp at hf; omega⟩
    have hf' : S'.length ≤ f := by simpa using hf
    have hnext : (σ.mem s).next = S'.head? := by
      have h3 := h.cleanup.2.2
      rcases S' with _ | ⟨y, ys⟩
      · exact h3.1
      · exact h3.1
    have hu := cleanup_unlink_WF h (c := s) (by simp)
    rw [List.erase_cons_head] at hu
    have hd : ∀ x, ((cleanup_unlink s σ).mem x).data = (σ.mem x).data := by
      intro x
      simp [cleanup_unlink, unlink_data]
    have hds := fields_of_data (hd s)
    have h1 : WF { cleanup_unlink s σ with trace := (cleanup_unlink s σ).trace ++
        [Event.free_directory ((cleanup_unlink s σ).mem s).directory,
         Event.kfree ((cleanup_unlink s σ).mem s).kernel_stack, Event.kfree s] } R W S' :=
      WF_links hu.1 rfl rfl rfl (fun _ => ⟨rfl, rfl⟩)
    obtain ⟨σ', e1, e2, e3, e4⟩ := cleanup_loop_spec R W S' _ f h1 hf'
    refine ⟨σ', ?_, e2, fun x => ?_, ?_⟩
    · simp only [List.head?_cons, cleanup_loop, hnext]
      exact e1
    · rw [e3 x]
      exact hd x
    · have hrel : release_events (cleanup_unlink s σ).mem S' = release_events σ.mem S' :=
        release_events_congr S' (fun x _ => hd x)
      have h6 : ((cleanup_unlink s σ).mem s).directory = (σ.mem s).directory := hds.2.2.2.2.2.1
      have h7 : ((cleanup_unlink s σ).mem s).kernel_stack = (σ.mem s).kernel_stack :=
        hds.2.2.2.2.2.2
      rw [e4]
      simp only [release_events, hrel, h6, h7, List.append_assoc, List.cons_append,
        List.nil_append]
      rfl

/-- C15. The three short circuits of switch_task. With current null, or with
the second_return marker, the call returns the state unchanged. With a first
capture whose computed successor is current, it returns the state in which only
the register snapshot of current and the log of the capture are new: current,
the three queues, the page directory and the kernel stack pointer are as
before and restore_registers is not called. In every other case the successor
differs from current: when it is a task, the call returns with that task as
current, and when it is null, the call stores null in current and faults on
dereferencing it. -/
theorem switch_task_short_circuits (pf : Platform) (val : Marker) (σ : Kernel) :
    (σ.current = none → switch_task pf val σ = .ok σ) ∧
    (val = Marker.second_return → switch_task pf val σ = .ok σ) ∧
    (∀ cur, σ.current = some cur → val = Marker.fresh →
      pick_next (save_registers cur σ) cur = some cur →
      ∃ σ', switch_task pf val σ = .ok σ' ∧ σ'.current = σ.current ∧
        σ'.ready_queue = σ.ready_queue ∧ σ'.waiting_queue = σ.waiting_queue ∧
        σ'.cleanup_queue = σ.cleanup_queue ∧
        σ'.current_directory = σ.current_directory ∧ σ'.kernel_stack = σ.kernel_stack ∧
        σ'.trace = σ.trace ++ [Event.save_registers cur]) ∧
    (∀ cur n, σ.current = some cur → val = Marker.fresh →
      pick_next (save_registers cur σ) cur = some n → n ≠ cur →
      ∃ σ', switch_task pf val σ = .ok σ' ∧ σ'.current = some n ∧
        σ'.current ≠ σ.current) ∧
    (∀ cur, σ.current = some cur → val = Marker.fresh →
      pick_next (save_registers cur σ) cur = none →
      switch_task pf val σ = .error Fault.null_deref) := by
  refine ⟨fun h => ?_, fun h => ?_, fun cur hc hv hp => ?_, fun cur n hc hv hp hn => ?_,
    fun cur hc hv hp => ?_⟩
  · simp only [switch_task, h]
  · subst h
    unfold switch_task
    cases σ.current <;> rfl
  · subst hv
    refine ⟨save_registers cur σ, ?_, rfl, rfl, rfl, rfl, rfl, rfl, rfl⟩
    simp only [switch_task, hc, hp, if_true]
  · subst hv
    have hne : ¬ (some n = some cur) := fun h => hn (Option.some.inj h)
    simp only [switch_task, hc, hp, hne, if_false]
    exact ⟨_, rfl, rfl, hne⟩
  · subst hv
    simp only [switch_task, hc, hp]
    rfl

/-! ## init, getpid and wait_any -/

/-- C17. After init, whatever the state before and the two allocated addresses:
next_pid is 1, the ready queue holds exactly the new task, whose id is 0, the
waiting and cleanup queues are empty, current is that task and getpid returns
0; and in every state with a current task getpid returns the id of that
task. -/
theorem init_then_getpid_returns_zero (task0 : Ptr) (stack : Nat) (σ : Kernel) :
    (init task0 stack σ).next_pid = 1 ∧
      WF (init task0 stack σ) [task0] [] [] ∧
      ((init task0 stack σ).mem task0).id = 0 ∧
      (init task0 stack σ).current = some task0 ∧
      getpid (init task0 stack σ) = .ok 0 ∧
      (∀ (τ : Kernel) (c : Ptr), τ.current = some c → getpid τ = .ok (τ.mem c).id) := by
  have hid : ((init task0 stack σ).mem task0).id = 0 := by
    simp [init, enable_interrupts, make_ready, ready_append, set_state, RunList.append,
      RunList.init, Task.ctor]
  have hcur : (init task0 stack σ).current = some task0 := rfl
  refine ⟨rfl, ?_, hid, hcur, ?_, ?_⟩
  · simp only [init, enable_interrupts, make_ready, ready_append, set_state, RunList.append,
      RunList.init]
    refine ⟨?_, ⟨rfl, rfl⟩, ⟨rfl, rfl⟩, by simp⟩
    simp [IsList, Seg]
  · simp only [getpid, hcur, hid]
  · intro τ c hc
    simp only [getpid, hc]

/-- C18. Method wait_any returns -1 for every state and every status pointer,
and the state it returns is the state it was called in: current, the queues,
every task and the interrupt flag are as on entry, and nothing is written. -/
theorem wait_any_always_fails (status : Nat) (σ : Kernel) :
    wait_any status σ = (-1, σ) := by
  simp only [wait_any]
  rw [restore_after_disable σ _ (by rw [disable_interrupts_snd])]
  rw [disable_interrupts_snd]

/-! ## Nested interrupt guards -/

/-- Every guard call keeps the invariant, and the result of a run that ends
satisfies it. -/
theorem run_guard_inv (σ0 : Kernel) :
    ∀ (ops : List GuardOp) (st : List Int) (σ : Kernel) (st' : List Int) (σ' : Kernel),
      GuardInv σ0 st σ → run_guard ops st σ = some (st', σ') → GuardInv σ0 st' σ'
  | [], st, σ, st', σ', hinv, hrun => by
    simp only [run_guard, Option.some.injEq, Prod.mk.injEq] at hrun
    obtain ⟨h1, h2⟩ := hrun
    subst h1; subst h2
    exact hinv
  | .disable :: ops, st, σ, st', σ', hinv, hrun => by
    simp only [run_guard] at hrun
    refine run_guard_inv σ0 ops _ _ st' σ' ?_ hrun
    rcases hinv with ⟨h1, h2⟩ | ⟨inner, h1, h2, h3⟩
    · subst h1; subst h2
      refine Or.inr ⟨[], ?_, by simp, disable_interrupts_snd σ⟩
      rw [disable_interrupts_fst]
      rfl
    · subst h1; subst h3
      refine Or.inr ⟨0 :: inner, ?_, ?_, ?_⟩
      · rw [disable_interrupts_fst]
        simp
      · intro v hv
        rcases List.mem_cons.1 hv with h | h
        · exact h
        · exact h2 v h
      · rw [disable_interrupts_snd]
  | .restore :: ops, [], σ, st', σ', _, hrun => by
    simp [run_guard] at hrun
  | .restore :: ops, v :: st, σ, st', σ', hinv, hrun => by
    simp only [run_guard] at hrun
    refine run_guard_inv σ0 ops _ _ st' σ' ?_ hrun
    rcases hinv with ⟨h1, _⟩ | ⟨inner, h1, h2, h3⟩
    · exact absurd h1 (by simp)
    · subst h3
      rcases inner with _ | ⟨w, inner'⟩
      · simp only [List.nil_append, List.cons.injEq] at h1
        obtain ⟨hv, hst⟩ := h1
        subst hv; subst hst
        refine Or.inl ⟨rfl, ?_⟩
        unfold restore_interrupts
        cases hσ : σ0.interrupts_on
        · cases σ0
          simp_all
        · cases σ0
          simp_all
      · simp only [List.cons_append, List.cons.injEq] at h1
        obtain ⟨hv, hst⟩ := h1
        have hw : w = 0 := h2 w (List.mem_cons_self _ _)
        subst hv; subst hst; subst hw
        refine Or.inr ⟨inner', rfl, fun v hv => h2 v (List.mem_cons_of_mem _ hv), ?_⟩
        simp [restore_interrupts]

/-- A run of guard calls passes through the end of each of its prefixes. -/
theorem run_guard_append :
    ∀ (ops1 ops2 : List GuardOp) (st : List Int) (σ : Kernel) (r : List Int × Kernel),
      run_guard (ops1 ++ ops2) st σ = some r →
      ∃ st1 σ1, run_guard ops1 st σ = some (st1, σ1) ∧ run_guard ops2 st1 σ1 = some r
  | [], ops2, st, σ, r, h => ⟨st, σ, rfl, h⟩
  | .disable :: ops1, ops2, st, σ, r, h => by
    simp only [List.cons_append, run_guard] at h ⊢
    exact run_guard_append ops1 ops2 _ _ r h
  | .restore :: ops1, ops2, [], σ, r, h => by
    simp [run_guard] at h
  | .restore :: ops1, ops2, v :: st, σ, r, h => by
    simp only [List.cons_append, run_guard] at h ⊢
    exact run_guard_append ops1 ops2 _ _ r h

/-- C19. The interrupt guard is nestable. disable_interrupts returns 1 iff the
flag was on and leaves it off, changing nothing else; restore_interrupts turns
the flag on iff its argument is not 0 and otherwise changes nothing. Hence for
every properly nested sequence of guard calls, each restore receiving the value
of its matching disable: at the end the state, with its flag, is the initial
one, and at every point of the run the flag is off while a disable is open and
the state is the initial one while none is open. -/
theorem interrupt_guard_nestable (σ : Kernel) (ops : List GuardOp) (σ' : Kernel)
    (hrun : run_guard ops [] σ = some ([], σ')) :
    (∀ τ : Kernel, ((disable_interrupts τ).1 = 1 ↔ τ.interrupts_on = true) ∧
      ((disable_interrupts τ).1 = 0 ↔ τ.interrupts_on = false) ∧
      (disable_interrupts τ).2 = { τ with interrupts_on := false }) ∧
    (∀ (v : Int) (τ : Kernel),
      (v ≠ 0 → restore_interrupts v τ = { τ with interrupts_on := true }) ∧
      (v = 0 → restore_interrupts v τ = τ)) ∧
    σ' = σ ∧ σ'.interrupts_on = σ.interrupts_on ∧
    (∀ ops1 ops2, ops = ops1 ++ ops2 →
      ∃ st1 σ1, run_guard ops1 [] σ = some (st1, σ1) ∧
        (st1 ≠ [] → σ1.interrupts_on = false) ∧ (st1 = [] → σ1 = σ)) := by
  have hfin : σ' = σ := by
    rcases run_guard_inv σ ops [] σ [] σ' (Or.inl ⟨rfl, rfl⟩) hrun with ⟨_, h2⟩ | ⟨_, h1, _, _⟩
    · exact h2
    · exact absurd h1 (by simp)
  refine ⟨fun τ => ⟨?_, ?_, disable_interrupts_snd τ⟩, fun v τ => ⟨?_, ?_⟩, hfin,
    by rw [hfin], ?_⟩
  · rw [disable_interrupts_fst]
    cases τ.interrupts_on <;> simp
  · rw [disable_interrupts_fst]
    cases τ.interrupts_on <;> simp
  · intro hv
    simp [restore_interrupts, hv]
  · intro hv
    simp [restore_interrupts, hv]
  · intro ops1 ops2 he
    rw [he] at hrun
    obtain ⟨st1, σ1, h1, _⟩ := run_guard_append ops1 ops2 [] σ _ hrun
    refine ⟨st1, σ1, h1, ?_, ?_⟩
    · intro hne
      rcases run_guard_inv σ ops1 [] σ st1 σ1 (Or.inl ⟨rfl, rfl⟩) h1 with ⟨k1, _⟩ | ⟨_, _, _, k3⟩
      · exact absurd k1 hne
      · rw [k3]
    · intro hnil
      rcases run_guard_inv σ ops1 [] σ st1 σ1 (Or.inl ⟨rfl, rfl⟩) h1 with ⟨_, k2⟩ | ⟨_, k1, _, _⟩
      · exact k2
      · rw [hnil] at k1
        exact absurd k1 (by simp)

/-- Witness of C19: two nested pairs run with interrupts on. -/
theorem interrupt_guard_nestable_witness :
    (∀ τ : Kernel, ((disable_interrupts τ).1 = 1 ↔ τ.interrupts_on = true) ∧
      ((disable_interrupts τ).1 = 0 ↔ τ.interrupts_on = false) ∧
      (disable_interrupts τ).2 = { τ with interrupts_on := false }) ∧
    (∀ (v : Int) (τ : Kernel),
      (v ≠ 0 → restore_interrupts v τ = { τ with interrupts_on := true }) ∧
      (v = 0 → restore_interrupts v τ = τ)) ∧
    boot = boot ∧ boot.interrupts_on = boot.interrupts_on ∧
    (∀ ops1 ops2,
      [GuardOp.disable, GuardOp.disable, GuardOp.restore, GuardOp.restore] = ops1 ++ ops2 →
      ∃ st1 σ1, run_guard ops1 [] boot = some (st1, σ1) ∧
        (st1 ≠ [] → σ1.interrupts_on = false) ∧ (st1 = [] → σ1 = boot)) :=
  interrupt_guard_nestable boot
    [GuardOp.disable, GuardOp.disable, GuardOp.restore, GuardOp.restore] boot rfl

/-! ## strcmp -/

/-- Reading a string at an index within it or at its terminator yields the
first byte of the rest of the string, 0 when nothing is left. -/
theorem cstr_at_drop (s : List Nat) (i : Nat) (hi : i ≤ s.length) :
    cstr_at s i = some ((s.drop i).headD 0) := by
  unfold cstr_at
  by_cases hlt : i < s.length
  · simp only [hlt, if_true]
    rw [List.getElem?_eq_getElem hlt]
    have : s.drop i = s[i] :: s.drop (i + 1) := List.drop_eq_getElem_cons hlt
    rw [this]
    rfl
  · have he : i = s.length := by omega
    simp [he]

/-- The loop of strcmp entered at index `i`, followed by the final test: for
strings without inner NUL bytes the result is 0 when the rests of the two
strings from `i` on are equal and 1 otherwise. -/
theorem strcmp_loop_spec (s1 s2 : List Nat) (h1 : ∀ c ∈ s1, c ≠ 0) (h2 : ∀ c ∈ s2, c ≠ 0) :
    ∀ (fuel i : Nat), i ≤ s1.length → i ≤ s2.length →
      min (s1.length - i) (s2.length - i) < fuel →
      ∃ r, strcmp_loop fuel s1 s2 i = .ok r ∧
        strcmp_result s1 s2 r = .ok (if s1.drop i = s2.drop i then 0 else 1)
  | 0, i, _, _, hf => absurd hf (Nat.not_lt_zero _)
  | fuel + 1, i, hi1, hi2, hf => by
    have e1 := cstr_at_drop s1 i hi1
    have e2 := cstr_at_drop s2 i hi2
    rcases ha : s1.drop i with _ | ⟨x, a'⟩
    · -- the first string ends here
      rw [ha] at e1
      refine ⟨(i, 0), ?_, ?_⟩
      · simp [strcmp_loop, e1, e2]
      · rcases hb : s2.drop i with _ | ⟨y, b'⟩
        · rw [hb] at e2
          simp [strcmp_result, e1, e2]
        · rw [hb] at e2
          have hy : y ≠ 0 := h2 y (List.mem_of_mem_drop (hb ▸ List.mem_cons_self y b'))
          simp [strcmp_result, e1, e2, hy]
    · rw [ha] at e1
      have hx : x ≠ 0 := h1 x (List.mem_of_mem_drop (ha ▸ List.mem_cons_self x a'))
      rcases hb : s2.drop i with _ | ⟨y, b'⟩
      · -- the second string ends here
        rw [hb] at e2
        refine ⟨(i, 0), ?_, ?_⟩
        · simp [strcmp_loop, e1, e2]
        · simp [strcmp_result, e1, e2, hx]
      · rw [hb] at e2
        have hy : y ≠ 0 := h2 y (List.mem_of_mem_drop (hb ▸ List.mem_cons_self y b'))
        have hl1 : i < s1.length := by
          by_contra hc
          rw [List.drop_of_length_le (by omega)] at ha
          exact absurd ha (by simp)
        have hl2 : i < s2.length := by
          by_contra hc
          rw [List.drop_of_length_le (by omega)] at hb
          exact absurd hb (by simp)
        by_cases hxy : x = y
        · -- equal bytes: the loop goes on
          subst hxy
          have hd1 : s1.drop (i + 1) = a' := by
            have := List.drop_eq_getElem_cons hl1
            rw [ha] at this
            exact (List.cons.inj this).2.symm
          have hd2 : s2.drop (i + 1) = b' := by
            have := List.drop_eq_getElem_cons hl2
            rw [hb] at this
            exact (List.cons.inj this).2.symm
          obtain ⟨r, hr1, hr2⟩ :=
            strcmp_loop_spec s1 s2 h1 h2 fuel (i + 1) (by omega) (by omega) (by omega)
          refine ⟨r, ?_, ?_⟩
          · simp [strcmp_loop, e1, e2, hx, hr1]
          · rw [hr2, hd1, hd2]
            simp
        · -- different bytes: failed = 1
          refine ⟨(i, 1), ?_, ?_⟩
          · simp [strcmp_loop, e1, e2, hx, hy, hxy]
          · simp [strcmp_result, e1, e2, hx, hy, hxy]

/-- What strcmp computes: on strings without inner NUL bytes, with enough
iterations, it returns 0 when the strings are equal and 1 otherwise; it never
returns -1. -/
theorem strcmp_spec (s1 s2 : List Nat) (h1 : ∀ c ∈ s1, c ≠ 0) (h2 : ∀ c ∈ s2, c ≠ 0)
    (fuel : Nat) (hf : min s1.length s2.length < fuel) :
    strcmp fuel s1 s2 = .ok (if s1 = s2 then 0 else 1) := by
  obtain ⟨r, hr1, hr2⟩ := strcmp_loop_spec s1 s2 h1 h2 fuel 0 (Nat.zero_le _) (Nat.zero_le _)
    (by simpa using hf)
  have : strcmp fuel s1 s2 = strcmp_result s1 s2 r := by
    simp only [strcmp, hr1]
  rw [this, hr2]
  simp

/-- C20, evaluation at the failing input. For str1 = "a" and str2 = "b", with
str1 less than str2, strcmp returns 1, not -1; it returns 1 for the pair in the
other order as well, and 0 for equal strings. -/
theorem strcmp_returns_one_for_smaller_first_string :
    ([97] : List Nat) < [98] ∧ strcmp 2 [97] [98] = .ok 1 ∧ strcmp 2 [98] [97] = .ok 1 ∧
      strcmp 2 [97] [97] = .ok 0 :=
  ⟨by decide, rfl, rfl, rfl⟩

/-! ## Task ids -/

/-- The scan of on_tick leaves next_pid alone. -/
theorem on_tick_loop_next_pid :
    ∀ (fuel : Nat) (i : Option Ptr) (σ : Kernel) (s : Bool) (σ' : Kernel) (s' : Bool),
      on_tick_loop fuel i σ s = .ok (σ', s') → σ'.next_pid = σ.next_pid
  | fuel, none, σ, s, σ', s', h => by
    rw [on_tick_loop_none] at h
    injection h with h
    injection h with h1 h2
    rw [← h1]
  | 0, some t, σ, s, σ', s', h => by
    simp [on_tick_loop] at h
  | fuel + 1, some t, σ, s, σ', s', h => by
    simp only [on_tick_loop] at h
    split at h
    · exact (on_tick_loop_next_pid fuel _ _ _ σ' s' h).trans
        (by simp [make_ready, ready_append, set_state, waiting_unlink])
    · exact on_tick_loop_next_pid fuel _ _ _ σ' s' h

/-- The loop of cleanup leaves next_pid alone. -/
theorem cleanup_loop_next_pid :
    ∀ (fuel : Nat) (i : Option Ptr) (σ σ' : Kernel),
      cleanup_loop fuel i σ = .ok σ' → σ'.next_pid = σ.next_pid
  | fuel, none, σ, σ', h => by
    rw [cleanup_loop_none] at h
    injection h with h
    rw [← h]
  | 0, some t, σ, σ', h => by
    simp [cleanup_loop] at h
  | fuel + 1, some t, σ, σ', h => by
    simp only [cleanup_loop] at h
    exact (cleanup_loop_next_pid fuel _ _ σ' h).trans (by simp [cleanup_unlink])

/-- Method on_tick leaves next_pid alone. -/
theorem on_tick_next_pid {pf : Platform} {fuel : Nat} {σ σ' : Kernel}
    (h : on_tick pf fuel σ = .ok σ') : σ'.next_pid = σ.next_pid := by
  unfold on_tick at h
  split at h
  · exact absurd h (by simp)
  · rename_i σ1 sched hl
    have h1 := on_tick_loop_next_pid _ _ _ _ _ _ hl
    split at h
    · rw [(switch_task_frame h).2.2.2.1, h1]
    · injection h with h
      rw [← h, h1]

/-- The critical section of sleep leaves next_pid alone. -/
theorem sleep_locked_next_pid {pf : Platform} {secs : Int} {σ σ' : Kernel}
    (h : sleep_locked pf secs σ = .ok σ') : σ'.next_pid = σ.next_pid := by
  simp only [sleep_locked] at h
  split at h
  · exact absurd h (by simp)
  · injection h with h
    rw [← h]
    simp only [restore_interrupts]
    split <;> simp [make_wait, waiting_append, set_state, ready_unlink, sleep_til,
      disable_interrupts_snd]

/-- The critical section of exit leaves next_pid alone. -/
theorem exit_locked_next_pid {code : Int} {σ σ' : Kernel}
    (h : exit_locked code σ = .ok σ') : σ'.next_pid = σ.next_pid := by
  simp only [exit_locked] at h
  split at h
  · exact absurd h (by simp)
  · injection h with h
    rw [← h]
    simp only [restore_interrupts]
    split <;> simp [cleanup_prepend, ready_unlink, disable_interrupts_snd]

/-- A fork that returns hands out the value of next_pid and increments it. -/
theorem fork_next_pid {d : Nat} {p : Ptr} {k : Nat} {σ σ' : Kernel} {r : Int}
    (h : fork d p k σ = .ok (r, σ')) : r = σ.next_pid ∧ σ'.next_pid = σ.next_pid + 1 := by
  have hn : σ.next_pid < INT_MAX := by
    by_contra hc
    have hle : INT_MAX ≤ σ.next_pid := not_lt.1 hc
    simp [fork, fork_create, disable_interrupts_snd, hle] at h
  obtain ⟨σ2, e1, _, e3⟩ := fork_returns_pid d p k σ hn
  rw [e1] at h
  injection h with h
  injection h with h1 h2
  exact ⟨h1.symm, by rw [← h2, e3]⟩

/-- One operation hands out no id and keeps next_pid, or hands out next_pid
and increments it. -/
theorem step_next_pid {pf : Platform} {op : Op} {σ σ' : Kernel} {ids : List Int}
    (h : step pf op σ = .ok (σ', ids)) :
    (ids = [] ∧ σ'.next_pid = σ.next_pid) ∨
      (ids = [σ.next_pid] ∧ σ'.next_pid = σ.next_pid + 1) := by
  cases op with
  | fork d p k =>
    simp only [step] at h
    split at h
    · exact absurd h (by simp)
    · rename_i r σ1 hfk
      injection h with h
      injection h with h1 h2
      obtain ⟨e1, e2⟩ := fork_next_pid hfk
      exact Or.inr ⟨by rw [← h2, e1], by rw [← h1, e2]⟩
  | sleep secs =>
    simp only [step] at h
    split at h
    · exact absurd h (by simp)
    · rename_i σ1 hs
      injection h with h
      injection h with h1 h2
      refine Or.inl ⟨h2.symm, ?_⟩
      unfold sleep at hs
      split at hs
      · exact absurd hs (by simp)
      · rename_i σl hl
        rw [← h1, (switch_task_frame hs).2.2.2.1, sleep_locked_next_pid hl]
  | on_tick fuel =>
    simp only [step] at h
    split at h
    · exact absurd h (by simp)
    · rename_i σ1 hs
      injection h with h
      injection h with h1 h2
      exact Or.inl ⟨h2.symm, by rw [← h1, on_tick_next_pid hs]⟩
  | timer_callback fuel =>
    simp only [step] at h
    split at h
    · exact absurd h (by simp)
    · rename_i σ1 hs
      injection h with h
      injection h with h1 h2
      refine Or.inl ⟨h2.symm, ?_⟩
      unfold timer_callback at hs
      rw [← h1, on_tick_next_pid hs]
  | switch_task val =>
    simp only [step] at h
    split at h
    · exact absurd h (by simp)
    · rename_i σ1 hs
      injection h with h
      injection h with h1 h2
      exact Or.inl ⟨h2.symm, by rw [← h1, (switch_task_frame hs).2.2.2.1]⟩
  | exit code =>
    simp only [step] at h
    split at h
    · exact absurd h (by simp)
    · rename_i σ1 hs
      injection h with h
      injection h with h1 h2
      refine Or.inl ⟨h2.symm, ?_⟩
      unfold exit at hs
      split at hs
      · exact absurd hs (by simp)
      · rename_i σl hl
        rw [← h1, (switch_task_frame hs).2.2.2.1, exit_locked_next_pid hl]
  | cleanup fuel =>
    simp only [step] at h
    split at h
    · exact absurd h (by simp)
    · rename_i σ1 hs
      injection h with h
      injection h with h1 h2
      exact Or.inl ⟨h2.symm, by rw [← h1, cleanup_loop_next_pid _ _ _ _ hs]⟩

/-- The ids handed out by a sequence of operations are the successive values
of next_pid from its value at the start on. -/
theorem run_ops_ids (pf : Platform) :
    ∀ (ops : List Op) (σ σ' : Kernel) (ids : List Int),
      run_ops pf ops σ = .ok (σ', ids) →
      ids = (List.range ids.length).map (fun (j : Nat) => σ.next_pid + (j : Int)) ∧
        σ'.next_pid = σ.next_pid + (ids.length : Int)
  | [], σ, σ', ids, h => by
    simp only [run_ops] at h
    injection h with h
    injection h with h1 h2
    subst h1; subst h2
    simp
  | op :: ops, σ, σ', ids, h => by
    simp only [run_ops] at h
    split at h
    · exact absurd h (by simp)
    · rename_i σ1 ids1 hst
      split at h
      · exact absurd h (by simp)
      · rename_i σ2 ids2 hrun
        injection h with h
        injection h with h1 h2
        subst h1; subst h2
        obtain ⟨e1, e2⟩ := run_ops_ids pf ops σ1 σ2 ids2 hrun
        rcases step_next_pid hst with ⟨k1, k2⟩ | ⟨k1, k2⟩
        · subst k1
          rw [k2] at e1 e2
          exact ⟨by simpa using e1, by simpa using e2⟩
        · subst k1
          rw [k2] at e1 e2
          refine ⟨?_, ?_⟩
          · rw [List.singleton_append, List.length_cons, List.range_succ_eq_map,
              List.map_cons, List.map_map]
            congr 1
            · simp
            · conv_lhs => rw [e1]
              apply List.map_congr_left
              intro j _
              simp only [Function.comp, Nat.cast_succ]
              omega
          · rw [e2]
            simp only [List.singleton_append, List.length_cons, Nat.cast_succ]
            omega

/-- C12. A run of init followed by any sequence of fork, sleep, on_tick,
timer_callback, switch_task, exit and cleanup calls that completes: task 0 has
id 0, the ids handed out by the forks are 1, 2, 3, ... in creation order, so all
ids are pairwise distinct and strictly increasing; next_pid is the number of
tasks created and is larger than every id; and the id a fork returns is the id
stored in the new task. -/
theorem task_ids_increase_and_are_never_reused (pf : Platform) (task0 : Ptr) (stack : Nat)
    (σ0 : Kernel) (ops : List Op) (σ : Kernel) (ids : List Int)
    (h : run_ops pf ops (init task0 stack σ0) = .ok (σ, ids)) :
    ((init task0 stack σ0).mem task0).id = 0 ∧
      0 :: ids = (List.range (ids.length + 1)).map (fun (j : Nat) => (j : Int)) ∧
      σ.next_pid = (ids.length : Int) + 1 ∧
      (0 :: ids).Pairwise (fun a b => a < b) ∧ (0 :: ids).Nodup ∧
      (∀ a ∈ 0 :: ids, a < σ.next_pid) ∧
      ∀ d p k τ r τ', fork d p k τ = .ok (r, τ') → (τ'.mem p).id = r := by
  have hnp : (init task0 stack σ0).next_pid = 1 := by
    simp [init, enable_interrupts, make_ready, ready_append, set_state]
  have hid : ((init task0 stack σ0).mem task0).id = 0 := by
    simp [init, enable_interrupts, make_ready, ready_append, set_state, RunList.append,
      RunList.init, Task.ctor]
  obtain ⟨e1, e2⟩ := run_ops_ids pf ops _ σ ids h
  rw [hnp] at e1 e2
  have hall : 0 :: ids = (List.range (ids.length + 1)).map (fun (j : Nat) => (j : Int)) := by
    rw [List.range_succ_eq_map, List.map_cons, List.map_map]
    congr 1
    conv_lhs => rw [e1]
    apply List.map_congr_left
    intro j _
    simp only [Function.comp, Nat.cast_succ]
    omega
  have hpw : (0 :: ids).Pairwise (fun a b => a < b) := by
    rw [hall, List.pairwise_map]
    exact (List.pairwise_lt_range _).imp (fun hab => by exact_mod_cast hab)
  refine ⟨hid, hall, by rw [e2]; omega, hpw, ?_, ?_, ?_⟩
  · exact hpw.imp (fun hab => ne_of_lt hab)
  · intro a ha
    rw [hall, List.mem_map] at ha
    obtain ⟨j, hj, rfl⟩ := ha
    rw [List.mem_range] at hj
    rw [e2]
    omega
  · intro d p k τ r τ' hf
    have hn : τ.next_pid < INT_MAX := by
      by_contra hc
      have hle : INT_MAX ≤ τ.next_pid := not_lt.1 hc
      simp [fork, fork_create, disable_interrupts_snd, hle] at hf
    obtain ⟨σ2, f1, f2, _⟩ := fork_returns_pid d p k τ hn
    rw [f1] at hf
    injection hf with hf
    injection hf with g1 g2
    rw [← g2, ← g1]
    exact f2

/-- Witness of C12: after init, the run fork, switch_task, fork, exit(3),
cleanup, fork (the last one into the block freed by cleanup) hands out the ids
1, 2, 3 and ends with next_pid 4. -/
theorem task_ids_witness :
    ((init 1 4096 boot).mem 1).id = 0 ∧
      0 :: [1, 2, 3] =
        (List.range (([1, 2, 3] : List Int).length + 1)).map (fun (j : Nat) => (j : Int)) ∧
      after_ids.next_pid = ((([1, 2, 3] : List Int).length : Nat) : Int) + 1 ∧
      (0 :: [1, 2, 3]).Pairwise (fun (a b : Int) => a < b) ∧ (0 :: [1, 2, 3] : List Int).Nodup ∧
      (∀ a ∈ (0 :: [1, 2, 3] : List Int), a < after_ids.next_pid) ∧
      ∀ d p k τ r τ', fork d p k τ = .ok (r, τ') → (τ'.mem p).id = r :=
  task_ids_increase_and_are_never_reused demo_platform 1 4096 boot
    [Op.fork 8 2 8192, Op.switch_task Marker.fresh, Op.fork 9 3 12288, Op.exit 3,
     Op.cleanup 4, Op.fork 10 2 16384] after_ids [1, 2, 3]
    (show run_with_ids = .ok (after_ids, [1, 2, 3]) from rfl)

/-- C13, evaluation at the failing inputs. After init task 0 (address 1) is
current and alone in the ready queue. When it calls sleep(2), the critical
section moves it to the waiting queue and leaves the ready queue empty; the
successor that switch_task computes, the head of the ready queue, is null, and
storing it in current and reading its directory is a null dereference. The same
happens when it calls exit(5). When task 2 calls exit(5) while the dead task 1
is on the cleanup queue, exit returns with current the dead task 1, which is
not in the ready queue. -/
theorem sleep_or_exit_of_only_task_leaves_no_current :
    WF after_init [1] [] [] ∧ after_init.current = some 1 ∧
      (∃ σl, sleep_locked demo_platform 2 after_init = .ok σl ∧ WF σl [] [1] [] ∧
        σl.current = some 1 ∧ pick_next (save_registers 1 σl) 1 = none) ∧
      sleep demo_platform 2 after_init = .error Fault.null_deref ∧
      (∃ σl, exit_locked 5 after_init = .ok σl ∧ WF σl [] [] [1] ∧
        σl.current = some 1 ∧ pick_next (save_registers 1 σl) 1 = none) ∧
      exit demo_platform 5 after_init = .error Fault.null_deref ∧
      ∃ σ', exit demo_platform 5 before_second_exit = .ok σ' ∧ WF σ' [1] [] [3, 2] ∧
        σ'.current = some 2 ∧ (2 : Ptr) ∉ [1] :=
  ⟨⟨⟨rfl, rfl, rfl, rfl⟩, ⟨rfl, rfl⟩, ⟨rfl, rfl⟩, by decide⟩, rfl,
    ⟨_, rfl, ⟨⟨rfl, rfl⟩, ⟨rfl, rfl, rfl, rfl⟩, ⟨rfl, rfl⟩, by decide⟩, rfl, rfl⟩, rfl,
    ⟨_, rfl, ⟨⟨rfl, rfl⟩, ⟨rfl, rfl⟩, ⟨rfl, rfl, rfl, rfl⟩, by decide⟩, rfl, rfl⟩, rfl,
    _, rfl, ⟨⟨rfl, rfl, rfl, rfl⟩, ⟨rfl, rfl⟩, ⟨rfl, rfl, rfl, rfl, rfl, rfl⟩, by decide⟩,
    rfl, by decide⟩

/-- C14, evaluation at the failing input. Task 1 (address 2) has exited and has
been reaped; task 0 forks again and the allocator hands out the freed block at
address 2. In the state reached, the new task is in the ready queue and in no
other queue, and its state is Dead. -/
theorem ready_queue_holds_dead_task_after_refork :
    run_after_refork = .ok after_refork ∧ WF after_refork [1, 2] [] [] ∧
      after_refork.current = some 1 ∧ (after_refork.mem 2).id = 2 ∧
      (2 : Ptr) ∈ [1, 2] ∧ (after_refork.mem 2).state = Task.State.eDead :=
  ⟨rfl, ⟨⟨rfl, rfl, rfl, rfl, rfl, rfl⟩, ⟨rfl, rfl⟩, ⟨rfl, rfl⟩, by decide⟩, rfl, rfl,
    by decide, rfl⟩

/-! ## Admission at the tail -/

/-- As long as the run does not reach the tail of the ready queue, consecutive
fresh switch_task calls from the task at position `i` make current the tasks
that follow it in the queue, in order. -/
theorem switch_run_no_wrap (pf : Platform) (L : List Ptr) (m : Nat) (σ : Kernel) (i : Nat)
    (c : Ptr) (hl : IsList σ.mem σ.ready_queue L) (hcur : σ.current = some c)
    (hi : L[i]? = some c) (hm : i + m < L.length) :
    ∃ σ', switch_run pf m σ = .ok (((L.drop (i + 1)).take m).map some, σ') := by
  obtain ⟨σ', h1, _, _⟩ := switch_run_spec pf L m σ i c hl hcur hi
  refine ⟨σ', ?_⟩
  rw [h1]
  congr 2
  apply List.ext_getElem
  · simp only [List.length_map, List.length_range, List.length_take, List.length_drop]
    omega
  · intro n h2 h3
    simp only [List.length_map, List.length_range] at h2
    have e1 : (i + 1 + n) % L.length = i + 1 + n := Nat.mod_eq_of_lt (by omega)
    have e2 : i + 1 + n < L.length := by omega
    simp only [List.getElem_map, List.getElem_range, List.getElem_take, List.getElem_drop, e1]
    rw [List.getElem?_eq_getElem e2]

/-- The tasks that follow position `i` of the ready queue, up to and including
position `j` of a list appended to it. -/
theorem drop_take_append (R A : List Ptr) (i j : Nat) (hi : i < R.length) :
    ((R ++ A).drop (i + 1)).take (R.length - (i + 1) + (j + 1)) =
      R.drop (i + 1) ++ A.take (j + 1) := by
  rw [List.drop_append_of_le_length (by omega), List.take_append_eq_append_take]
  rw [List.take_of_length_le (by simp)]
  congr 2
  simp only [List.length_drop]
  omega

/-- C16, counterexample. Task 1 (address 2) is current and last in the ready
queue [task 0, task 1] when it forks task 2 (address 3). The first switch_task
call after the fork makes the new task current, while task 0, which was in the
ready queue at the fork and is not current, has not been made current since. -/
theorem fork_by_last_task_runs_child_before_head :
    WF task1_running [1, 2] [] [] ∧ task1_running.current = some 2 ∧
      fork 9 3 12288 task1_running = .ok (2, task1_forked) ∧
      WF task1_forked [1, 2, 3] [] [] ∧ task1_forked.current = some 2 ∧
      ∃ σ', switch_run demo_platform 1 task1_forked = .ok ([some 3], σ') ∧
        σ'.current = some 3 ∧ (1 : Ptr) ∈ [1, 2] ∧ some (1 : Ptr) ∉ [some (3 : Ptr)] :=
  ⟨⟨⟨rfl, rfl, rfl, rfl, rfl, rfl⟩, ⟨rfl, rfl⟩, ⟨rfl, rfl⟩, by decide⟩, rfl, rfl,
    ⟨⟨rfl, rfl, rfl, rfl, rfl, rfl, rfl, rfl⟩, ⟨rfl, rfl⟩, ⟨rfl, rfl⟩, by decide⟩, rfl,
    _, rfl, rfl, by decide, by decide⟩

/-- C16, amended. In a well-formed state with current at position i of the
ready queue R: after a fork the following switch_task calls make current the
tasks of R behind position i, in order, and then the new task, which is first
made current by call number |R| - i; after an on_tick that wakes the tasks A,
the switch_task call of on_tick and the following ones make current the tasks
of R behind position i and then the tasks of A, in order. The tasks of R up to
position i are not among those made current before the admitted task. -/
theorem tail_admission_runs_after_successors_of_current (pf : Platform) (σ : Kernel)
    (R W C : List Ptr) (c : Ptr) (d : Nat) (p : Ptr) (k : Nat) (fuel : Nat)
    (h : WF σ R W C) (hcur : σ.current = some c) (hc : c ∈ R)
    (hp : p ∉ R ++ (W ++ C)) (hn : σ.next_pid < INT_MAX) (hf : W.length ≤ fuel) :
    (∃ σ1 σ2, fork d p k σ = .ok (σ.next_pid, σ1) ∧
      switch_run pf (R.length - R.indexOf c) σ1 =
        .ok ((R.drop (R.indexOf c + 1) ++ [p]).map some, σ2)) ∧
    (∀ j x, (W.filter (expired σ))[j]? = some x →
      ∃ σ1 vs σ2, on_tick pf fuel σ = .ok σ1 ∧
        switch_run pf (R.length - (R.indexOf c + 1) + j) σ1 = .ok (vs, σ2) ∧
        σ1.current :: vs =
          (R.drop (R.indexOf c + 1) ++ (W.filter (expired σ)).take (j + 1)).map some) ∧
    (∀ y ∈ R.take (R.indexOf c + 1), y ∉ R.drop (R.indexOf c + 1)) ∧
    p ∉ R.drop (R.indexOf c + 1) := by
  have hiN : R.indexOf c < R.length := List.indexOf_lt_length.2 hc
  have hi : R[R.indexOf c]? = some c := by
    rw [List.getElem?_eq_getElem hiN]
    simp
  have hRnd : R.Nodup := (List.nodup_append.1 h.nodup).1
  refine ⟨?_, ?_, ?_, ?_⟩
  · obtain ⟨σ1, e1, e2, _, e4⟩ := fork_spec d p k σ R W C h hp hn
    have hcur1 : σ1.current = some c := by rw [e4]; exact hcur
    have hi1 : (R ++ [p])[R.indexOf c]? = some c := by
      rw [List.getElem?_append_left hiN]; exact hi
    obtain ⟨σ2, f1⟩ := switch_run_no_wrap pf (R ++ [p]) (R.length - R.indexOf c) σ1
      (R.indexOf c) c e2.ready hcur1 hi1 (by simp; omega)
    refine ⟨σ1, σ2, e1, ?_⟩
    rw [f1]
    have hk : R.length - R.indexOf c = R.length - (R.indexOf c + 1) + (0 + 1) := by omega
    rw [hk, drop_take_append R [p] (R.indexOf c) 0 hiN]
    simp
  · intro j x hx
    have hjA : j < (W.filter (expired σ)).length := by
      by_contra hcn
      rw [List.getElem?_eq_none (by omega)] at hx
      exact absurd hx (by simp)
    have h0 : WF σ R ([] ++ W) C := by simpa using h
    obtain ⟨σl, e1, e2, _, e4⟩ := on_tick_loop_spec C W [] R σ false fuel h0 hf
    have hb : σ.waiting_queue.begin = W.head? := head_eq h.waiting
    have hany : W.any (expired σ) = true := by
      have hmem : x ∈ W.filter (expired σ) := by
        rw [List.getElem?_eq_getElem hjA] at hx
        injection hx with hx
        rw [← hx]
        exact List.getElem_mem _
      rw [List.mem_filter] at hmem
      exact List.any_eq_true.2 ⟨x, hmem.1, hmem.2⟩
    rw [hany] at e1
    simp only [Bool.false_or] at e1
    have hcurl : σl.current = some c := by rw [e4]; exact hcur
    have hil : (R ++ W.filter (expired σ))[R.indexOf c]? = some c := by
      rw [List.getElem?_append_left hiN]; exact hi
    obtain ⟨σ2, f1⟩ := switch_run_no_wrap pf (R ++ W.filter (expired σ))
      (R.length - (R.indexOf c + 1) + (j + 1)) σl (R.indexOf c) c e2.ready hcurl hil
      (by simp; omega)
    rw [drop_take_append R _ (R.indexOf c) j hiN] at f1
    have hk : R.length - (R.indexOf c + 1) + (j + 1) =
        (R.length - (R.indexOf c + 1) + j) + 1 := by omega
    rw [hk] at f1
    simp only [switch_run] at f1
    split at f1
    · exact absurd f1 (by simp)
    · rename_i σ1 hs1
      split at f1
      · exact absurd f1 (by simp)
      · rename_i vs σ3 hs2
        injection f1 with f1
        injection f1 with g1 g2
        refine ⟨σ1, vs, σ3, ?_, hs2, g1⟩
        unfold on_tick
        rw [hb, e1]
        simpa using hs1
  · intro y hy1 hy2
    exact (List.disjoint_take_drop hRnd (le_refl _)) hy1 hy2
  · intro hp2
    exact hp (List.mem_append_left _ (List.mem_of_mem_drop hp2))

/-- Witness of C16: task 0 is current and alone in the ready queue while
task 1 (address 2) sleeps with a due alarm; a fork into address 3 is followed
by the new task, and the on_tick at tick 200 makes the woken task current. -/
theorem tail_admission_witness :
    (∃ σ1 σ2, fork 9 3 12288 task1_due = .ok (task1_due.next_pid, σ1) ∧
      switch_run demo_platform ([1].length - [1].indexOf 1) σ1 =
        .ok ((([1] : List Ptr).drop ([1].indexOf 1 + 1) ++ [3]).map some, σ2)) ∧
    (∀ j x, (([2] : List Ptr).filter (expired task1_due))[j]? = some x →
      ∃ σ1 vs σ2, on_tick demo_platform 1 task1_due = .ok σ1 ∧
        switch_run demo_platform ([1].length - ([1].indexOf 1 + 1) + j) σ1 = .ok (vs, σ2) ∧
        σ1.current :: vs =
          (([1] : List Ptr).drop ([1].indexOf 1 + 1) ++
            (([2] : List Ptr).filter (expired task1_due)).take (j + 1)).map some) ∧
    (∀ y ∈ ([1] : List Ptr).take ([1].indexOf 1 + 1), y ∉ ([1] : List Ptr).drop ([1].indexOf 1 + 1)) ∧
    3 ∉ ([1] : List Ptr).drop ([1].indexOf 1 + 1) :=
  tail_admission_runs_after_successors_of_current demo_platform task1_due [1] [2] [] 1 9 3 12288 1
    ⟨⟨rfl, rfl, rfl, rfl⟩, ⟨rfl, rfl, rfl, rfl⟩, ⟨rfl, rfl⟩, by decide⟩ rfl (by decide)
    (by decide) (by decide) (by decide)

/-! ## strcpy -/

/-- The byte of a string at an index inside it. -/
theorem cstr_at_lt (s : List Nat) (i : Nat) (hi : i < s.length) :
    cstr_at s i = some (s.getD i 0) := by
  rw [List.getD_eq_getElem s 0 hi]
  simp [cstr_at, hi, List.getElem?_eq_getElem hi]

/-- The byte of a string at its length is the terminator. -/
theorem cstr_at_length (s : List Nat) : cstr_at s s.length = some 0 := by
  simp [cstr_at]

/-- The loop of strcpy started at an index inside a string without inner NUL
bytes returns, having copied the bytes from that index up to the last byte of
the string and nothing else: the terminator is not copied. -/
theorem strcpy_loop_spec (s : List Nat) (h0 : ∀ c ∈ s, c ≠ 0) :
    ∀ (fuel i : Nat) (dest : Nat → Nat), i < s.length → s.length - i ≤ fuel →
      ∃ d, strcpy_loop fuel s dest i = .ok d ∧
        ∀ k, d k = if i ≤ k ∧ k < s.length then s.getD k 0 else dest k
  | 0, i, dest, hi, hf => by omega
  | fuel + 1, i, dest, hi, hf => by
    by_cases hlast : i + 1 < s.length
    · have hne : s.getD (i + 1) 0 ≠ 0 := by
        apply h0
        rw [List.getD_eq_getElem s 0 hlast]
        exact List.getElem_mem _
      obtain ⟨d, e1, e2⟩ := strcpy_loop_spec s h0 fuel (i + 1)
        (Function.update dest i (s.getD i 0)) hlast (by omega)
      refine ⟨d, ?_, fun k => ?_⟩
      · simp only [strcpy_loop, cstr_at_lt s i hi, cstr_at_lt s (i + 1) hlast, hne, ne_eq,
          not_false_eq_true, if_true]
        exact e1
      · rw [e2 k]
        by_cases hk : k = i
        · subst hk
          simp [hi]
        · simp only [Function.update_noteq hk]
          by_cases h1 : i + 1 ≤ k ∧ k < s.length
          · have h2 : i ≤ k ∧ k < s.length := ⟨by omega, h1.2⟩
            simp [h1, h2]
          · have h2 : ¬ (i ≤ k ∧ k < s.length) := by
              intro h
              exact h1 ⟨by omega, h.2⟩
            simp [h1, h2]
    · have hlen : i + 1 = s.length := by omega
      refine ⟨Function.update dest i (s.getD i 0), ?_, fun k => ?_⟩
      · simp only [strcpy_loop, cstr_at_lt s i hi, hlen, cstr_at_length, ne_eq,
          not_true_eq_false, if_false]
      · by_cases hk : k = i
        · subst hk
          simp [hi]
        · have h2 : ¬ (i ≤ k ∧ k < s.length) := by
            intro h
            omega
          simp [Function.update_noteq hk, h2]

/-- What strcpy does on a non-empty string without inner NUL bytes: it returns
no value, copies the bytes of the string and leaves the destination byte at
the position of the terminator, like every later byte, as it was. -/
theorem strcpy_spec (s : List Nat) (h0 : ∀ c ∈ s, c ≠ 0) (hne : s ≠ [])
    (fuel dest_ptr : Nat) (dest : Nat → Nat) (hf : s.length ≤ fuel) :
    ∃ d, strcpy fuel dest_ptr s dest = .ok (none, d) ∧
      (∀ k, k < s.length → d k = s.getD k 0) ∧ ∀ k, s.length ≤ k → d k = dest k := by
  have hpos : 0 < s.length := List.length_pos.2 hne
  obtain ⟨d, e1, e2⟩ := strcpy_loop_spec s h0 fuel 0 dest hpos (by omega)
  refine ⟨d, by simp only [strcpy, e1], fun k hk => ?_, fun k hk => ?_⟩
  · rw [e2 k]
    simp [hk]
  · rw [e2 k]
    have : ¬ (0 ≤ k ∧ k < s.length) := by omega
    rw [if_neg this]

/-- C21, evaluation at the failing inputs. For src = "a" and a destination
whose bytes are all 1, strcpy copies the byte 97 to dest[0] and stops: dest[1]
is still 1, so the terminating NUL has not been copied, and the function ends
without returning a value. For the empty string it copies the terminator and
then tests the byte after it, which lies beyond the string. -/
theorem strcpy_omits_terminator_and_return_value :
    (∃ d, strcpy 5 1000 [97] (fun _ => 1) = .ok (none, d) ∧ d 0 = 97 ∧ d 1 = 1 ∧
      cstr_at [97] 1 = some 0 ∧ d 1 ≠ 0) ∧
    cstr_at [] 0 = some 0 ∧ cstr_at [] 1 = none ∧
    strcpy 5 1000 [] (fun _ => 1) = .error Fault.null_deref :=
  ⟨⟨_, rfl, rfl, rfl, rfl, by decide⟩, rfl, rfl, rfl⟩

/-! ## Decimal output -/

/-- The first loop of monitor_write_dec, started with a non-negative
accumulator m, stores the characters of the digits of m, least significant
first, from index i on and returns the index behind them. -/
theorem dec_digits_loop_spec :
    ∀ (fuel m : Nat) (c : Nat → Nat) (i : Nat), (Nat.digits 10 m).length < fuel →
      ∃ c', dec_digits_loop fuel (m : Int) c i = .ok (c', i + (Nat.digits 10 m).length) ∧
        ∀ k, c' k =
          if i ≤ k ∧ k < i + (Nat.digits 10 m).length then 48 + (Nat.digits 10 m).getD (k - i) 0
          else c k
  | 0, m, c, i, hf => by omega
  | fuel + 1, m, c, i, hf => by
    by_cases hm : m = 0
    · subst hm
      refine ⟨c, by simp [dec_digits_loop], fun k => ?_⟩
      have : ¬ (i ≤ k ∧ k < i + (Nat.digits 10 0).length) := by
        simp only [Nat.digits_zero, List.length_nil]
        omega
      rw [if_neg this]
    · have hpos : 0 < m := Nat.pos_of_ne_zero hm
      have hd : Nat.digits 10 m = (m % 10) :: Nat.digits 10 (m / 10) :=
        Nat.digits_def' (by decide) hpos
      have hf' : (Nat.digits 10 (m / 10)).length < fuel := by
        rw [hd, List.length_cons] at hf
        omega
      obtain ⟨c', e1, e2⟩ := dec_digits_loop_spec fuel (m / 10)
        (Function.update c i (48 + m % 10)) (i + 1) hf'
      have hacc : ((m : Int) > 0) := by exact_mod_cast hpos
      have hdiv : (m : Int) / 10 = ((m / 10 : Nat) : Int) := by norm_cast
      have hmod : ((m : Int) % 10).toNat = m % 10 := by
        have : (m : Int) % 10 = ((m % 10 : Nat) : Int) := by norm_cast
        rw [this, Int.toNat_natCast]
      refine ⟨c', ?_, fun k => ?_⟩
      · simp only [dec_digits_loop, hacc, if_true, hdiv, hmod]
        rw [e1, hd, List.length_cons]
        congr 2
        omega
      · rw [e2 k, hd, List.length_cons]
        by_cases hk : k = i
        · subst hk
          simp
        · simp only [Function.update_noteq hk]
          by_cases h1 : i + 1 ≤ k ∧ k < i + 1 + (Nat.digits 10 (m / 10)).length
          · have h2 : i ≤ k ∧ k < i + ((Nat.digits 10 (m / 10)).length + 1) := by omega
            have h3 : k - i = (k - (i + 1)) + 1 := by omega
            simp only [h1, h2, and_self, if_true, h3, List.getD_cons_succ]
          · have h2 : ¬ (i ≤ k ∧ k < i + ((Nat.digits 10 (m / 10)).length + 1)) := by
              intro h
              apply h1
              constructor <;> omega
            simp only [h1, h2, if_false]

/-- The second loop of monitor_write_dec, started at index m - 1, copies the
first m bytes of c into c2 in reverse order. -/
theorem dec_reverse_loop_spec (c : Nat → Nat) :
    ∀ (fuel m : Nat) (c2 : Nat → Nat) (j : Nat), m < fuel →
      ∃ c3, dec_reverse_loop fuel c c2 ((m : Int) - 1) j = .ok c3 ∧
        ∀ k, c3 k = if k < m then c (j + (m - 1 - k)) else c2 k
  | 0, m, c2, j, hf => by omega
  | fuel + 1, m, c2, j, hf => by
    cases m with
    | zero =>
      refine ⟨c2, by simp [dec_reverse_loop], fun k => by simp⟩
    | succ m' =>
      obtain ⟨c3, e1, e2⟩ := dec_reverse_loop_spec c fuel m'
        (Function.update c2 m' (c j)) (j + 1) (by omega)
      have hi : ((m' + 1 : Nat) : Int) - 1 = (m' : Int) := by push_cast; omega
      have hge : (m' : Int) ≥ 0 := Int.natCast_nonneg _
      refine ⟨c3, ?_, fun k => ?_⟩
      · rw [hi]
        simp only [dec_reverse_loop, hge, if_true, Int.toNat_natCast]
        exact e1
      · rw [e2 k]
        by_cases h1 : k < m'
        · have h2 : k < m' + 1 := by omega
          simp only [h1, h2, if_true]
          congr 1
          omega
        · by_cases h3 : k = m'
          · subst h3
            simp
          · have h2 : ¬ (k < m' + 1) := by omega
            simp only [h1, h2, if_false, Function.update_noteq h3]

/-- Function monitor_write puts the bytes of the buffer from index i up to the
first NUL byte, at index m. -/
theorem monitor_write_spec (c : Nat → Nat) (m : Nat) (hz : c m = 0) :
    ∀ (fuel i : Nat) (out : List Nat), i ≤ m → (∀ k, i ≤ k → k < m → c k ≠ 0) →
      m - i < fuel →
      monitor_write fuel c i out = .ok (out ++ (List.range' i (m - i)).map c)
  | 0, i, out, _, _, hf => by omega
  | fuel + 1, i, out, him, hnz, hf => by
    by_cases hi : i = m
    · subst hi
      simp [monitor_write, hz]
    · have hlt : i < m := lt_of_le_of_ne him hi
      have hci : c i ≠ 0 := hnz i (le_refl _) hlt
      have hrec := monitor_write_spec c m hz fuel (i + 1) (out ++ [c i]) (by omega)
        (fun k h1 h2 => hnz k (by omega) h2) (by omega)
      simp only [monitor_write, hci, ne_eq, not_false_eq_true, if_true]
      rw [hrec]
      have hk : m - i = (m - (i + 1)) + 1 := by omega
      rw [hk, List.range'_succ, List.map_cons, List.append_assoc, List.singleton_append]

/-- What monitor_write_dec prints for an argument below 2^31: the decimal
numeral. -/
theorem monitor_write_dec_low (fuel : Nat) (raw raw2 : Nat → Nat) (n : Nat) (out : List Nat)
    (hn : n < 2147483648) (hf : (Nat.digits 10 n).length < fuel) :
    monitor_write_dec fuel raw raw2 n out = .ok (out ++ decimal_chars n) := by
  by_cases h0 : n = 0
  · subst h0
    simp [monitor_write_dec, decimal_chars]
  · have hneg : ¬ ((n : Int) < 0) := not_lt.2 (Int.natCast_nonneg _)
    have hs : s32 n = (n : Int) := by
      have : u32 n = n := Nat.mod_eq_of_lt (by omega)
      simp only [s32, this, hn, if_true]
    obtain ⟨c', e1, e2⟩ := dec_digits_loop_spec fuel n raw 0 hf
    simp only [Nat.zero_add] at e1 e2
    obtain ⟨c3, f1, f2⟩ := dec_reverse_loop_spec
      (Function.update c' (Nat.digits 10 n).length 0) fuel (Nat.digits 10 n).length
      (Function.update raw2 (Nat.digits 10 n).length 0) 0 (by omega)
    have hz : c3 (Nat.digits 10 n).length = 0 := by
      rw [f2, if_neg (lt_irrefl _), Function.update_same]
    have hval : ∀ k, k < (Nat.digits 10 n).length →
        c3 k = 48 + (Nat.digits 10 n).getD ((Nat.digits 10 n).length - 1 - k) 0 := by
      intro k hk
      have hne : (Nat.digits 10 n).length - 1 - k ≠ (Nat.digits 10 n).length := by omega
      have h3 : 0 ≤ (Nat.digits 10 n).length - 1 - k ∧
          (Nat.digits 10 n).length - 1 - k < (Nat.digits 10 n).length := by omega
      rw [f2, if_pos hk, Nat.zero_add, Function.update_noteq hne, e2, if_pos h3, Nat.sub_zero]
    have hw := monitor_write_spec c3 (Nat.digits 10 n).length hz fuel 0 out (Nat.zero_le _)
      (fun k _ hk => by rw [hval k hk]; omega) (by omega)
    simp only [monitor_write_dec, h0, hneg, if_false, hs, e1, f1]
    rw [hw]
    congr 2
    simp only [decimal_chars, h0, if_false, Nat.sub_zero]
    apply List.ext_getElem
    · simp
    · intro k h1 h2
      simp only [List.length_map, List.length_range'] at h1
      simp only [List.getElem_map, List.getElem_range', List.getElem_reverse, Nat.zero_add,
        Nat.one_mul]
      rw [hval k h1, List.getD_eq_getElem _ 0 (by omega)]

/-- What monitor_write_dec prints for an argument from 2^31 on: nothing. The
accumulator of type s32int is negative and both loops are skipped. -/
theorem monitor_write_dec_high (fuel : Nat) (raw raw2 : Nat → Nat) (n : Nat) (out : List Nat)
    (h1 : 2147483648 ≤ n) (h2 : n < 4294967296) :
    monitor_write_dec (fuel + 1) raw raw2 n out = .ok out := by
  have h0 : n ≠ 0 := by omega
  have hneg : ¬ ((n : Int) < 0) := not_lt.2 (Int.natCast_nonneg _)
  have hu : u32 n = n := Nat.mod_eq_of_lt h2
  have hlt : ¬ (n < 2147483648) := by omega
  have hs : ¬ (s32 n > 0) := by
    simp only [s32, hu, hlt, if_false]
    omega
  simp only [monitor_write_dec, h0, hneg, if_false, dec_digits_loop, hs]
  simp [dec_reverse_loop, monitor_write]

/-- C27, evaluation at the failing input. For n = 2147483648 = 2^31, with the
buffers holding arbitrary bytes, monitor_write_dec emits no character at all,
while the decimal numeral of n has the ten characters 2147483648. For
n = 2147483647, the largest argument whose conversion to s32int is positive,
it emits the numeral. -/
theorem monitor_write_dec_prints_nothing_from_2_pow_31 :
    monitor_write_dec 32 (fun _ => 7) (fun _ => 9) 2147483648 [] = .ok [] ∧
      decimal_chars 2147483648 = [50, 49, 52, 55, 52, 56, 51, 54, 52, 56] ∧
      s32 2147483648 = -2147483648 ∧
      monitor_write_dec 32 (fun _ => 7) (fun _ => 9) 4294967295 [] = .ok [] ∧
      monitor_write_dec 32 (fun _ => 7) (fun _ => 9) 2147483647 [] =
        .ok [50, 49, 52, 55, 52, 56, 51, 54, 52, 55] := by
  refine ⟨rfl, ?_, by decide, rfl, rfl⟩
  simp [decimal_chars]

/-! ## ELF symbols -/

/-- What contains_p computes: it returns true exactly when addr is at or above
value and below the 32-bit sum of value and size; it then stores the 32-bit
difference value - addr, which is 0 when addr = value and 2^32 minus the
distance of addr from value otherwise; when it returns false the cell is
unchanged. -/
theorem contains_p_spec (s : Symbol) (addr offset : Nat) (ha : addr < 4294967296) :
    ((s.contains_p addr offset).1 = true ↔ s.value ≤ addr ∧ addr < u32 (s.value + s.size)) ∧
    ((s.contains_p addr offset).1 = true →
      (s.contains_p addr offset).2 =
        if addr = s.value then 0 else 4294967296 - (addr - s.value)) ∧
    ((s.contains_p addr offset).1 = false → (s.contains_p addr offset).2 = offset) := by
  unfold Symbol.contains_p
  split
  · rename_i h
    refine ⟨by simpa using h, fun _ => ?_, by simp⟩
    simp only
    split
    · rename_i he
      subst he
      simp
    · rename_i hne
      have h1 : s.value < addr := lt_of_le_of_ne h.1 (fun e => hne e.symm)
      omega
  · rename_i h
    refine ⟨by simpa using h, by simp, fun _ => rfl⟩

/-- C29, evaluation at the failing input. For a symbol with value 100 and size
10 and the address 105, contains_p returns true and stores 4294967291, the
32-bit value of 100 - 105, in the offset cell, not the distance 5 of the
address from the start of the symbol; the stored value is not below size. With
addr = value it stores 0, and outside the symbol it returns false and leaves
the cell as it was. -/
theorem contains_p_stores_negated_offset :
    Symbol.contains_p ⟨0, 100, 10, 0, 0, 0⟩ 105 77 = (true, 4294967291) ∧
      (105 : Nat) - 100 = 5 ∧ ¬ (4294967291 < 10) ∧
      Symbol.contains_p ⟨0, 100, 10, 0, 0, 0⟩ 100 77 = (true, 0) ∧
      Symbol.contains_p ⟨0, 100, 10, 0, 0, 0⟩ 110 77 = (false, 77) :=
  ⟨by decide, by decide, by decide, by decide, by decide⟩

/-! ## File nodes of tmpfs -/

/-- The log of memcpy: the bytes are copied in ascending order, byte k from
address sp + k to address dp + k. -/
theorem memcpy_log :
    ∀ (len dp sp : Nat) (mem : Nat → Nat) (log : List (Nat × Nat)),
      (memcpy dp sp len mem log).2 =
        log ++ (List.range len).map (fun k => (dp + k, sp + k))
  | 0, dp, sp, mem, log => by simp [memcpy]
  | len + 1, dp, sp, mem, log => by
    rw [memcpy, memcpy_log len, List.range_succ_eq_map, List.map_cons, List.map_map,
      List.append_assoc, List.singleton_append]
    congr 2
    apply List.map_congr_left
    intro k _
    simp only [Function.comp, Nat.succ_eq_add_one, Prod.mk.injEq]
    omega

/-- When the sum of offset and size does not exceed 32 bits and the assertion
of FileNode::read passes, the call returns size and every chunk address read is
inside the chunk. -/
theorem read_in_bounds_without_wrap (f : FileNode) (offset size buffer : Nat)
    (mem : Nat → Nat) (hw : offset + size < 4294967296)
    (hg : u32 (offset + size) < f.size_) :
    ∃ mem' log, f.read offset size buffer mem = some (size, mem', log) ∧
      ∀ a ∈ log, f.chunk_ ≤ a.2 ∧ a.2 < f.chunk_ + f.size_ := by
  have hu : u32 (offset + size) = offset + size := Nat.mod_eq_of_lt hw
  refine ⟨(memcpy buffer (f.chunk_ + offset) size mem []).1,
    (memcpy buffer (f.chunk_ + offset) size mem []).2,
    by simp only [FileNode.read, hg, if_true], ?_⟩
  intro a ha
  rw [memcpy_log, List.nil_append, List.mem_map] at ha
  obtain ⟨k, hk, rfl⟩ := ha
  rw [List.mem_range] at hk
  rw [hu] at hg
  simp only
  omega

/-- C28, evaluation at the failing input. A file node has a chunk of 4096
bytes at address 65536. For offset = 4294967280 and size = 32 the 32-bit sum is
16, so the assertion of read and of write passes; the call returns 32 and the
first byte it touches is at index 4294967280 of the chunk, which is not below
size_: the address read (by write: written) lies outside the chunk. -/
theorem file_node_guard_passes_on_wrapped_sum :
    u32 (4294967280 + 32) = 16 ∧ u32 (4294967280 + 32) < (⟨4096, 65536⟩ : FileNode).size_ ∧
      ¬ (4294967280 < (⟨4096, 65536⟩ : FileNode).size_) ∧
      (∃ mem' log, FileNode.read ⟨4096, 65536⟩ 4294967280 32 1000 (fun _ => 0)
          = some (32, mem', log) ∧
        log.head? = some (1000, 65536 + 4294967280) ∧
        ¬ (65536 + 4294967280 < 65536 + 4096)) ∧
      (∃ mem' log, FileNode.write ⟨4096, 65536⟩ 4294967280 32 1000 (fun _ => 0)
          = some (32, mem', log) ∧
        log.head? = some (65536 + 4294967280, 1000) ∧
        ¬ (65536 + 4294967280 < 65536 + 4096)) :=
  ⟨by decide, by decide, by decide, ⟨_, _, rfl, rfl, by decide⟩, ⟨_, _, rfl, rfl, by decide⟩⟩

/-! ## The tick handler and its switch -/

/-- With no expired alarm among the tasks still to come, the scan of on_tick
returns the state it was given. -/
theorem on_tick_loop_idle (C : List Ptr) :
    ∀ (S keep R : List Ptr) (σ : Kernel) (sched : Bool) (fuel : Nat),
      WF σ R (keep ++ S) C → S.length ≤ fuel → (∀ x ∈ S, expired σ x = false) →
      on_tick_loop fuel S.head? σ sched = .ok (σ, sched)
  | [], keep, R, σ, sched, fuel, _, _, _ => by
    simp [on_tick_loop_none]
  | s :: S', keep, R, σ, sched, fuel, h, hf, he => by
    obtain ⟨f, rfl⟩ : ∃ f, fuel = f + 1 := ⟨fuel - 1, by simp at hf; omega⟩
    have hf' : S'.length ≤ f := by simpa using hf
    obtain ⟨m, q, _, hs⟩ := (Seg_append keep (s :: S') _ _ _ _).1 h.waiting
    have hnext : (σ.mem s).next = S'.head? := by
      have h3 := hs.2.2
      rcases S' with _ | ⟨y, ys⟩
      · exact h3.1
      · exact h3.1
    have hes : (σ.mem s).alarm_expired σ.ticks = false := he s (List.mem_cons_self _ _)
    have h' : WF σ R ((keep ++ [s]) ++ S') C := by simpa using h
    have ih := on_tick_loop_idle C S' (keep ++ [s]) R σ sched f h' hf'
      (fun x hx => he x (List.mem_cons_of_mem _ hx))
    simp only [List.head?_cons, on_tick_loop, hes, hnext]
    simpa using ih

/-- C22. On a well-formed state, with one iteration per waiting task allowed:
the scan of on_tick ends with the flag schedule set exactly when it has moved
at least one task, it leaves current and the log as they were, and on_tick is
one switch_task call on the state after the scan when the flag is set and no
call otherwise. When no waiting task has an expired alarm, on_tick returns the
state it was called in. -/
theorem on_tick_switches_iff_task_moved (pf : Platform) (σ : Kernel) (R W C : List Ptr)
    (fuel : Nat) (h : WF σ R W C) (hf : W.length ≤ fuel) :
    ∃ σ1, on_tick_loop fuel σ.waiting_queue.begin σ false = .ok (σ1, W.any (expired σ)) ∧
      WF σ1 (R ++ W.filter (expired σ)) (W.filter (fun x => !expired σ x)) C ∧
      σ1.current = σ.current ∧ σ1.trace = σ.trace ∧
      (W.any (expired σ) = true ↔ W.filter (expired σ) ≠ []) ∧
      on_tick pf fuel σ =
        (if W.any (expired σ) = true then switch_task pf Marker.fresh σ1 else .ok σ1) ∧
      (W.filter (expired σ) = [] → σ1 = σ ∧ on_tick pf fuel σ = .ok σ) := by
  have h0 : WF σ R ([] ++ W) C := by simpa using h
  obtain ⟨σ1, e1, e2, _, e4⟩ := on_tick_loop_spec C W [] R σ false fuel h0 hf
  have hb : σ.waiting_queue.begin = W.head? := head_eq h.waiting
  simp only [Bool.false_or, List.nil_append] at e1 e2
  have hiff : W.any (expired σ) = true ↔ W.filter (expired σ) ≠ [] := by
    rw [List.any_eq_true, Ne, List.filter_eq_nil_iff]
    constructor
    · rintro ⟨x, hx, hex⟩ hall
      exact hall x hx hex
    · intro hn
      by_contra hc
      apply hn
      intro x hx hex
      exact hc ⟨x, hx, hex⟩
  have hon : on_tick pf fuel σ =
      (if W.any (expired σ) = true then switch_task pf Marker.fresh σ1 else .ok σ1) := by
    unfold on_tick
    rw [hb, e1]
  refine ⟨σ1, by rw [hb, e1], e2, by rw [e4], by rw [e4], hiff, hon, ?_⟩
  intro hnil
  have hall : ∀ x ∈ W, expired σ x = false := by
    intro x hx
    have := List.filter_eq_nil_iff.1 hnil x hx
    simpa using this
  have hidle := on_tick_loop_idle C W [] R σ false fuel h0 hf hall
  rw [e1] at hidle
  injection hidle with hidle
  injection hidle with k1 k2
  have hany : ¬ (W.any (expired σ) = true) := by
    rw [hiff]
    exact fun hc => hc hnil
  refine ⟨k1, ?_⟩
  rw [hon, if_neg hany, k1]

/-- Witness of C22: task 1 sleeps with alarm 200; at tick 150 nothing is moved
and on_tick changes nothing. -/
theorem on_tick_switches_iff_task_moved_witness :
    ∃ σ1, on_tick_loop 1 ({ task1_asleep with ticks := 150 } : Kernel).waiting_queue.begin
          { task1_asleep with ticks := 150 } false
        = .ok (σ1, ([2] : List Ptr).any (expired { task1_asleep with ticks := 150 })) ∧
      WF σ1 ([1] ++ ([2] : List Ptr).filter (expired { task1_asleep with ticks := 150 }))
        (([2] : List Ptr).filter (fun x => !expired { task1_asleep with ticks := 150 } x)) [] ∧
      σ1.current = ({ task1_asleep with ticks := 150 } : Kernel).current ∧
      σ1.trace = ({ task1_asleep with ticks := 150 } : Kernel).trace ∧
      (([2] : List Ptr).any (expired { task1_asleep with ticks := 150 }) = true ↔
        ([2] : List Ptr).filter (expired { task1_asleep with ticks := 150 }) ≠ []) ∧
      on_tick demo_platform 1 { task1_asleep with ticks := 150 } =
        (if ([2] : List Ptr).any (expired { task1_asleep with ticks := 150 }) = true then
          switch_task demo_platform Marker.fresh σ1 else .ok σ1) ∧
      (([2] : List Ptr).filter (expired { task1_asleep with ticks := 150 }) = [] →
        σ1 = { task1_asleep with ticks := 150 } ∧
        on_tick demo_platform 1 { task1_asleep with ticks := 150 } =
          .ok { task1_asleep with ticks := 150 }) :=
  on_tick_switches_iff_task_moved demo_platform { task1_asleep with ticks := 150 } [1] [2] [] 1
    ⟨⟨rfl, rfl, rfl, rfl⟩, ⟨rfl, rfl, rfl, rfl⟩, ⟨rfl, rfl⟩, by decide⟩ (by decide)

/-! ## The order of effects in switch_task -/

/-- C26. When switch_task switches from the task `cur` to a different task
`n`: it returns; current is `n`; the active page directory is the directory of
`n`; the kernel stack pointer is kernel_stack + KERNEL_STACK_SIZE of `n` in
32-bit arithmetic; and after the capture of the registers of `cur` the log
shows set_kernel_stack with that pointer and then, last, restore_registers
with the saved registers of `n` and the directory of `n`. -/
theorem switch_task_order_of_effects (pf : Platform) (σ : Kernel) (cur n : Ptr)
    (hc : σ.current = some cur) (hp : pick_next (save_registers cur σ) cur = some n)
    (hn : n ≠ cur) :
    ∃ σ', switch_task pf Marker.fresh σ = .ok σ' ∧ σ'.current = some n ∧
      σ'.current_directory = (σ.mem n).directory ∧
      σ'.kernel_stack = u32 ((σ.mem n).kernel_stack + pf.KERNEL_STACK_SIZE) ∧
      σ'.cpu_regs = (σ.mem n).regs ∧
      σ'.trace = σ.trace ++
        [Event.save_registers cur,
         Event.set_kernel_stack (u32 ((σ.mem n).kernel_stack + pf.KERNEL_STACK_SIZE)),
         Event.restore_registers n (σ.mem n).regs (σ.mem n).directory] := by
  have hne : ¬ (some n = some cur) := fun h => hn (Option.some.inj h)
  have hm : (save_registers cur σ).mem n = σ.mem n := by
    simp [save_registers, Function.update_noteq hn]
  simp only [switch_task, hc, hp, hne, if_false]
  refine ⟨_, rfl, rfl, ?_, ?_, ?_, ?_⟩
  · simp only [hm]
  · simp only [hm]
  · simp only [hm]
  · simp only [hm]
    simp [save_registers]

/-- Witness of C26: task 0 (address 1) is current and task 1 (address 2)
follows it in the ready queue. -/
theorem switch_task_order_of_effects_witness :
    ∃ σ', switch_task demo_platform Marker.fresh two_tasks = .ok σ' ∧ σ'.current = some 2 ∧
      σ'.current_directory = (two_tasks.mem 2).directory ∧
      σ'.kernel_stack = u32 ((two_tasks.mem 2).kernel_stack + demo_platform.KERNEL_STACK_SIZE) ∧
      σ'.cpu_regs = (two_tasks.mem 2).regs ∧
      σ'.trace = two_tasks.trace ++
        [Event.save_registers 1,
         Event.set_kernel_stack
           (u32 ((two_tasks.mem 2).kernel_stack + demo_platform.KERNEL_STACK_SIZE)),
         Event.restore_registers 2 (two_tasks.mem 2).regs (two_tasks.mem 2).directory] :=
  switch_task_order_of_effects demo_platform two_tasks 1 2 rfl rfl (by decide)

/-! ## The interrupt guards of the scheduler -/

/-- A restore changes the interrupt flag at most. -/
theorem restore_interrupts_keeps (v : Int) (σ : Kernel) :
    (restore_interrupts v σ).mem = σ.mem ∧ (restore_interrupts v σ).trace = σ.trace ∧
      (restore_interrupts v σ).current = σ.current := by
  unfold restore_interrupts
  split <;> exact ⟨rfl, rfl, rfl⟩

/-- The scan of on_tick logs nothing, keeps current and changes no alarm. -/
theorem on_tick_loop_keeps :
    ∀ (fuel : Nat) (i : Option Ptr) (σ : Kernel) (s : Bool) (σ' : Kernel) (s' : Bool),
      on_tick_loop fuel i σ s = .ok (σ', s') →
      σ'.trace = σ.trace ∧ σ'.current = σ.current ∧
        ∀ x, (σ'.mem x).alarm_at = (σ.mem x).alarm_at
  | fuel, none, σ, s, σ', s', h => by
    rw [on_tick_loop_none] at h
    injection h with h
    injection h with h1 h2
    rw [← h1]
    exact ⟨rfl, rfl, fun _ => rfl⟩
  | 0, some t, σ, s, σ', s', h => by
    simp [on_tick_loop] at h
  | fuel + 1, some t, σ, s, σ', s', h => by
    simp only [on_tick_loop] at h
    split at h
    · obtain ⟨k1, k2, k3⟩ := on_tick_loop_keeps fuel _ _ _ σ' s' h
      refine ⟨k1.trans rfl, k2.trans rfl, fun x => ?_⟩
      rw [k3 x]
      have hd := fields_of_data (make_ready_data t (waiting_unlink t σ) x)
      rw [hd.2.2.1]
      have hu : ((waiting_unlink t σ).mem x).data = (σ.mem x).data := by
        simp [waiting_unlink, unlink_data]
      have hu2 := (data_fields hu).2.2.1
      split
      · exact hu2
      · exact hu2
    · exact on_tick_loop_keeps fuel _ _ _ σ' s' h

/-- The critical section of sleep, on any state: the caller gets the alarm and
the state Waiting, no other content of any task changes, and nothing is
logged. -/
theorem sleep_locked_data {pf : Platform} {secs : Int} {σ σ' : Kernel} {c : Ptr}
    (h : sleep_locked pf secs σ = .ok σ') (hc : σ.current = some c) :
    σ'.trace = σ.trace ∧
      ∀ x, (σ'.mem x).data =
        if x = c then
          { (σ.mem x).data with
            alarm_at := u32 (σ.ticks + pf.secs_to_ticks secs), state := Task.State.eWaiting }
        else (σ.mem x).data := by
  simp only [sleep_locked, disable_interrupts_snd, hc] at h
  injection h with h
  rw [← h]
  refine ⟨(restore_interrupts_keeps _ _).2.1.trans rfl, fun x => ?_⟩
  rw [(restore_interrupts_keeps _ _).1, make_wait_data]
  simp only [ready_unlink, unlink_data, sleep_til]
  by_cases hx : x = c
  · subst hx; simp [Task.data]
  · simp [hx, Function.update_noteq hx]

/-- The critical section of exit, on any state: the caller gets the exit code
and the state Dead, no other content of any task changes, and nothing is
logged. -/
theorem exit_locked_data {code : Int} {σ σ' : Kernel} {c : Ptr}
    (h : exit_locked code σ = .ok σ') (hc : σ.current = some c) :
    σ'.trace = σ.trace ∧
      ∀ x, (σ'.mem x).data =
        if x = c then { (σ.mem x).data with exit_code := code, state := Task.State.eDead }
        else (σ.mem x).data := by
  simp only [exit_locked, disable_interrupts_snd, hc] at h
  injection h with h
  rw [← h]
  refine ⟨(restore_interrupts_keeps _ _).2.1.trans rfl, fun x => ?_⟩
  rw [(restore_interrupts_keeps _ _).1]
  simp only [cleanup_prepend, prepend_data]
  by_cases hx : x = c
  · subst hx
    have := unlink_data σ.ready_queue σ.mem x x
    simp only [Task.data] at this
    simp [Task.data, ready_unlink]
    simp_all
  · simp [hx, Function.update_noteq hx, ready_unlink, unlink_data]

/-- A fork that returns, on any state: the new task gets its id, alarm 0, exit
code 0, directory, stack and register snapshot; no other content of any task
changes, and only the capture of the registers is logged. -/
theorem fork_frame {d : Nat} {p : Ptr} {k : Nat} {σ σ' : Kernel} {r : Int}
    (h : fork d p k σ = .ok (r, σ')) :
    σ'.trace = σ.trace ++ [Event.save_registers p] ∧
      ∀ x, (σ'.mem x).data =
        if x = p then
          { (σ.mem x).data with
            id := σ.next_pid, alarm_at := 0, exit_code := 0, directory := d,
            kernel_stack := k, regs := σ.cpu_regs }
        else (σ.mem x).data := by
  have hn : σ.next_pid < INT_MAX := by
    by_contra hcn
    have hle : INT_MAX ≤ σ.next_pid := not_lt.1 hcn
    simp [fork, fork_create, disable_interrupts_snd, hle] at h
  rw [fork_eq d p k σ hn] at h
  injection h with h
  injection h with h1 h2
  rw [← h2]
  exact ⟨rfl, fork_data d p k σ⟩

/-- Only cleanup deallocates: an operation other than cleanup that returns, on
any state, adds no free_directory and no kfree to the log. -/
theorem step_releases {pf : Platform} {op : Op} {σ σ' : Kernel} {ids : List Int}
    (h : step pf op σ = .ok (σ', ids)) (hop : ∀ fuel, op ≠ Op.cleanup fuel) :
    σ'.trace.filter Event.is_release = σ.trace.filter Event.is_release := by
  cases op with
  | fork d p k =>
    simp only [step] at h
    split at h
    · exact absurd h (by simp)
    · rename_i r σ1 hfk
      injection h with h
      injection h with h1 h2
      rw [← h1, (fork_frame hfk).1]
      simp [List.filter_append, Event.is_release]
  | sleep secs =>
    simp only [step] at h
    split at h
    · exact absurd h (by simp)
    · rename_i σ1 hs
      injection h with h
      injection h with h1 h2
      unfold sleep at hs
      split at hs
      · exact absurd hs (by simp)
      · rename_i σl hl
        rw [← h1, switch_task_releases hs]
        cases hcur : σ.current with
        | none => simp [sleep_locked, disable_interrupts_snd, hcur] at hl
        | some c => rw [(sleep_locked_data hl hcur).1]
  | on_tick fuel =>
    simp only [step] at h
    split at h
    · exact absurd h (by simp)
    · rename_i σ1 hs
      injection h with h
      injection h with h1 h2
      unfold on_tick at hs
      split at hs
      · exact absurd hs (by simp)
      · rename_i σl sched hl
        have hk := (on_tick_loop_keeps _ _ _ _ _ _ hl).1
        split at hs
        · rw [← h1, switch_task_releases hs, hk]
        · injection hs with hs
          rw [← h1, ← hs, hk]
  | timer_callback fuel =>
    simp only [step] at h
    split at h
    · exact absurd h (by simp)
    · rename_i σ1 hs
      injection h with h
      injection h with h1 h2
      unfold timer_callback on_tick at hs
      split at hs
      · exact absurd hs (by simp)
      · rename_i σl sched hl
        have hk := (on_tick_loop_keeps _ _ _ _ _ _ hl).1
        split at hs
        · rw [← h1, switch_task_releases hs, hk]
        · injection hs with hs
          rw [← h1, ← hs, hk]
  | switch_task val =>
    simp only [step] at h
    split at h
    · exact absurd h (by simp)
    · rename_i σ1 hs
      injection h with h
      injection h with h1 h2
      rw [← h1, switch_task_releases hs]
  | exit code =>
    simp only [step] at h
    split at h
    · exact absurd h (by simp)
    · rename_i σ1 hs
      injection h with h
      injection h with h1 h2
      unfold exit at hs
      split at hs
      · exact absurd hs (by simp)
      · rename_i σl hl
        rw [← h1, switch_task_releases hs]
        cases hcur : σ.current with
        | none => simp [exit_locked, disable_interrupts_snd, hcur] at hl
        | some c => rw [(exit_locked_data hl hcur).1]
  | cleanup fuel => exact absurd rfl (hop fuel)

/-! ## Alarms -/

/-- The heap and the first pointer determine the tasks of a segment that ends
with a null link. -/
theorem Seg_unique {mem : Heap} :
    ∀ (L L' : List Ptr) (pv p last last' : Option Ptr),
      Seg mem pv p L last none → Seg mem pv p L' last' none → L = L'
  | [], [], _, _, _, _, _, _ => rfl
  | [], y :: ys, _, _, _, _, h, h' => by
    have h1 := h.1
    have h2 := h'.1
    rw [h1] at h2
    exact absurd h2 (by simp)
  | x :: xs, [], _, _, _, _, h, h' => by
    have h1 := h.1
    have h2 := h'.1
    rw [h2] at h1
    exact absurd h1 (by simp)
  | x :: xs, y :: ys, pv, p, last, last', h, h' => by
    have h1 := h.1
    have h2 := h'.1
    rw [h1] at h2
    have hxy : x = y := Option.some.inj h2
    subst hxy
    rw [Seg_unique xs ys _ _ _ _ h.2.2 h'.2.2]

/-- A state has one description by lists of tasks at most. -/
theorem WF_unique {σ : Kernel} {R W C R' W' C' : List Ptr} (h : WF σ R W C)
    (h' : WF σ R' W' C') : R = R' ∧ W = W' ∧ C = C' :=
  ⟨Seg_unique _ _ _ _ _ _ h.ready h'.ready, Seg_unique _ _ _ _ _ _ h.waiting h'.waiting,
    Seg_unique _ _ _ _ _ _ h.cleanup h'.cleanup⟩

/-- The log entries of a reap are deallocations, all of them. -/
theorem filter_release_events (mem : Heap) :
    ∀ L : List Ptr, (release_events mem L).filter Event.is_release = release_events mem L
  | [] => rfl
  | t :: ts => by
    simp only [release_events, List.filter_cons, Event.is_release, if_true]
    rw [filter_release_events mem ts]

/-- One operation of a live caller on a well-formed state that returns: the
state is well formed again; the cleanup queue has gained the caller when the
operation is exit, is empty when it is cleanup and is the same otherwise; the
log has gained the deallocations of the tasks of the cleanup queue when the
operation is cleanup and no deallocation otherwise. -/
theorem step_live {pf : Platform} {op : Op} {σ σ' : Kernel} {ids : List Int}
    {R W C : List Ptr} (h : WF σ R W C) (hl : live_call op σ)
    (hs : step pf op σ = .ok (σ', ids)) :
    ∃ R' W', WF σ' R' W' (pending_after op σ C) ∧
      σ'.trace.filter Event.is_release =
        σ.trace.filter Event.is_release ++ released_by op σ C := by
  cases op with
  | fork d p k =>
    obtain ⟨R2, W2, C2, h2, hp⟩ := hl
    obtain ⟨rfl, rfl, rfl⟩ := WF_unique h h2
    have hrel := step_releases hs (fun fuel => by simp)
    simp only [step] at hs
    split at hs
    · exact absurd hs (by simp)
    · rename_i r σ1 hfk
      injection hs with hs
      injection hs with h1 _
      subst h1
      have hn : σ.next_pid < INT_MAX := by
        by_contra hcn
        have hle : INT_MAX ≤ σ.next_pid := not_lt.1 hcn
        simp [fork, fork_create, disable_interrupts_snd, hle] at hfk
      obtain ⟨σ2, e1, e2, _⟩ := fork_spec d p k σ R W C h hp hn
      rw [hfk] at e1
      injection e1 with e1
      injection e1 with _ e1
      subst e1
      exact ⟨_, _, e2, by simpa [released_by] using hrel⟩
  | sleep secs =>
    obtain ⟨R2, W2, C2, c, h2, hcur, hc⟩ := hl
    obtain ⟨rfl, rfl, rfl⟩ := WF_unique h h2
    have hrel := step_releases hs (fun fuel => by simp)
    simp only [step] at hs
    split at hs
    · exact absurd hs (by simp)
    · rename_i σ1 hsl
      injection hs with hs
      injection hs with h1 _
      subst h1
      exact ⟨_, _, (sleep_spec pf σ _ R W C c secs h hcur hc hsl).1,
        by simpa [released_by] using hrel⟩
  | on_tick fuel =>
    obtain ⟨R2, W2, C2, h2, hf⟩ := hl
    obtain ⟨rfl, rfl, rfl⟩ := WF_unique h h2
    have hrel := step_releases hs (fun fuel => by simp)
    simp only [step] at hs
    split at hs
    · exact absurd hs (by simp)
    · rename_i σ1 hot
      injection hs with hs
      injection hs with h1 _
      subst h1
      obtain ⟨σ2, e1, e2, _⟩ := on_tick_spec pf σ R W C fuel h hf
      rw [hot] at e1
      injection e1 with e1
      subst e1
      exact ⟨_, _, e2, by simpa [released_by] using hrel⟩
  | timer_callback fuel =>
    obtain ⟨R2, W2, C2, h2, hf⟩ := hl
    obtain ⟨rfl, rfl, rfl⟩ := WF_unique h h2
    have hrel := step_releases hs (fun fuel => by simp)
    simp only [step] at hs
    split at hs
    · exact absurd hs (by simp)
    · rename_i σ1 hot
      injection hs with hs
      injection hs with h1 _
      subst h1
      unfold timer_callback at hot
      obtain ⟨σ2, e1, e2, _⟩ := on_tick_spec pf _ R W C fuel (WF_ticks h (u32 (σ.ticks + 1))) hf
      rw [hot] at e1
      injection e1 with e1
      subst e1
      exact ⟨_, _, e2, by simpa [released_by] using hrel⟩
  | switch_task val =>
    have hrel := step_releases hs (fun fuel => by simp)
    simp only [step] at hs
    split at hs
    · exact absurd hs (by simp)
    · rename_i σ1 hsw
      injection hs with hs
      injection hs with h1 _
      subst h1
      exact ⟨R, W, switch_task_WF hsw h, by simpa [released_by] using hrel⟩
  | exit code =>
    obtain ⟨R2, W2, C2, c, h2, hcur, hc⟩ := hl
    obtain ⟨rfl, rfl, rfl⟩ := WF_unique h h2
    have hrel := step_releases hs (fun fuel => by simp)
    simp only [step] at hs
    split at hs
    · exact absurd hs (by simp)
    · rename_i σ1 hex
      injection hs with hs
      injection hs with h1 _
      subst h1
      obtain ⟨σl, e1, e2, _⟩ := exit_locked_spec σ R W C c code h hcur hc
      simp only [exit, e1] at hex
      refine ⟨R.erase c, W, ?_, by simpa [released_by] using hrel⟩
      simp only [pending_after, hcur, Option.toList_some, List.singleton_append]
      exact switch_task_WF hex e2
  | cleanup fuel =>
    obtain ⟨R2, W2, C2, h2, hf⟩ := hl
    obtain ⟨rfl, rfl, rfl⟩ := WF_unique h h2
    simp only [step] at hs
    split at hs
    · exact absurd hs (by simp)
    · rename_i σ1 hcl
      injection hs with hs
      injection hs with h1 _
      subst h1
      obtain ⟨σ2, e1, e2, _, e4⟩ := cleanup_loop_spec R W C σ fuel h hf
      have hb : σ.cleanup_queue.begin = C.head? := head_eq h.cleanup
      rw [cleanup, hb, e1] at hcl
      injection hcl with hcl
      subst hcl
      refine ⟨R, W, e2, ?_⟩
      rw [e4]
      simp only [released_by, List.filter_append, filter_release_events]

/-- A run of live callers from a well-formed state that completes: the final
state is well formed, its cleanup queue holds the tasks that have called exit
and are not reaped, the deallocations logged are those of the history of exits
and reaps, and no batch reaped by a cleanup call holds a task twice. -/
theorem run_live_spec (pf : Platform) :
    ∀ (ops : List Op) (σ : Kernel) (R W C : List Ptr) (σ' : Kernel) (ids : List Int),
      WF σ R W C → Live pf ops σ → run_ops pf ops σ = .ok (σ', ids) →
      ∃ R' W', WF σ' R' W' (reap_history pf ops σ C).2.2 ∧
        σ'.trace.filter Event.is_release =
          σ.trace.filter Event.is_release ++ (reap_history pf ops σ C).1 ∧
        ∀ B ∈ (reap_history pf ops σ C).2.1, B.Nodup
  | [], σ, R, W, C, σ', ids, h, _, hr => by
    simp only [run_ops] at hr
    injection hr with hr
    injection hr with h1 _
    subst h1
    exact ⟨R, W, h, by simp [reap_history], by simp [reap_history]⟩
  | op :: ops, σ, R, W, C, σ', ids, h, hl, hr => by
    simp only [run_ops] at hr
    split at hr
    · exact absurd hr (by simp)
    · rename_i σ1 ids1 hst
      split at hr
      · exact absurd hr (by simp)
      · rename_i σ2 ids2 hrun
        injection hr with hr
        injection hr with h1 _
        subst h1
        simp only [Live, hst] at hl
        obtain ⟨R1, W1, k1, k2⟩ := step_live h hl.1 hst
        have hCnd : C.Nodup :=
          (List.nodup_append.1 (List.nodup_append.1 h.nodup).2.1).2.1
        obtain ⟨R2, W2, m1, m2, m3⟩ :=
          run_live_spec pf ops σ1 R1 W1 (pending_after op σ C) σ2 ids2 k1 hl.2 hrun
        simp only [reap_history, hst]
        refine ⟨R2, W2, m1, by rw [m2, k2, List.append_assoc], ?_⟩
        intro B hB
        rcases List.mem_append.1 hB with hB | hB
        · cases op <;> simp [reaped_by] at hB
          rw [hB]
          exact hCnd
        · exact m3 B hB

/-- After init the ready queue holds the new task and the other queues are
empty. -/
theorem init_WF (task0 : Ptr) (stack : Nat) (σ : Kernel) :
    WF (init task0 stack σ) [task0] [] [] := by
  simp only [init, enable_interrupts, make_ready, ready_append, set_state, RunList.append,
    RunList.init]
  refine ⟨?_, ⟨rfl, rfl⟩, ⟨rfl, rfl⟩, by simp⟩
  simp [IsList, Seg]

/-- Reaping in runs of live callers. Only cleanup deallocates: any other
operation that returns, on any state, logs no free_directory and no kfree. For
a run of live callers after init that completes: the cleanup queue of the
final state holds exactly the tasks that have called exit and have not been
reaped; the deallocations logged during the run are, cleanup call by cleanup
call, the directory, kernel stack and record of the tasks that had called exit
since the cleanup call before; no batch holds a task twice. A cleanup on a
state with an empty cleanup queue returns the state as it is, so that a second
cleanup without an exit in between frees nothing. -/
theorem tasks_reaped_once_after_exit (pf : Platform) (task0 : Ptr) (stack : Nat)
    (σ0 : Kernel) (ops : List Op) (σ : Kernel) (ids : List Int)
    (hl : Live pf ops (init task0 stack σ0))
    (hr : run_ops pf ops (init task0 stack σ0) = .ok (σ, ids)) :
    (∀ op τ τ' js, step pf op τ = .ok (τ', js) → (∀ fuel, op ≠ Op.cleanup fuel) →
      τ'.trace.filter Event.is_release = τ.trace.filter Event.is_release) ∧
    (∃ R W, WF σ R W (reap_history pf ops (init task0 stack σ0) []).2.2) ∧
    σ.trace.filter Event.is_release =
      (init task0 stack σ0).trace.filter Event.is_release ++
        (reap_history pf ops (init task0 stack σ0) []).1 ∧
    (∀ B ∈ (reap_history pf ops (init task0 stack σ0) []).2.1, B.Nodup) ∧
    (∀ τ R W fuel, WF τ R W [] → cleanup fuel τ = .ok τ) := by
  obtain ⟨R, W, m1, m2, m3⟩ :=
    run_live_spec pf ops _ [task0] [] [] σ ids (init_WF task0 stack σ0) hl hr
  refine ⟨fun op τ τ' js h hop => step_releases h hop, ⟨R, W, m1⟩, m2, m3, ?_⟩
  intro τ R' W' fuel hw
  have hb : τ.cleanup_queue.begin = ([] : List Ptr).head? := head_eq hw.cleanup
  rw [cleanup, hb]
  exact cleanup_loop_none fuel τ

/-- An instance of reaping by live callers: after init, task 0 forks task 1,
task 1 runs and calls exit(7), and cleanup is called twice. The first cleanup reaps task 1, the
second reaps nothing. -/
theorem tasks_reaped_once_after_exit_witness :
    (∀ op τ τ' js, step demo_platform op τ = .ok (τ', js) → (∀ fuel, op ≠ Op.cleanup fuel) →
      τ'.trace.filter Event.is_release = τ.trace.filter Event.is_release) ∧
    (∃ R W, WF after_reap_twice R W
      (reap_history demo_platform reap_ops (init 1 4096 boot) []).2.2) ∧
    after_reap_twice.trace.filter Event.is_release =
      (init 1 4096 boot).trace.filter Event.is_release ++
        (reap_history demo_platform reap_ops (init 1 4096 boot) []).1 ∧
    (∀ B ∈ (reap_history demo_platform reap_ops (init 1 4096 boot) []).2.1, B.Nodup) ∧
    (∀ τ R W fuel, WF τ R W [] → cleanup fuel τ = .ok τ) :=
  tasks_reaped_once_after_exit demo_platform 1 4096 boot reap_ops after_reap_twice [1]
    ⟨⟨[1], [], [], ⟨⟨rfl, rfl, rfl, rfl⟩, ⟨rfl, rfl⟩, ⟨rfl, rfl⟩, by decide⟩, by decide⟩,
      trivial,
      ⟨[1, 2], [], [], 2, ⟨⟨rfl, rfl, rfl, rfl, rfl, rfl⟩, ⟨rfl, rfl⟩, ⟨rfl, rfl⟩, by decide⟩,
        rfl, by decide⟩,
      ⟨[1], [], [2], ⟨⟨rfl, rfl, rfl, rfl⟩, ⟨rfl, rfl⟩, ⟨rfl, rfl, rfl, rfl⟩, by decide⟩,
        by decide⟩,
      ⟨[1], [], [], ⟨⟨rfl, rfl, rfl, rfl⟩, ⟨rfl, rfl⟩, ⟨rfl, rfl⟩, by decide⟩, by decide⟩,
      trivial⟩
    (show run_reap_twice = .ok (after_reap_twice, [1]) from rfl)

/-- The history of the witness run: the one batch reaped holds task 1 (address
2), whose directory 8, stack 8192 and record are released; the second cleanup
reaps the empty batch; no task is pending at the end. -/
theorem reap_history_of_witness_run :
    reap_history demo_platform reap_ops (init 1 4096 boot) [] =
      ([Event.free_directory 8, Event.kfree 8192, Event.kfree 2], [[2], []], []) := by
  rfl

/-! ## Reaping after a dead task has run on -/

/-- C24, evaluation at the failing input. The run init, fork, fork,
switch_task, exit(7) by task 1, switch_task, exit(5) by task 2 completes its
first six operations with the dead task 1 (address 2) as current. That task
calls exit(9): ready_queue.unlink is applied to a task of the cleanup queue and
leaves the tail pointer of the ready queue at task 2 (address 3), which is on
the cleanup queue. The fork that follows appends the new task (id 3, address
4) behind that tail, which links it into the cleanup queue, and the cleanup
call releases its directory 10, its kernel stack 16384 and its record: the
callers of exit in the run were the tasks at addresses 2, 3 and 2, and the task
at address 4, which never called exit, is freed. -/
theorem cleanup_frees_task_that_never_exited :
    run_dead_caller = .ok (after_dead_caller, [1, 2, 3]) ∧
      (∃ σ6, run_ops demo_platform (dead_caller_ops.take 6) (init 1 4096 boot)
          = .ok (σ6, [1, 2]) ∧
        σ6.current = some 2 ∧ (σ6.mem 2).state = Task.State.eDead ∧
        WF σ6 [1] [] [3, 2]) ∧
      run_ops demo_platform (dead_caller_ops.take 7) (init 1 4096 boot)
        = .ok (dead_caller_before_fork, [1, 2]) ∧
      dead_caller_before_fork.ready_queue = ⟨some 1, some 3⟩ ∧
      dead_caller_before_fork.cleanup_queue.head_ = some 2 ∧
      (dead_caller_before_fork.mem 2).next = some 3 ∧
      (dead_caller_before_fork.mem 3).next = none ∧
      (∃ σ8, fork 10 4 16384 dead_caller_before_fork = .ok (3, σ8) ∧
        (σ8.mem 3).next = some 4 ∧ (σ8.mem 4).next = none ∧ (σ8.mem 4).id = 3 ∧
        σ8.cleanup_queue.head_ = some 2) ∧
      after_dead_caller.trace.filter Event.is_release =
        [Event.free_directory 8, Event.kfree 8192, Event.kfree 2,
         Event.free_directory 9, Event.kfree 12288, Event.kfree 3,
         Event.free_directory 10, Event.kfree 16384, Event.kfree 4] ∧
      (reap_history demo_platform dead_caller_ops (init 1 4096 boot) []).2.1 = [[2, 3, 2]] ∧
      (4 : Ptr) ∉ [2, 3, 2] :=
  ⟨rfl, ⟨_, rfl, rfl, rfl,
      ⟨⟨rfl, rfl, rfl, rfl⟩, ⟨rfl, rfl⟩, ⟨rfl, rfl, rfl, rfl, rfl, rfl⟩, by decide⟩⟩,
    rfl, rfl, rfl, rfl, rfl, ⟨_, rfl, rfl, rfl, rfl, rfl⟩, rfl, rfl, by decide⟩

end Ulysses
